import Mathlib

/-!
# cpp-simple-vector: `ArrayPtr` and `SimpleVector`

A shallow embedding of `src/simple-vector/array_ptr.h` and
`src/simple-vector/simple_vector.h`.

* The free store is explicit: a `Heap` is a list of cells, each either a live
  array of elements or a deleted one.  Pointers are (block, offset) pairs and
  block `0` is `nullptr`.
* Every member function is a function in the `Option` monad over the heap:
  `none` stands for undefined behaviour (a load or store outside a live array,
  an ill-formed iterator range) and for a failed `assert`.
* `size_t` values are natural numbers: an array of `2^63` elements or more
  cannot be allocated, so `size_ + 1` and `capacity_ * 2` never wrap on a
  vector that owns its storage.  Allocation itself never fails in this model.
* Element types come with the value `Type{}` and with the state a moved-from
  object is left in (`Element.moved`); for `int` a move is a copy.
* A `const Type&` parameter is given by the value it refers to where the source
  reads it before it stores anything into an existing array (`PushBack`, the
  fill constructor).  `Insert(ConstIterator, const Type&)` reads it after it has
  shifted elements, so there the parameter is a `ConstRef`, which may name a
  slot of the free store and is read at that point.  A `Type&&` parameter is an
  object of the caller outside the free store, given by its value.
-/

namespace SimpleVectorModel

/-! ## Elements, pointers, the free store -/

/-- Element types: value-initialisation and the moved-from state. -/
class Element (T : Type) where
  /-- The value-initialised object `Type{}`. -/
  dflt : T
  /-- What a move leaves behind in its source. -/
  moved : T → T

/-- For `int`, `Type{}` is `0` and moving is copying. -/
instance instElementInt : Element Int := ⟨0, id⟩

/-- For `std::string`, `Type{}` is the empty string and a moved-from string is empty. -/
instance instElementString : Element String := ⟨"", fun _ => ""⟩

/-- A raw pointer `Type*`: a block of the free store and an offset into it. -/
structure Ptr where
  blk : Nat
  off : Nat
deriving DecidableEq, Repr

/-- The null pointer. -/
def nullptr : Ptr := ⟨0, 0⟩

/-- Pointer arithmetic `p + n`. -/
def Ptr.add (p : Ptr) (n : Nat) : Ptr := ⟨p.blk, p.off + n⟩

/-- Pointer decrement `--p` (meaningful only when `p.off > 0`). -/
def Ptr.pred (p : Ptr) : Ptr := ⟨p.blk, p.off - 1⟩

/-- The free store: block `b + 1` is cell `b`; `none` is a deleted array. -/
structure Heap (T : Type) where
  cells : List (Option (List T))
deriving DecidableEq, Repr

/-- The heap before any allocation. -/
def Heap.init {T : Type} : Heap T := ⟨[]⟩

/-- The live array a block number names, if any. -/
def Heap.block {T : Type} (h : Heap T) : Nat → Option (List T)
  | 0 => none
  | b + 1 => (h.cells[b]?).join

/-- Replace the contents of a block. -/
def Heap.setBlock {T : Type} (h : Heap T) (b : Nat) (c : Option (List T)) : Heap T :=
  match b with
  | 0 => h
  | b + 1 => ⟨h.cells.set b c⟩

/-- Model of `new Type[n]()`: a fresh array of `n` value-initialised elements. -/
def Heap.new_array {T : Type} [Element T] (h : Heap T) (n : Nat) : Heap T × Ptr :=
  (⟨h.cells ++ [some (List.replicate n Element.dflt)]⟩, ⟨h.cells.length + 1, 0⟩)

/-- Model of `delete[] p`: a no-op on `nullptr`, otherwise `p` must be the start
of a live array. -/
def Heap.delete_array {T : Type} (h : Heap T) (p : Ptr) : Option (Heap T) :=
  if p = nullptr then some h
  else
    match h.block p.blk with
    | some _ => if p.off = 0 then some (h.setBlock p.blk none) else none
    | none => none

/-- Read through a pointer. -/
def Heap.load {T : Type} (h : Heap T) (p : Ptr) : Option T :=
  match h.block p.blk with
  | some b => b[p.off]?
  | none => none

/-- Write through a pointer. -/
def Heap.store {T : Type} (h : Heap T) (p : Ptr) (x : T) : Option (Heap T) :=
  match h.block p.blk with
  | some b => if p.off < b.length then some (h.setBlock p.blk (some (b.set p.off x))) else none
  | none => none

/-- A `const Type&` argument. It refers either to an object outside the free
store (a temporary or a variable of the caller, given by its value) or to a slot
of an array in the free store; in the second case its value is whatever the slot
holds at the moment the reference is read. -/
inductive ConstRef (T : Type) where
  | object (x : T)
  | slot (p : Ptr)

/-- Read through a reference in the heap `h`. -/
def Heap.read {T : Type} (h : Heap T) : ConstRef T → Option T
  | .object x => some x
  | .slot p => h.load p

/-- The allocated length of a block, if it is live. -/
def Heap.len {T : Type} (h : Heap T) (b : Nat) : Option Nat := (h.block b).map List.length

/-- A pointer is in bounds: it points at a slot of a live array. -/
def Heap.inb {T : Type} (h : Heap T) (p : Ptr) : Prop := ∃ n, h.len p.blk = some n ∧ p.off < n

/-- Effect of a copy loop: `h2` is `h` with the `n` slots from `d` on holding
what `h` holds in the `n` slots from `s` on; no array changes its length. -/
def Heap.Copied {T : Type} (h h2 : Heap T) (s d : Ptr) (n : Nat) : Prop :=
  (∀ b, h2.len b = h.len b) ∧
  ∀ q, h2.load q =
    if q.blk = d.blk ∧ d.off ≤ q.off ∧ q.off < d.off + n then
      h.load ⟨s.blk, s.off + (q.off - d.off)⟩
    else h.load q

/-- Effect of a move loop: as `Heap.Copied`, and every source slot that was not
overwritten is left in its moved-from state. -/
def Heap.Moved {T : Type} [Element T] (h h2 : Heap T) (s d : Ptr) (n : Nat) : Prop :=
  (∀ b, h2.len b = h.len b) ∧
  ∀ q, h2.load q =
    if q.blk = d.blk ∧ d.off ≤ q.off ∧ q.off < d.off + n then
      h.load ⟨s.blk, s.off + (q.off - d.off)⟩
    else if q.blk = s.blk ∧ s.off ≤ q.off ∧ q.off < s.off + n then
      (h.load q).map Element.moved
    else h.load q

/-! ## The standard algorithms the vector calls -/

/-- Loop of `std::copy`: `*d_first++ = *first++`, `n` times. -/
def copy_loop {T : Type} : Nat → Heap T → Ptr → Ptr → Option (Heap T)
  | 0, h, _, _ => some h
  | n + 1, h, first, d_first =>
    match h.load first with
    | none => none
    | some x =>
      match h.store d_first x with
      | none => none
      | some h1 => copy_loop n h1 (first.add 1) (d_first.add 1)

/-- Loop of `std::move` (and of `std::copy` over move iterators):
`*d_first++ = std::move(*first++)`, `n` times. -/
def move_loop {T : Type} [Element T] : Nat → Heap T → Ptr → Ptr → Option (Heap T)
  | 0, h, _, _ => some h
  | n + 1, h, first, d_first =>
    match h.load first with
    | none => none
    | some x =>
      match h.store d_first x with
      | none => none
      | some h1 =>
        match h1.store first (Element.moved x) with
        | none => none
        | some h2 => move_loop n h2 (first.add 1) (d_first.add 1)

/-- Loop of `std::copy_backward`: `*(--d_last) = *(--last)`, `n` times. -/
def copy_backward_loop {T : Type} : Nat → Heap T → Ptr → Ptr → Option (Heap T)
  | 0, h, _, _ => some h
  | n + 1, h, last, d_last =>
    if last.off = 0 ∨ d_last.off = 0 then none
    else
      match h.load last.pred with
      | none => none
      | some x =>
        match h.store d_last.pred x with
        | none => none
        | some h1 => copy_backward_loop n h1 last.pred d_last.pred

/-- Loop of `std::copy_backward` over move iterators:
`*(--d_last) = std::move(*(--last))`, `n` times. -/
def move_backward_loop {T : Type} [Element T] : Nat → Heap T → Ptr → Ptr → Option (Heap T)
  | 0, h, _, _ => some h
  | n + 1, h, last, d_last =>
    if last.off = 0 ∨ d_last.off = 0 then none
    else
      match h.load last.pred with
      | none => none
      | some x =>
        match h.store d_last.pred x with
        | none => none
        | some h1 =>
          match h1.store last.pred (Element.moved x) with
          | none => none
          | some h2 => move_backward_loop n h2 last.pred d_last.pred

/-- Loop of `std::fill` and of the reset loop in `Resize`: `*first++ = value`. -/
def fill_loop {T : Type} : Nat → Heap T → Ptr → T → Option (Heap T)
  | 0, h, _, _ => some h
  | n + 1, h, first, value =>
    match h.store first value with
    | none => none
    | some h1 => fill_loop n h1 (first.add 1) value

/-- Copy of an initializer list (which lives outside the free store) to `d_first`. -/
def store_list {T : Type} : List T → Heap T → Ptr → Option (Heap T)
  | [], h, _ => some h
  | x :: xs, h, d_first =>
    match h.store d_first x with
    | none => none
    | some h1 => store_list xs h1 (d_first.add 1)

/-- A valid iterator range `[first, last)`: one array, `first` not after `last`. -/
def valid_range (first last : Ptr) : Prop := first.blk = last.blk ∧ first.off ≤ last.off

instance (first last : Ptr) : Decidable (valid_range first last) := by
  unfold valid_range; infer_instance

/-- Model of `std::copy(first, last, d_first)`. -/
def std_copy {T : Type} (h : Heap T) (first last d_first : Ptr) : Option (Heap T) :=
  if valid_range first last then copy_loop (last.off - first.off) h first d_first else none

/-- Model of `std::move(first, last, d_first)` and of `std::copy` over move iterators. -/
def std_move {T : Type} [Element T] (h : Heap T) (first last d_first : Ptr) : Option (Heap T) :=
  if valid_range first last then move_loop (last.off - first.off) h first d_first else none

/-- Model of `std::copy_backward(first, last, d_last)`. -/
def std_copy_backward {T : Type} (h : Heap T) (first last d_last : Ptr) : Option (Heap T) :=
  if valid_range first last then copy_backward_loop (last.off - first.off) h last d_last else none

/-- Model of `std::copy_backward` over move iterators. -/
def std_move_backward {T : Type} [Element T] (h : Heap T) (first last d_last : Ptr) :
    Option (Heap T) :=
  if valid_range first last then move_backward_loop (last.off - first.off) h last d_last else none

/-- Model of `std::fill(first, last, value)`. -/
def std_fill {T : Type} (h : Heap T) (first last : Ptr) (value : T) : Option (Heap T) :=
  if valid_range first last then fill_loop (last.off - first.off) h first value else none

/-- Pointer comparison `a <= b`, defined inside one array. -/
def ptr_le (a b : Ptr) : Prop := a.blk = b.blk ∧ a.off ≤ b.off

instance (a b : Ptr) : Decidable (ptr_le a b) := by
  unfold ptr_le; infer_instance

/-- Pointer difference `a - b` as a `size_t`, defined when `b <= a` in one array. -/
def ptr_diff (a b : Ptr) : Option Nat :=
  if ptr_le b a then some (a.off - b.off) else none

/-! ## `ArrayPtr` (array_ptr.h) -/

/-- The owning buffer: the single field `raw_ptr_`. -/
structure ArrayPtr where
  raw_ptr_ : Ptr
deriving DecidableEq, Repr

namespace ArrayPtr

/-- Default construction `ArrayPtr() = default`: `raw_ptr_ = nullptr`. -/
def empty : ArrayPtr := ⟨nullptr⟩

/-- The constructor `ArrayPtr(size_t size)`: `new Type[size]()` always runs,
and the handle is `nullptr` when `size == 0`. -/
def create {T : Type} [Element T] (h : Heap T) (size : Nat) : Heap T × ArrayPtr :=
  let r := h.new_array size
  (r.1, ⟨if size = 0 then nullptr else r.2⟩)

/-- The constructor `ArrayPtr(Type* raw_ptr)`. -/
def adopt (raw_ptr : Ptr) : ArrayPtr := ⟨raw_ptr⟩

/-- The move constructor `ArrayPtr(ArrayPtr&& other)`: `raw_ptr_ = std::move(other.raw_ptr_)`.
Returns the new object and `other` afterwards. -/
def move_ctor (other : ArrayPtr) : ArrayPtr × ArrayPtr :=
  (⟨other.raw_ptr_⟩, other)

/-- The move assignment `operator=(ArrayPtr&& other)`, with its `assert`.
Returns `*this` and `other` afterwards. -/
def move_assign (this other : ArrayPtr) : Option (ArrayPtr × ArrayPtr) :=
  if this.raw_ptr_ ≠ other.raw_ptr_ then some (⟨other.raw_ptr_⟩, other) else none

/-- The destructor `~ArrayPtr()`: `delete[] raw_ptr_`. -/
def destroy {T : Type} (h : Heap T) (this : ArrayPtr) : Option (Heap T) :=
  h.delete_array this.raw_ptr_

/-- The member `Release()`: returns the handle and the emptied object. -/
def Release (this : ArrayPtr) : Ptr × ArrayPtr :=
  (this.raw_ptr_, ⟨nullptr⟩)

/-- The member `operator[]`: a reference to `raw_ptr_[index]`, unchecked. -/
def index (this : ArrayPtr) (i : Nat) : Ptr := this.raw_ptr_.add i

/-- The member `explicit operator bool()`. -/
def toBool (this : ArrayPtr) : Bool :=
  if this.raw_ptr_ = nullptr then false else true

/-- The member `Get()`. -/
def Get (this : ArrayPtr) : Ptr := this.raw_ptr_

/-- The member `swap(ArrayPtr& other)`: returns `*this` and `other` afterwards. -/
def swap (this other : ArrayPtr) : ArrayPtr × ArrayPtr :=
  let tmp := other.raw_ptr_
  (⟨tmp⟩, ⟨this.raw_ptr_⟩)

end ArrayPtr

/-- The generic `std::swap(a, b)` instantiated at `ArrayPtr`:
`ArrayPtr tmp(std::move(a)); a = std::move(b); b = std::move(tmp);` and then
the destructor of `tmp`. -/
def std_swap_ArrayPtr {T : Type} (h : Heap T) (a b : ArrayPtr) :
    Option (Heap T × ArrayPtr × ArrayPtr) :=
  let r0 := ArrayPtr.move_ctor a
  match ArrayPtr.move_assign r0.2 b with
  | none => none
  | some (a1, b1) =>
    match ArrayPtr.move_assign b1 r0.1 with
    | none => none
    | some (b2, tmp2) =>
      match tmp2.destroy h with
      | none => none
      | some h1 => some (h1, a1, b2)

/-! ## `SimpleVector` (simple_vector.h) -/

/-- The reservation token `ReserveProxyObj`. -/
structure ReserveProxyObj where
  capacity_ : Nat
deriving DecidableEq, Repr

/-- The member `ReserveProxyObj::getCapacity()`. -/
def ReserveProxyObj.getCapacity (p : ReserveProxyObj) : Nat := p.capacity_

/-- The free function `Reserve(capacity_to_reserve)`. -/
def Reserve (capacity_to_reserve : Nat) : ReserveProxyObj := ⟨capacity_to_reserve⟩

/-- The three fields of `SimpleVector<Type>`. -/
structure SimpleVector where
  items_ : ArrayPtr
  size_ : Nat
  capacity_ : Nat
deriving DecidableEq, Repr

/-- What `At` throws. -/
inductive Exception where
  | out_of_range
deriving DecidableEq, Repr

namespace SimpleVector

/-- The default constructor: null buffer, `size_ = 0`, `capacity_ = 0`. -/
def empty : SimpleVector := ⟨ArrayPtr.empty, 0, 0⟩

/-- The member `GetSize()`. -/
def GetSize (v : SimpleVector) : Nat := v.size_

/-- The member `GetCapacity()`. -/
def GetCapacity (v : SimpleVector) : Nat := v.capacity_

/-- The member `IsEmpty()`. -/
def IsEmpty (v : SimpleVector) : Bool := v.size_ == 0

/-- The member `begin()` (and `cbegin()`). -/
def begin (v : SimpleVector) : Ptr := v.items_.Get

/-- The member `end()` (and `cend()`). -/
def end_ (v : SimpleVector) : Ptr := v.items_.Get.add v.size_

/-- The member `swap(SimpleVector& other)`: returns `*this` and `other` afterwards. -/
def swap (v other : SimpleVector) : SimpleVector × SimpleVector :=
  let r := v.items_.swap other.items_
  (⟨r.1, other.size_, other.capacity_⟩, ⟨r.2, v.size_, v.capacity_⟩)

/-- The implicit destructor: destroys `items_`. -/
def destroy {T : Type} (h : Heap T) (v : SimpleVector) : Option (Heap T) :=
  v.items_.destroy h

/-- The constructor `SimpleVector(size_t size, const Type& value)`. -/
def ctor_fill {T : Type} [Element T] (h : Heap T) (size : Nat) (value : T) :
    Option (Heap T × SimpleVector) :=
  let r := ArrayPtr.create h size
  let v : SimpleVector := ⟨r.2, size, size⟩
  match std_fill r.1 v.begin v.end_ value with
  | none => none
  | some h1 => some (h1, v)

/-- The constructor `SimpleVector(size_t size)`, delegating with `Type{}`. -/
def ctor_size {T : Type} [Element T] (h : Heap T) (size : Nat) :
    Option (Heap T × SimpleVector) :=
  ctor_fill h size (Element.dflt : T)

/-- The constructor `SimpleVector(std::initializer_list<Type> init)`. -/
def ctor_init {T : Type} [Element T] (h : Heap T) (init : List T) :
    Option (Heap T × SimpleVector) :=
  let r := ArrayPtr.create h init.length
  let v : SimpleVector := ⟨r.2, init.length, init.length⟩
  match store_list init r.1 v.begin with
  | none => none
  | some h1 => some (h1, v)

/-- The copy constructor: `items_(other.size_)`, `size_(other.size_)`,
`capacity_(other.capacity_)`, then `std::copy(other.begin(), other.end(), begin())`. -/
def copy_ctor {T : Type} [Element T] (h : Heap T) (other : SimpleVector) :
    Option (Heap T × SimpleVector) :=
  let r := ArrayPtr.create h other.size_
  let v : SimpleVector := ⟨r.2, other.size_, other.capacity_⟩
  match std_copy r.1 other.begin other.end_ v.begin with
  | none => none
  | some h1 => some (h1, v)

/-- The move constructor: returns the heap, the new vector and `other` afterwards. -/
def move_ctor {T : Type} (h : Heap T) (other : SimpleVector) :
    Option (Heap T × SimpleVector × SimpleVector) :=
  let this : SimpleVector := empty
  let this1 : SimpleVector := { this with size_ := other.size_ }
  let other1 : SimpleVector := { other with size_ := 0 }
  let this2 : SimpleVector := { this1 with capacity_ := other1.capacity_ }
  let other2 : SimpleVector := { other1 with capacity_ := 0 }
  match std_swap_ArrayPtr h this2.items_ other2.items_ with
  | none => none
  | some (h1, a, b) => some (h1, { this2 with items_ := a }, { other2 with items_ := b })

/-- The unchecked `operator[]` with its `assert(index < size_)`: a reference to the slot. -/
def subscript (v : SimpleVector) (index : Nat) : Option Ptr :=
  if index < v.size_ then some (v.items_.index index) else none

/-- The member `At(index)`: throws `out_of_range` when `index >= size_`, otherwise
returns a reference to `items_[index]`.  The state is passed through. -/
def At {T : Type} (h : Heap T) (v : SimpleVector) (index : Nat) :
    (Heap T × SimpleVector) × Except Exception Ptr :=
  ((h, v), if index ≥ v.size_ then Except.error Exception.out_of_range
           else Except.ok (v.items_.index index))

/-- The member `Reserve(new_capacity)`. -/
def Reserve {T : Type} [Element T] (h : Heap T) (v : SimpleVector) (new_capacity : Nat) :
    Option (Heap T × SimpleVector) :=
  if new_capacity < v.capacity_ then some (h, v)
  else
    match ctor_size h new_capacity with
    | none => none
    | some (h1, tmp) =>
      match std_copy h1 v.begin v.end_ tmp.begin with
      | none => none
      | some h2 =>
        let r := v.swap tmp
        let v2 : SimpleVector := { r.1 with size_ := r.2.size_ }
        match r.2.destroy h2 with
        | none => none
        | some h3 => some (h3, v2)

/-- The constructor `SimpleVector(const ReserveProxyObj& proxyObj)`. -/
def ctor_reserve {T : Type} [Element T] (h : Heap T) (proxyObj : ReserveProxyObj) :
    Option (Heap T × SimpleVector) :=
  Reserve h empty proxyObj.getCapacity

/-- The copy assignment `operator=(const SimpleVector& rhs)`. -/
def copy_assign {T : Type} [Element T] (h : Heap T) (v rhs : SimpleVector) :
    Option (Heap T × SimpleVector) :=
  if rhs.items_.Get ≠ v.items_.Get then
    match copy_ctor h rhs with
    | none => none
    | some (h1, tmp) =>
      let r := v.swap tmp
      match r.2.destroy h1 with
      | none => none
      | some h2 => some (h2, r.1)
  else some (h, v)

/-- The member `PushBack(const Type& item)`. -/
def PushBack {T : Type} [Element T] (h : Heap T) (v : SimpleVector) (item : T) :
    Option (Heap T × SimpleVector) :=
  if v.size_ < v.capacity_ then
    match h.store (v.items_.index v.size_) item with
    | none => none
    | some h1 => some (h1, { v with size_ := v.size_ + 1 })
  else
    match ctor_size h (max (v.size_ + 1) (v.capacity_ * 2)) with
    | none => none
    | some (h1, tmp) =>
      match std_copy h1 v.begin v.end_ tmp.begin with
      | none => none
      | some h2 =>
        match tmp.subscript v.size_ with
        | none => none
        | some slot =>
          match h2.store slot item with
          | none => none
          | some h3 =>
            let r := v.swap tmp
            let tmp1 : SimpleVector := { r.2 with size_ := r.2.size_ + 1 }
            let v2 : SimpleVector := { r.1 with size_ := tmp1.size_ }
            match tmp1.destroy h3 with
            | none => none
            | some h4 => some (h4, v2)

/-- The member `PushBack(Type&& item)`. -/
def PushBack_move {T : Type} [Element T] (h : Heap T) (v : SimpleVector) (item : T) :
    Option (Heap T × SimpleVector) :=
  if v.size_ < v.capacity_ then
    match h.store (v.items_.index v.size_) item with
    | none => none
    | some h1 => some (h1, { v with size_ := v.size_ + 1 })
  else
    let r := ArrayPtr.create h (max (v.size_ + 1) (v.capacity_ * 2))
    let v1 : SimpleVector := { v with capacity_ := max (v.size_ + 1) (v.capacity_ * 2) }
    match std_move r.1 v1.begin v1.end_ (r.2.index 0) with
    | none => none
    | some h2 =>
      match h2.store (r.2.index v1.size_) item with
      | none => none
      | some h3 =>
        let v2 : SimpleVector := { v1 with size_ := v1.size_ + 1 }
        let s := v2.items_.swap r.2
        match s.2.destroy h3 with
        | none => none
        | some h4 => some (h4, { v2 with items_ := s.1 })

/-- The member `Insert(ConstIterator pos, const Type& value)`: returns the heap,
the vector and the returned iterator. The argument is a reference: it is read
where the source reads it, after the elements have been shifted. -/
def Insert {T : Type} [Element T] (h : Heap T) (v : SimpleVector) (pos : Ptr)
    (value : ConstRef T) : Option (Heap T × SimpleVector × Ptr) :=
  if ptr_le v.begin pos ∧ ptr_le pos v.end_ then
    if v.size_ < v.capacity_ then
      match std_copy_backward h pos v.end_ (v.end_.add 1) with
      | none => none
      | some h1 =>
        match ptr_diff pos v.begin with
        | none => none
        | some d =>
          match h1.read value with
          | none => none
          | some x =>
            match h1.store (v.items_.index d) x with
            | none => none
            | some h2 =>
              let v1 : SimpleVector := { v with size_ := v.size_ + 1 }
              some (h2, v1, if pos = nullptr then v1.begin else pos)
    else
      match ptr_diff pos v.begin with
      | none => none
      | some shift =>
        match ctor_size h (max (v.size_ + 1) (v.capacity_ * 2)) with
        | none => none
        | some (h1, tmp) =>
          let tmp1 : SimpleVector := { tmp with size_ := v.size_ }
          match std_copy h1 v.begin v.end_ tmp1.begin with
          | none => none
          | some h2 =>
            match std_copy_backward h2 pos v.end_ (tmp1.end_.add 1) with
            | none => none
            | some h3 =>
              match h3.read value with
              | none => none
              | some x =>
                match h3.store (tmp1.items_.index shift) x with
                | none => none
                | some h4 =>
                  let r := v.swap tmp1
                  let v2 : SimpleVector := { r.1 with size_ := r.1.size_ + 1 }
                  match r.2.destroy h4 with
                  | none => none
                  | some h5 => some (h5, v2, v2.begin.add shift)
  else none

/-- The member `Insert(ConstIterator pos, Type&& value)`. -/
def Insert_move {T : Type} [Element T] (h : Heap T) (v : SimpleVector) (pos : Ptr) (value : T) :
    Option (Heap T × SimpleVector × Ptr) :=
  if ptr_le v.begin pos ∧ ptr_le pos v.end_ then
    if v.size_ < v.capacity_ then
      match std_move_backward h pos v.end_ (v.end_.add 1) with
      | none => none
      | some h1 =>
        match ptr_diff pos v.begin with
        | none => none
        | some d =>
          match h1.store (v.items_.index d) value with
          | none => none
          | some h2 =>
            let v1 : SimpleVector := { v with size_ := v.size_ + 1 }
            some (h2, v1, if pos = nullptr then v1.begin else pos)
    else
      match ptr_diff pos v.begin with
      | none => none
      | some shift =>
        let r := ArrayPtr.create h (max (v.size_ + 1) (v.capacity_ * 2))
        match std_move r.1 v.begin v.end_ (r.2.index 0) with
        | none => none
        | some h2 =>
          match std_move_backward h2 pos v.end_ ((r.2.index v.size_).add 1) with
          | none => none
          | some h3 =>
            match h3.store (r.2.index shift) value with
            | none => none
            | some h4 =>
              let s := v.items_.swap r.2
              let v1 : SimpleVector :=
                { v with items_ := s.1, capacity_ := max (v.size_ + 1) (v.capacity_ * 2) }
              let v2 : SimpleVector := { v1 with size_ := v1.size_ + 1 }
              match s.2.destroy h4 with
              | none => none
              | some h5 => some (h5, v2, v2.begin.add shift)
  else none

/-- The member `PopBack()`, with its `assert(size_ != 0)`. -/
def PopBack (v : SimpleVector) : Option SimpleVector :=
  if v.size_ ≠ 0 then some { v with size_ := v.size_ - 1 } else none

/-- The member `Erase(ConstIterator pos)`: returns the heap, the vector and the
returned iterator. -/
def Erase {T : Type} [Element T] (h : Heap T) (v : SimpleVector) (pos : Ptr) :
    Option (Heap T × SimpleVector × Ptr) :=
  if v.size_ ≠ 0 then
    match ptr_diff pos v.begin with
    | none => none
    | some shift =>
      match std_move h (pos.add 1) v.end_ pos with
      | none => none
      | some h1 =>
        let v1 : SimpleVector := { v with size_ := v.size_ - 1 }
        some (h1, v1, v1.begin.add shift)
  else none

/-- The member `Clear()`. -/
def Clear (v : SimpleVector) : SimpleVector := { v with size_ := 0 }

/-- The member `Resize(new_size)`. -/
def Resize {T : Type} [Element T] (h : Heap T) (v : SimpleVector) (new_size : Nat) :
    Option (Heap T × SimpleVector) :=
  if new_size < v.size_ then some (h, { v with size_ := new_size })
  else if new_size > v.capacity_ then
    let r := ArrayPtr.create h (max new_size (v.capacity_ * 2))
    match std_move r.1 v.begin v.end_ (r.2.index 0) with
    | none => none
    | some h2 =>
      let v1 : SimpleVector := { v with size_ := new_size }
      let v2 : SimpleVector :=
        { v1 with capacity_ := if v1.capacity_ * 2 > new_size then v1.capacity_ * 2 else new_size }
      let s := v2.items_.swap r.2
      match s.2.destroy h2 with
      | none => none
      | some h3 => some (h3, { v2 with items_ := s.1 })
  else if new_size < v.capacity_ then
    let distance := new_size - v.size_
    match fill_loop distance h v.end_ (Element.dflt : T) with
    | none => none
    | some h1 => some (h1, { v with size_ := new_size })
  else some (h, v)

/-- The logical sequence: the `size_` elements starting at `begin()`, read from
the heap (empty when the buffer is not a live array). -/
def toList {T : Type} (h : Heap T) (v : SimpleVector) : List T :=
  (((h.block v.items_.raw_ptr_.blk).getD []).drop v.items_.raw_ptr_.off).take v.size_

/-- The storage the vector owns: every slot of the array behind `items_`. -/
def slots {T : Type} (h : Heap T) (v : SimpleVector) : Option (List T) :=
  h.block v.items_.raw_ptr_.blk

/-- The representation invariant of a vector that owns its storage:
`size_ <= capacity_`, and the buffer is either null with `capacity_ = 0` or the
start of a live array of exactly `capacity_` slots. -/
def WF {T : Type} (h : Heap T) (v : SimpleVector) : Prop :=
  v.size_ ≤ v.capacity_ ∧ v.items_.raw_ptr_.off = 0 ∧
    if v.capacity_ = 0 then v.items_.raw_ptr_.blk = 0
    else (h.block v.items_.raw_ptr_.blk).map List.length = some v.capacity_

instance {T : Type} (h : Heap T) (v : SimpleVector) : Decidable (WF h v) := by
  unfold WF; infer_instance

/-- What a call on the vector `v` may do to the free store: every array alive in
`h` other than the buffer of `v` is left as it was, and the buffer of `v2` is the
buffer of `v` or an array that was not alive in `h`. -/
def Confined {T : Type} (h h2 : Heap T) (v v2 : SimpleVector) : Prop :=
  (∀ b, b ≠ v.items_.raw_ptr_.blk → h.block b ≠ none → h2.block b = h.block b) ∧
    (v2.items_.raw_ptr_.blk = v.items_.raw_ptr_.blk ∨ h.block v2.items_.raw_ptr_.blk = none)

/-- Assignment through the unchecked `operator[]`: `v[index] = value`. -/
def assign {T : Type} (h : Heap T) (v : SimpleVector) (index : Nat) (value : T) :
    Option (Heap T × SimpleVector) :=
  match v.subscript index with
  | none => none
  | some slot =>
    match h.store slot value with
    | none => none
    | some h1 => some (h1, v)

end SimpleVector

/-- A mutating call on one vector. -/
inductive Mutation (T : Type) where
  | pushBack (item : T)
  | pushBackMove (item : T)
  | insert (pos : Ptr) (value : ConstRef T)
  | insertMove (pos : Ptr) (value : T)
  | popBack
  | erase (pos : Ptr)
  | reserve (new_capacity : Nat)
  | resize (new_size : Nat)
  | clear
  | assign (index : Nat) (value : T)

/-- Run one mutating call. -/
def Mutation.apply {T : Type} [Element T] (m : Mutation T) (h : Heap T) (v : SimpleVector) :
    Option (Heap T × SimpleVector) :=
  match m with
  | .pushBack item => SimpleVector.PushBack h v item
  | .pushBackMove item => SimpleVector.PushBack_move h v item
  | .insert pos value => (SimpleVector.Insert h v pos value).map (fun r => (r.1, r.2.1))
  | .insertMove pos value => (SimpleVector.Insert_move h v pos value).map (fun r => (r.1, r.2.1))
  | .popBack => (SimpleVector.PopBack v).map (fun v1 => (h, v1))
  | .erase pos => (SimpleVector.Erase h v pos).map (fun r => (r.1, r.2.1))
  | .reserve new_capacity => SimpleVector.Reserve h v new_capacity
  | .resize new_size => SimpleVector.Resize h v new_size
  | .clear => some (h, SimpleVector.Clear v)
  | .assign index value => SimpleVector.assign h v index value

/-- Run a sequence of mutating calls on one vector. -/
def Mutation.applyAll {T : Type} [Element T] :
    List (Mutation T) → Heap T → SimpleVector → Option (Heap T × SimpleVector)
  | [], h, v => some (h, v)
  | m :: ms, h, v =>
    match m.apply h v with
    | none => none
    | some (h1, v1) => Mutation.applyAll ms h1 v1

/-- A program state: the free store and the vector objects constructed so far. -/
structure Program (T : Type) where
  heap : Heap T
  vectors : List SimpleVector
deriving DecidableEq, Repr

/-- The state before anything is constructed. -/
def Program.init {T : Type} : Program T := ⟨Heap.init, []⟩

/-- One step of a client program: a constructor call, or a public call on vectors
that already exist (named by their position in `vectors`). -/
inductive Command (T : Type) where
  | construct_default
  | construct_size (size : Nat)
  | construct_fill (size : Nat) (value : T)
  | construct_init (init : List T)
  | construct_copy (other : Nat)
  | construct_move (other : Nat)
  | construct_reserve (proxyObj : ReserveProxyObj)
  | mutate (target : Nat) (m : Mutation T)
  | swap (target other : Nat)
  | copy_assign (target rhs : Nat)

/-- Run one command; `none` when a named vector does not exist or the call is
outside its preconditions. -/
def Command.exec {T : Type} [Element T] (c : Command T) (p : Program T) : Option (Program T) :=
  match c with
  | .construct_default => some ⟨p.heap, p.vectors ++ [SimpleVector.empty]⟩
  | .construct_size size =>
    match SimpleVector.ctor_size p.heap size with
    | none => none
    | some (h1, v) => some ⟨h1, p.vectors ++ [v]⟩
  | .construct_fill size value =>
    match SimpleVector.ctor_fill p.heap size value with
    | none => none
    | some (h1, v) => some ⟨h1, p.vectors ++ [v]⟩
  | .construct_init init =>
    match SimpleVector.ctor_init p.heap init with
    | none => none
    | some (h1, v) => some ⟨h1, p.vectors ++ [v]⟩
  | .construct_copy other =>
    match p.vectors[other]? with
    | none => none
    | some o =>
      match SimpleVector.copy_ctor p.heap o with
      | none => none
      | some (h1, v) => some ⟨h1, p.vectors ++ [v]⟩
  | .construct_move other =>
    match p.vectors[other]? with
    | none => none
    | some o =>
      match SimpleVector.move_ctor p.heap o with
      | none => none
      | some (h1, v, o1) => some ⟨h1, p.vectors.set other o1 ++ [v]⟩
  | .construct_reserve proxyObj =>
    match SimpleVector.ctor_reserve p.heap proxyObj with
    | none => none
    | some (h1, v) => some ⟨h1, p.vectors ++ [v]⟩
  | .mutate target m =>
    match p.vectors[target]? with
    | none => none
    | some v =>
      match m.apply p.heap v with
      | none => none
      | some (h1, v1) => some ⟨h1, p.vectors.set target v1⟩
  | .swap target other =>
    match p.vectors[target]?, p.vectors[other]? with
    | some v, some o =>
      let r := v.swap o
      some ⟨p.heap, (p.vectors.set target r.1).set other r.2⟩
    | _, _ => none
  | .copy_assign target rhs =>
    match p.vectors[target]?, p.vectors[rhs]? with
    | some v, some r =>
      match SimpleVector.copy_assign p.heap v r with
      | none => none
      | some (h1, v1) => some ⟨h1, p.vectors.set target v1⟩
    | _, _ => none

/-- Run a client program from a state. -/
def Program.run {T : Type} [Element T] : List (Command T) → Program T → Option (Program T)
  | [], p => some p
  | c :: cs, p =>
    match c.exec p with
    | none => none
    | some p1 => Program.run cs p1

/-- The states a client program can reach from the initial one. -/
def Program.Reachable {T : Type} [Element T] (p : Program T) : Prop :=
  ∃ cs : List (Command T), Program.run cs Program.init = some p

/-- A client program over `int` that uses every constructor. -/
def Program.demo_commands : List (Command Int) :=
  [Command.construct_init [1, 2, 3], Command.construct_copy 0,
    Command.mutate 1 (Mutation.pushBack 7), Command.swap 0 1, Command.construct_move 1,
    Command.copy_assign 0 2, Command.mutate 0 (Mutation.erase ⟨4, 0⟩),
    Command.construct_reserve (Reserve 5), Command.mutate 3 (Mutation.insertMove ⟨5, 0⟩ 4),
    Command.construct_default, Command.construct_size 2, Command.construct_fill 2 7,
    Command.mutate 5 (Mutation.resize 1), Command.mutate 6 Mutation.popBack,
    Command.mutate 4 (Mutation.pushBackMove 8), Command.mutate 2 Mutation.clear]

/-- The state `Program.demo_commands` ends in. -/
def Program.demo_state : Program Int :=
  ⟨⟨[some [1, 2, 3], none, none, some [2, 3, 3], some [4, 0, 0, 0, 0], some [0, 0],
      some [7, 7], some [8]]⟩,
    [⟨⟨⟨4, 0⟩⟩, 2, 3⟩, ⟨⟨⟨0, 0⟩⟩, 0, 0⟩, ⟨⟨⟨1, 0⟩⟩, 0, 3⟩, ⟨⟨⟨5, 0⟩⟩, 1, 5⟩,
      ⟨⟨⟨8, 0⟩⟩, 1, 1⟩, ⟨⟨⟨6, 0⟩⟩, 1, 2⟩, ⟨⟨⟨7, 0⟩⟩, 1, 2⟩]⟩

/-! ## Comparison operators (simple_vector.h, lines 247-275) -/

/-- Loop of `std::lexicographical_compare` over ranges of `n1` and `n2` elements:
while both ranges are non-empty, `*first1 < *first2` returns `true`,
`*first2 < *first1` returns `false`; at the end `true` iff only the first range is
exhausted. -/
def lexicographical_compare_loop {T : Type} [LT T] [DecidableRel (fun x y : T => x < y)] :
    Nat → Nat → Heap T → Ptr → Ptr → Option Bool
  | 0, 0, _, _, _ => some false
  | 0, _ + 1, _, _, _ => some true
  | _ + 1, 0, _, _, _ => some false
  | n1 + 1, n2 + 1, h, first1, first2 =>
    match h.load first1 with
    | none => none
    | some x =>
      match h.load first2 with
      | none => none
      | some y =>
        if x < y then some true
        else if y < x then some false
        else lexicographical_compare_loop n1 n2 h (first1.add 1) (first2.add 1)

/-- Model of `std::lexicographical_compare(first1, last1, first2, last2)`. -/
def std_lexicographical_compare {T : Type} [LT T] [DecidableRel (fun x y : T => x < y)]
    (h : Heap T) (first1 last1 first2 last2 : Ptr) : Option Bool :=
  if valid_range first1 last1 ∧ valid_range first2 last2 then
    lexicographical_compare_loop (last1.off - first1.off) (last2.off - first2.off) h
      first1 first2
  else none

/-- The free function `operator<`: `std::lexicographical_compare` over both ranges. -/
def operator_lt {T : Type} [LT T] [DecidableRel (fun x y : T => x < y)]
    (h : Heap T) (lhs rhs : SimpleVector) : Option Bool :=
  std_lexicographical_compare h lhs.begin lhs.end_ rhs.begin rhs.end_

/-- Sequential `PushBack` calls, one per list entry (`true` selects the `Type&&`
overload).  The third component counts the calls that reallocate, that is the calls
that find `size_ < capacity_` false on entry. -/
def push_back_all {T : Type} [Element T] :
    List (Bool × T) → Heap T → SimpleVector → Option (Heap T × SimpleVector × Nat)
  | [], h, v => some (h, v, 0)
  | (mv, item) :: rest, h, v =>
    match (if mv then SimpleVector.PushBack_move h v item
           else SimpleVector.PushBack h v item) with
    | none => none
    | some (h1, v1) =>
      match push_back_all rest h1 v1 with
      | none => none
      | some (h2, v2, k) => some (h2, v2, (if v.size_ < v.capacity_ then 0 else 1) + k)

variable {T : Type}

/-! ## Facts about the free store -/

theorem Ptr.eq_iff (p q : Ptr) : p = q ↔ p.blk = q.blk ∧ p.off = q.off := by
  cases p; cases q; simp

theorem Heap.block_setBlock (h : Heap T) (b b' : Nat) (c : Option (List T))
    (hlive : h.block b ≠ none) :
    (h.setBlock b c).block b' = if b' = b then c else h.block b' := by
  cases b with
  | zero => simp [Heap.block] at hlive
  | succ b =>
    cases b' with
    | zero => simp [Heap.block]
    | succ b' =>
      simp only [Heap.block, Heap.setBlock] at *
      have hlt : b < h.cells.length := by
        by_contra hc
        have : h.cells[b]? = none := List.getElem?_eq_none (by omega)
        simp [this] at hlive
      by_cases hbb : b' = b
      · subst hbb; simp [List.getElem?_set, hlt]
      · have : ¬ b = b' := fun e => hbb e.symm
        simp [List.getElem?_set, hbb, this]

theorem Heap.len_eq_some_iff (h : Heap T) (b n : Nat) :
    h.len b = some n ↔ ∃ l, h.block b = some l ∧ l.length = n := by
  simp [Heap.len]

theorem Heap.block_le_cells (h : Heap T) (b : Nat) (hlive : h.block b ≠ none) :
    b ≤ h.cells.length := by
  cases b with
  | zero => simp [Heap.block] at hlive
  | succ b =>
    by_contra hc
    have : h.cells[b]? = none := List.getElem?_eq_none (by omega)
    simp [Heap.block, this] at hlive

theorem Heap.len_le_cells (h : Heap T) (b n : Nat) (hlen : h.len b = some n) :
    b ≤ h.cells.length := by
  apply Heap.block_le_cells
  intro hc
  simp [Heap.len, hc] at hlen

theorem Heap.load_eq (h : Heap T) (p : Ptr) (l : List T) (hb : h.block p.blk = some l) :
    h.load p = l[p.off]? := by
  simp [Heap.load, hb]

theorem Heap.load_none_of_dead (h : Heap T) (p : Ptr) (hb : h.block p.blk = none) :
    h.load p = none := by
  simp [Heap.load, hb]

theorem Heap.load_isSome_of_inb (h : Heap T) (p : Ptr) (hin : h.inb p) :
    ∃ x, h.load p = some x := by
  obtain ⟨n, hn, hlt⟩ := hin
  obtain ⟨l, hl, hlen⟩ := (Heap.len_eq_some_iff h _ _).1 hn
  refine ⟨l[p.off], ?_⟩
  rw [Heap.load_eq h p l hl]
  exact List.getElem?_eq_getElem (by omega)

theorem Heap.inb_of_load (h : Heap T) (p : Ptr) (x : T) (hl : h.load p = some x) :
    h.inb p := by
  unfold Heap.load at hl
  cases hb : h.block p.blk with
  | none => simp [hb] at hl
  | some l =>
    simp only [hb] at hl
    refine ⟨l.length, by simp [Heap.len, hb], ?_⟩
    by_contra hc
    have : l[p.off]? = none := List.getElem?_eq_none (by omega)
    simp [this] at hl

/-- Two heaps that agree on the length and on every slot of a block hold the same block. -/
theorem Heap.block_ext (h h' : Heap T) (b : Nat) (hlen : h'.len b = h.len b)
    (hload : ∀ j, h'.load ⟨b, j⟩ = h.load ⟨b, j⟩) : h'.block b = h.block b := by
  cases hb : h.block b with
  | none =>
    cases hb' : h'.block b with
    | none => rfl
    | some l' => simp [Heap.len, hb, hb'] at hlen
  | some l =>
    cases hb' : h'.block b with
    | none => simp [Heap.len, hb, hb'] at hlen
    | some l' =>
      congr 1
      apply List.ext_getElem?
      intro j
      have := hload j
      rwa [Heap.load_eq h' ⟨b, j⟩ l' hb', Heap.load_eq h ⟨b, j⟩ l hb] at this

theorem Heap.store_ok (h : Heap T) (p : Ptr) (x : T) (hin : h.inb p) :
    ∃ h', h.store p x = some h' := by
  obtain ⟨n, hn, hlt⟩ := hin
  obtain ⟨l, hl, hlen⟩ := (Heap.len_eq_some_iff h _ _).1 hn
  refine ⟨h.setBlock p.blk (some (l.set p.off x)), ?_⟩
  simp [Heap.store, hl, hlen, hlt]

theorem Heap.store_inb (h h' : Heap T) (p : Ptr) (x : T) (hst : h.store p x = some h') :
    h.inb p := by
  unfold Heap.store at hst
  cases hb : h.block p.blk with
  | none => simp [hb] at hst
  | some l =>
    simp only [hb] at hst
    split at hst
    · exact ⟨l.length, by simp [Heap.len, hb], by assumption⟩
    · simp at hst

theorem Heap.store_block (h h' : Heap T) (p : Ptr) (x : T) (hst : h.store p x = some h')
    (b : Nat) :
    h'.block b = if b = p.blk then (h.block b).map (fun l => l.set p.off x) else h.block b := by
  unfold Heap.store at hst
  cases hb : h.block p.blk with
  | none => simp [hb] at hst
  | some l =>
    simp only [hb] at hst
    split at hst
    · injection hst with hst
      subst hst
      rw [Heap.block_setBlock h p.blk b _ (by simp [hb])]
      by_cases hbb : b = p.blk
      · subst hbb; simp [hb]
      · simp [hbb]
    · simp at hst

theorem Heap.store_len (h h' : Heap T) (p : Ptr) (x : T) (hst : h.store p x = some h')
    (b : Nat) : h'.len b = h.len b := by
  unfold Heap.len
  rw [Heap.store_block h h' p x hst b]
  split
  · cases h.block b <;> simp
  · rfl

theorem Heap.store_load (h h' : Heap T) (p : Ptr) (x : T) (hst : h.store p x = some h')
    (q : Ptr) : h'.load q = if q = p then some x else h.load q := by
  have hin := Heap.store_inb h h' p x hst
  obtain ⟨n, hn, hlt⟩ := hin
  obtain ⟨l, hl, hlen⟩ := (Heap.len_eq_some_iff h _ _).1 hn
  have hb := Heap.store_block h h' p x hst q.blk
  by_cases hqb : q.blk = p.blk
  · rw [if_pos hqb] at hb
    rw [← hqb] at hl
    rw [hl] at hb
    simp only [Option.map_some'] at hb
    rw [Heap.load_eq h' q _ hb, Heap.load_eq h q _ hl, List.getElem?_set]
    by_cases hqo : p.off = q.off
    · have : q = p := (Ptr.eq_iff q p).2 ⟨hqb, hqo.symm⟩
      have hlt2 : q.off < n := hqo ▸ hlt
      simp [hqo, this, hlen, hlt2]
    · have : ¬ q = p := fun e => hqo (by rw [e])
      simp [hqo, this]
  · rw [if_neg hqb] at hb
    have : ¬ q = p := fun e => hqb (by rw [e])
    simp only [Heap.load, hb, this, if_false]

theorem Heap.store_inb_iff (h h' : Heap T) (p : Ptr) (x : T) (hst : h.store p x = some h')
    (q : Ptr) : h'.inb q ↔ h.inb q := by
  unfold Heap.inb
  rw [Heap.store_len h h' p x hst]

theorem Heap.new_array_block [Element T] (h : Heap T) (n b : Nat) :
    (h.new_array n).1.block b =
      if b = h.cells.length + 1 then some (List.replicate n (Element.dflt : T))
      else h.block b := by
  cases b with
  | zero => simp [Heap.block]
  | succ b =>
    simp only [Heap.block, Heap.new_array, List.getElem?_append]
    by_cases hlt : b < h.cells.length
    · have : ¬ b = h.cells.length := by omega
      simp [hlt, this]
    · by_cases heq : b = h.cells.length
      · subst heq; simp
      · have h1 : h.cells[b]? = none := List.getElem?_eq_none (by omega)
        have h2 : ([some (List.replicate n (Element.dflt : T))] : List (Option (List T)))[b - h.cells.length]? = none :=
          List.getElem?_eq_none (by simp; omega)
        simp [hlt, heq, h1, h2]

theorem Heap.new_array_ptr [Element T] (h : Heap T) (n : Nat) :
    (h.new_array n).2 = ⟨h.cells.length + 1, 0⟩ := rfl

theorem Heap.new_array_len [Element T] (h : Heap T) (n b : Nat) :
    (h.new_array n).1.len b = if b = h.cells.length + 1 then some n else h.len b := by
  unfold Heap.len
  rw [Heap.new_array_block]
  split <;> simp

theorem Heap.new_array_load [Element T] (h : Heap T) (n : Nat) (q : Ptr) :
    (h.new_array n).1.load q =
      if q.blk = h.cells.length + 1 then (if q.off < n then some Element.dflt else none)
      else h.load q := by
  unfold Heap.load
  rw [Heap.new_array_block]
  by_cases hq : q.blk = h.cells.length + 1
  · simp [hq, List.getElem?_replicate]
  · simp [hq]

theorem Heap.delete_array_ok (h : Heap T) (p : Ptr) (hp : p = nullptr ∨ (p.off = 0 ∧ h.block p.blk ≠ none)) :
    ∃ h', h.delete_array p = some h' := by
  unfold Heap.delete_array
  by_cases hn : p = nullptr
  · simp [hn]
  · rcases hp with hp | ⟨ho, hb⟩
    · exact absurd hp hn
    · cases hbl : h.block p.blk with
      | none => exact absurd hbl hb
      | some l => simp [hn, ho]

theorem Heap.delete_array_block (h h' : Heap T) (p : Ptr) (hd : h.delete_array p = some h')
    (b : Nat) : h'.block b = if b = p.blk then none else h.block b := by
  unfold Heap.delete_array at hd
  by_cases hn : p = nullptr
  · simp only [hn, if_true] at hd
    injection hd with hd
    subst hd hn
    by_cases hb : b = 0
    · subst hb; simp [nullptr, Heap.block]
    · simp [nullptr, hb]
  · simp only [hn, if_false] at hd
    cases hbl : h.block p.blk with
    | none => simp [hbl] at hd
    | some l =>
      simp only [hbl] at hd
      split at hd
      · injection hd with hd
        subst hd
        exact Heap.block_setBlock h p.blk b none (by simp [hbl])
      · simp at hd

theorem Heap.delete_array_len (h h' : Heap T) (p : Ptr) (hd : h.delete_array p = some h')
    (b : Nat) : h'.len b = if b = p.blk then none else h.len b := by
  unfold Heap.len
  rw [Heap.delete_array_block h h' p hd]
  split <;> simp

theorem Heap.delete_array_load (h h' : Heap T) (p : Ptr) (hd : h.delete_array p = some h')
    (q : Ptr) : h'.load q = if q.blk = p.blk then none else h.load q := by
  unfold Heap.load
  rw [Heap.delete_array_block h h' p hd]
  by_cases hq : q.blk = p.blk
  · simp [hq]
  · simp [hq]

/-! ## Facts about the loops -/

theorem Ptr.add_add (p : Ptr) (a b : Nat) : (p.add a).add b = p.add (a + b) := by
  simp [Ptr.add, Nat.add_assoc]

theorem Ptr.add_zero (p : Ptr) : p.add 0 = p := rfl

theorem Heap.inb_of_len_eq (h h' : Heap T) (hlen : ∀ b, h'.len b = h.len b) (q : Ptr) :
    h'.inb q ↔ h.inb q := by
  unfold Heap.inb
  rw [hlen]

theorem copy_loop_spec (n : Nat) : ∀ (h : Heap T) (s d : Ptr),
    (∀ k, k < n → h.inb (s.add k)) → (∀ k, k < n → h.inb (d.add k)) →
    (s.blk ≠ d.blk ∨ d.off ≤ s.off) →
    ∃ h', copy_loop n h s d = some h' ∧ Heap.Copied h h' s d n := by
  induction n with
  | zero =>
    intro h s d _ _ _
    refine ⟨h, rfl, fun _ => rfl, fun q => ?_⟩
    have c : ¬ (q.blk = d.blk ∧ d.off ≤ q.off ∧ q.off < d.off + 0) := by omega
    rw [if_neg c]
  | succ n ih =>
    intro h s d hs hd hov
    obtain ⟨x, hx⟩ := Heap.load_isSome_of_inb h s (hs 0 (by omega))
    obtain ⟨h1, hst⟩ := Heap.store_ok h d x (hd 0 (by omega))
    have hlen1 := Heap.store_len h h1 d x hst
    have hs1 : ∀ k, k < n → h1.inb ((s.add 1).add k) := by
      intro k hk
      rw [Ptr.add_add, Heap.inb_of_len_eq h h1 hlen1]
      exact hs (1 + k) (by omega)
    have hd1 : ∀ k, k < n → h1.inb ((d.add 1).add k) := by
      intro k hk
      rw [Ptr.add_add, Heap.inb_of_len_eq h h1 hlen1]
      exact hd (1 + k) (by omega)
    obtain ⟨h2, hrun, hlen2, hload2⟩ := ih h1 (s.add 1) (d.add 1) hs1 hd1
      (by simp only [Ptr.add]; omega)
    refine ⟨h2, by simp [copy_loop, hx, hst, hrun], fun b => by rw [hlen2, hlen1], ?_⟩
    intro q
    rw [hload2]
    simp only [Ptr.add, Heap.store_load h h1 d x hst, Ptr.eq_iff]
    by_cases hqb : q.blk = d.blk
    · by_cases hq0 : q.off = d.off
      · have e : (⟨s.blk, s.off + (q.off - d.off)⟩ : Ptr) = s := by
          rw [Ptr.eq_iff]; simp [hq0]
        have c1 : ¬ (d.off + 1 ≤ q.off) := by omega
        have c2 : d.off ≤ q.off ∧ q.off < d.off + (n + 1) := by omega
        simp [hqb, hq0, hx]
      · by_cases hin : d.off + 1 ≤ q.off ∧ q.off < d.off + 1 + n
        · have c2 : d.off ≤ q.off ∧ q.off < d.off + (n + 1) := by omega
          have c3 : ¬ (s.blk = d.blk ∧ s.off + 1 + (q.off - (d.off + 1)) = d.off) := by
            rintro ⟨e1, e2⟩
            rcases hov with hov | hov
            · exact hov e1
            · omega
          have e : s.off + 1 + (q.off - (d.off + 1)) = s.off + (q.off - d.off) := by omega
          simp only [hqb, hin, c2, c3, and_self, if_true, if_false, true_and]
          rw [e]
        · have c2 : ¬ (d.off ≤ q.off ∧ q.off < d.off + (n + 1)) := by omega
          simp [hqb, hin, c2, hq0]
    · simp [hqb]

theorem Heap.load_congr (h : Heap T) (b b' j j' : Nat) (hb : b = b') (hj : j = j') :
    h.load ⟨b, j⟩ = h.load ⟨b', j'⟩ := by
  rw [hb, hj]

theorem move_loop_spec [Element T] (n : Nat) : ∀ (h : Heap T) (s d : Ptr),
    (∀ k, k < n → h.inb (s.add k)) → (∀ k, k < n → h.inb (d.add k)) →
    (s.blk ≠ d.blk ∨ d.off < s.off) →
    ∃ h', move_loop n h s d = some h' ∧ Heap.Moved h h' s d n := by
  induction n with
  | zero =>
    intro h s d _ _ _
    refine ⟨h, rfl, fun _ => rfl, fun q => ?_⟩
    have c : ¬ (q.blk = d.blk ∧ d.off ≤ q.off ∧ q.off < d.off + 0) := by omega
    have c2 : ¬ (q.blk = s.blk ∧ s.off ≤ q.off ∧ q.off < s.off + 0) := by omega
    rw [if_neg c, if_neg c2]
  | succ n ih =>
    intro h s d hs hd hov
    obtain ⟨x, hx⟩ := Heap.load_isSome_of_inb h s (hs 0 (by omega))
    obtain ⟨h1, hst⟩ := Heap.store_ok h d x (hd 0 (by omega))
    have hlen1 := Heap.store_len h h1 d x hst
    obtain ⟨h2, hst2⟩ := Heap.store_ok h1 s (Element.moved x)
      ((Heap.inb_of_len_eq h h1 hlen1 s).2 (hs 0 (by omega)))
    have hlen2 := Heap.store_len h1 h2 s _ hst2
    have hlen12 : ∀ b, h2.len b = h.len b := fun b => by rw [hlen2, hlen1]
    have hs1 : ∀ k, k < n → h2.inb ((s.add 1).add k) := by
      intro k hk
      rw [Ptr.add_add, Heap.inb_of_len_eq h h2 hlen12]
      exact hs (1 + k) (by omega)
    have hd1 : ∀ k, k < n → h2.inb ((d.add 1).add k) := by
      intro k hk
      rw [Ptr.add_add, Heap.inb_of_len_eq h h2 hlen12]
      exact hd (1 + k) (by omega)
    obtain ⟨h3, hrun, hlen3, hload3⟩ := ih h2 (s.add 1) (d.add 1) hs1 hd1
      (by simp only [Ptr.add]; omega)
    refine ⟨h3, by simp [move_loop, hx, hst, hst2, hrun], fun b => by rw [hlen3, hlen12], ?_⟩
    intro q
    rw [hload3]
    have hxs : h.load ⟨s.blk, s.off⟩ = some x := hx
    simp only [Ptr.add, Heap.store_load h1 h2 s _ hst2, Heap.store_load h h1 d x hst, Ptr.eq_iff]
    split_ifs <;> first
      | rfl
      | (exfalso; omega)
      | (apply Heap.load_congr <;> omega)
      | (rw [← hxs]; apply Heap.load_congr <;> omega)
      | (have hq : q = s := (Ptr.eq_iff q s).2 (by assumption)
         rw [hq, hx]; rfl)

theorem copy_backward_loop_spec (n : Nat) : ∀ (h : Heap T) (s d : Ptr),
    (∀ k, k < n → h.inb (s.add k)) → (∀ k, k < n → h.inb (d.add k)) →
    (s.blk ≠ d.blk ∨ s.off ≤ d.off) →
    ∃ h', copy_backward_loop n h (s.add n) (d.add n) = some h' ∧ Heap.Copied h h' s d n := by
  induction n with
  | zero =>
    intro h s d _ _ _
    refine ⟨h, rfl, fun _ => rfl, fun q => ?_⟩
    have c : ¬ (q.blk = d.blk ∧ d.off ≤ q.off ∧ q.off < d.off + 0) := by omega
    rw [if_neg c]
  | succ n ih =>
    intro h s d hs hd hov
    obtain ⟨x, hx⟩ := Heap.load_isSome_of_inb h (s.add n) (hs n (by omega))
    obtain ⟨h1, hst⟩ := Heap.store_ok h (d.add n) x (hd n (by omega))
    have hlen1 := Heap.store_len h h1 _ x hst
    have hs1 : ∀ k, k < n → h1.inb (s.add k) := by
      intro k hk
      rw [Heap.inb_of_len_eq h h1 hlen1]
      exact hs k (by omega)
    have hd1 : ∀ k, k < n → h1.inb (d.add k) := by
      intro k hk
      rw [Heap.inb_of_len_eq h h1 hlen1]
      exact hd k (by omega)
    obtain ⟨h2, hrun, hlen2, hload2⟩ := ih h1 s d hs1 hd1 hov
    have e1 : (s.add (n + 1)).pred = s.add n := rfl
    have e2 : (d.add (n + 1)).pred = d.add n := rfl
    have c0 : ¬ ((s.add (n + 1)).off = 0 ∨ (d.add (n + 1)).off = 0) := by
      simp only [Ptr.add]; omega
    refine ⟨h2, ?_, fun b => by rw [hlen2, hlen1], ?_⟩
    · rw [copy_backward_loop, if_neg c0, e1, e2]
      simp only [hx, hst, hrun]
    · intro q
      rw [hload2]
      have hxs : h.load ⟨s.blk, s.off + n⟩ = some x := hx
      simp only [Ptr.add, Heap.store_load h h1 _ x hst, Ptr.eq_iff]
      split_ifs <;> first
        | rfl
        | (exfalso; omega)
        | (rw [← hxs]; apply Heap.load_congr <;> omega)

theorem move_backward_loop_spec [Element T] (n : Nat) : ∀ (h : Heap T) (s d : Ptr),
    (∀ k, k < n → h.inb (s.add k)) → (∀ k, k < n → h.inb (d.add k)) →
    (s.blk ≠ d.blk ∨ s.off < d.off) →
    ∃ h', move_backward_loop n h (s.add n) (d.add n) = some h' ∧ Heap.Moved h h' s d n := by
  induction n with
  | zero =>
    intro h s d _ _ _
    refine ⟨h, rfl, fun _ => rfl, fun q => ?_⟩
    have c : ¬ (q.blk = d.blk ∧ d.off ≤ q.off ∧ q.off < d.off + 0) := by omega
    have c2 : ¬ (q.blk = s.blk ∧ s.off ≤ q.off ∧ q.off < s.off + 0) := by omega
    rw [if_neg c, if_neg c2]
  | succ n ih =>
    intro h s d hs hd hov
    obtain ⟨x, hx⟩ := Heap.load_isSome_of_inb h (s.add n) (hs n (by omega))
    obtain ⟨h1, hst⟩ := Heap.store_ok h (d.add n) x (hd n (by omega))
    have hlen1 := Heap.store_len h h1 _ x hst
    obtain ⟨h2, hst2⟩ := Heap.store_ok h1 (s.add n) (Element.moved x)
      ((Heap.inb_of_len_eq h h1 hlen1 _).2 (hs n (by omega)))
    have hlen2 := Heap.store_len h1 h2 _ _ hst2
    have hlen12 : ∀ b, h2.len b = h.len b := fun b => by rw [hlen2, hlen1]
    have hs1 : ∀ k, k < n → h2.inb (s.add k) := by
      intro k hk
      rw [Heap.inb_of_len_eq h h2 hlen12]
      exact hs k (by omega)
    have hd1 : ∀ k, k < n → h2.inb (d.add k) := by
      intro k hk
      rw [Heap.inb_of_len_eq h h2 hlen12]
      exact hd k (by omega)
    obtain ⟨h3, hrun, hlen3, hload3⟩ := ih h2 s d hs1 hd1 hov
    have e1 : (s.add (n + 1)).pred = s.add n := rfl
    have e2 : (d.add (n + 1)).pred = d.add n := rfl
    have c0 : ¬ ((s.add (n + 1)).off = 0 ∨ (d.add (n + 1)).off = 0) := by
      simp only [Ptr.add]; omega
    refine ⟨h3, ?_, fun b => by rw [hlen3, hlen12], ?_⟩
    · rw [move_backward_loop, if_neg c0, e1, e2]
      simp only [hx, hst, hst2, hrun]
    · intro q
      rw [hload3]
      have hxs : h.load ⟨s.blk, s.off + n⟩ = some x := hx
      simp only [Ptr.add, Heap.store_load h1 h2 _ _ hst2, Heap.store_load h h1 _ x hst,
        Ptr.eq_iff]
      split_ifs <;> first
        | rfl
        | (exfalso; omega)
        | (rw [← hxs]; apply Heap.load_congr <;> omega)
        | (have hq : q = ⟨s.blk, s.off + n⟩ := (Ptr.eq_iff q _).2 (by assumption)
           rw [hq, hxs]; rfl)

theorem fill_loop_spec (n : Nat) : ∀ (h : Heap T) (d : Ptr) (x : T),
    (∀ k, k < n → h.inb (d.add k)) →
    ∃ h', fill_loop n h d x = some h' ∧ (∀ b, h'.len b = h.len b) ∧
      ∀ q, h'.load q =
        if q.blk = d.blk ∧ d.off ≤ q.off ∧ q.off < d.off + n then some x else h.load q := by
  induction n with
  | zero =>
    intro h d x _
    refine ⟨h, rfl, fun _ => rfl, fun q => ?_⟩
    have c : ¬ (q.blk = d.blk ∧ d.off ≤ q.off ∧ q.off < d.off + 0) := by omega
    rw [if_neg c]
  | succ n ih =>
    intro h d x hd
    obtain ⟨h1, hst⟩ := Heap.store_ok h d x (hd 0 (by omega))
    have hlen1 := Heap.store_len h h1 d x hst
    have hd1 : ∀ k, k < n → h1.inb ((d.add 1).add k) := by
      intro k hk
      rw [Ptr.add_add, Heap.inb_of_len_eq h h1 hlen1]
      exact hd (1 + k) (by omega)
    obtain ⟨h2, hrun, hlen2, hload2⟩ := ih h1 (d.add 1) x hd1
    refine ⟨h2, by simp [fill_loop, hst, hrun], fun b => by rw [hlen2, hlen1], ?_⟩
    intro q
    rw [hload2]
    simp only [Ptr.add, Heap.store_load h h1 d x hst, Ptr.eq_iff]
    split_ifs <;> first
      | rfl
      | (exfalso; omega)

theorem store_list_spec (xs : List T) : ∀ (h : Heap T) (d : Ptr),
    (∀ k, k < xs.length → h.inb (d.add k)) →
    ∃ h', store_list xs h d = some h' ∧ (∀ b, h'.len b = h.len b) ∧
      ∀ q, h'.load q =
        if q.blk = d.blk ∧ d.off ≤ q.off ∧ q.off < d.off + xs.length then xs[q.off - d.off]?
        else h.load q := by
  induction xs with
  | nil =>
    intro h d _
    refine ⟨h, rfl, fun _ => rfl, fun q => ?_⟩
    have c : ¬ (q.blk = d.blk ∧ d.off ≤ q.off ∧ q.off < d.off + ([] : List T).length) := by
      simp
    rw [if_neg c]
  | cons x xs ih =>
    intro h d hd
    obtain ⟨h1, hst⟩ := Heap.store_ok h d x (hd 0 (by simp))
    have hlen1 := Heap.store_len h h1 d x hst
    have hd1 : ∀ k, k < xs.length → h1.inb ((d.add 1).add k) := by
      intro k hk
      rw [Ptr.add_add, Heap.inb_of_len_eq h h1 hlen1]
      exact hd (1 + k) (by simp; omega)
    obtain ⟨h2, hrun, hlen2, hload2⟩ := ih h1 (d.add 1) hd1
    refine ⟨h2, by simp [store_list, hst, hrun], fun b => by rw [hlen2, hlen1], ?_⟩
    intro q
    rw [hload2]
    simp only [Ptr.add, Heap.store_load h h1 d x hst, Ptr.eq_iff, List.length_cons]
    by_cases hqb : q.blk = d.blk
    · by_cases hq0 : q.off = d.off
      · have c1 : ¬ (d.off + 1 ≤ q.off ∧ q.off < d.off + 1 + xs.length) := by omega
        have c2 : d.off ≤ q.off ∧ q.off < d.off + (xs.length + 1) := by omega
        simp [hqb, hq0]
      · by_cases hin : d.off + 1 ≤ q.off ∧ q.off < d.off + 1 + xs.length
        · have c2 : d.off ≤ q.off ∧ q.off < d.off + (xs.length + 1) := by omega
          obtain ⟨j, hj⟩ : ∃ j, q.off - d.off = j + 1 := ⟨q.off - d.off - 1, by omega⟩
          have e : q.off - (d.off + 1) = j := by omega
          simp only [hqb, hin, c2, and_self, if_true, true_and, hj, e, List.getElem?_cons_succ]
        · have c2 : ¬ (d.off ≤ q.off ∧ q.off < d.off + (xs.length + 1)) := by omega
          simp [hqb, hin, c2, hq0]
    · simp [hqb]

/-! ## Facts about vectors -/

namespace SimpleVector

theorem toList_getElem? (h : Heap T) (v : SimpleVector) (k : Nat) :
    (toList h v)[k]? =
      if k < v.size_ then h.load ⟨v.items_.raw_ptr_.blk, v.items_.raw_ptr_.off + k⟩ else none := by
  unfold toList Heap.load
  rw [List.getElem?_take]
  split
  · rw [List.getElem?_drop]
    cases h.block v.items_.raw_ptr_.blk <;> simp
  · rfl

theorem toList_length_le (h : Heap T) (v : SimpleVector) : (toList h v).length ≤ v.size_ := by
  unfold toList
  simp [List.length_take]

theorem toList_length (h : Heap T) (v : SimpleVector) (hwf : WF h v) :
    (toList h v).length = v.size_ := by
  obtain ⟨hsz, hoff, hcap⟩ := hwf
  unfold toList
  by_cases hc : v.capacity_ = 0
  · have : v.size_ = 0 := by omega
    simp [this]
  · rw [if_neg hc] at hcap
    cases hb : h.block v.items_.raw_ptr_.blk with
    | none => simp [hb] at hcap
    | some l =>
      simp only [hb, Option.map_some', Option.some.injEq] at hcap
      simp [List.length_take, List.length_drop, hoff, hcap]
      omega

theorem toList_eq_of_load (h : Heap T) (v : SimpleVector) (l : List T)
    (hlen : l.length = v.size_)
    (hload : ∀ k, k < v.size_ →
      h.load ⟨v.items_.raw_ptr_.blk, v.items_.raw_ptr_.off + k⟩ = l[k]?) :
    toList h v = l := by
  apply List.ext_getElem?
  intro k
  rw [toList_getElem?]
  split
  · exact hload k (by assumption)
  · exact (List.getElem?_eq_none (by omega)).symm

theorem load_of_toList (h : Heap T) (v : SimpleVector) (k : Nat) (hk : k < v.size_) :
    h.load ⟨v.items_.raw_ptr_.blk, v.items_.raw_ptr_.off + k⟩ = (toList h v)[k]? := by
  rw [toList_getElem?, if_pos hk]

theorem WF.len (h : Heap T) (v : SimpleVector) (hwf : WF h v) (hc : v.capacity_ ≠ 0) :
    h.len v.items_.raw_ptr_.blk = some v.capacity_ := by
  obtain ⟨_, _, hcap⟩ := hwf
  rw [if_neg hc] at hcap
  exact hcap

theorem WF.inb (h : Heap T) (v : SimpleVector) (hwf : WF h v) (k : Nat)
    (hk : k < v.capacity_) : h.inb ⟨v.items_.raw_ptr_.blk, k⟩ :=
  ⟨v.capacity_, WF.len h v hwf (by omega), hk⟩

theorem WF.blk_le (h : Heap T) (v : SimpleVector) (hwf : WF h v) :
    v.items_.raw_ptr_.blk ≤ h.cells.length := by
  by_cases hc : v.capacity_ = 0
  · obtain ⟨_, _, hcap⟩ := hwf
    rw [if_pos hc] at hcap
    omega
  · exact Heap.len_le_cells h _ _ (WF.len h v hwf hc)

theorem WF.destroy_ok (h : Heap T) (v : SimpleVector) (hwf : WF h v) :
    v.items_.raw_ptr_ = nullptr ∨
      (v.items_.raw_ptr_.off = 0 ∧ h.block v.items_.raw_ptr_.blk ≠ none) := by
  by_cases hc : v.capacity_ = 0
  · obtain ⟨_, hoff, hcap⟩ := hwf
    rw [if_pos hc] at hcap
    left
    rw [Ptr.eq_iff]
    exact ⟨hcap, hoff⟩
  · right
    refine ⟨hwf.2.1, ?_⟩
    have := WF.len h v hwf hc
    intro hn
    simp [Heap.len, hn] at this

end SimpleVector

/-- What `ArrayPtr(size)` yields: a fresh array, or the null handle for `size = 0`. -/
theorem ArrayPtr.create_eq [Element T] (h : Heap T) (n : Nat) :
    ArrayPtr.create h n =
      ((h.new_array n).1, ⟨if n = 0 then nullptr else ⟨h.cells.length + 1, 0⟩⟩) := rfl

namespace SimpleVector

/-- What `SimpleVector(size, value)` yields. -/
theorem ctor_fill_spec [Element T] (h : Heap T) (n : Nat) (x : T) :
    ∃ h1, ctor_fill h n x =
        some (h1, ⟨⟨if n = 0 then nullptr else ⟨h.cells.length + 1, 0⟩⟩, n, n⟩) ∧
      (∀ b, h1.len b = if b = h.cells.length + 1 then some n else h.len b) ∧
      (∀ q, h1.load q =
        if q.blk = h.cells.length + 1 then (if q.off < n then some x else none)
        else h.load q) := by
  by_cases hn : n = 0
  · subst hn
    refine ⟨(h.new_array 0).1, ?_, Heap.new_array_len h 0, ?_⟩
    · simp [ctor_fill, ArrayPtr.create_eq, std_fill, valid_range, begin, end_, ArrayPtr.Get,
        Ptr.add, fill_loop]
    · intro q
      rw [Heap.new_array_load]
      simp
  · have hin : ∀ k, k < n → (h.new_array n).1.inb ((⟨h.cells.length + 1, 0⟩ : Ptr).add k) := by
      intro k hk
      exact ⟨n, by rw [Heap.new_array_len]; simp [Ptr.add], by simpa [Ptr.add] using hk⟩
    obtain ⟨h1, hrun, hlen, hload⟩ := fill_loop_spec n (h.new_array n).1 ⟨h.cells.length + 1, 0⟩ x hin
    refine ⟨h1, ?_, fun b => by rw [hlen, Heap.new_array_len], ?_⟩
    · simp [ctor_fill, ArrayPtr.create_eq, std_fill, valid_range, begin, end_, ArrayPtr.Get,
        Ptr.add, hn, hrun]
    · intro q
      rw [hload, Heap.new_array_load]
      by_cases hq : q.blk = h.cells.length + 1
      · by_cases hqo : q.off < n
        · simp [hq, hqo]
        · simp [hq, hqo]
      · simp [hq]

theorem WF.inb_off (h : Heap T) (v : SimpleVector) (hwf : WF h v) (k : Nat)
    (hk : k < v.capacity_) : h.inb ⟨v.items_.raw_ptr_.blk, v.items_.raw_ptr_.off + k⟩ := by
  have := WF.inb h v hwf k hk
  rw [hwf.2.1]
  simpa using this

theorem std_copy_range (h : Heap T) (p d : Ptr) (n : Nat) :
    std_copy h p (p.add n) d = copy_loop n h p d := by
  simp [std_copy, valid_range, Ptr.add]

theorem std_move_range [Element T] (h : Heap T) (p d : Ptr) (n : Nat) :
    std_move h p (p.add n) d = move_loop n h p d := by
  simp [std_move, valid_range, Ptr.add]

theorem PushBack_spec [Element T] (h : Heap T) (v : SimpleVector) (x : T) (hwf : WF h v) :
    ∃ h' v', PushBack h v x = some (h', v') ∧ WF h' v' ∧ v'.size_ = v.size_ + 1 ∧
      v'.capacity_ =
        (if v.size_ < v.capacity_ then v.capacity_ else max (v.size_ + 1) (v.capacity_ * 2)) ∧
      toList h' v' = toList h v ++ [x] := by
  have hlenL := toList_length h v hwf
  by_cases hlt : v.size_ < v.capacity_
  · obtain ⟨h1, hst⟩ := Heap.store_ok h (v.items_.index v.size_) x (WF.inb_off h v hwf _ hlt)
    have hlen1 := Heap.store_len h h1 _ x hst
    have hload1 := Heap.store_load h h1 _ x hst
    refine ⟨h1, { v with size_ := v.size_ + 1 }, ?_, ?_, rfl, by simp [hlt], ?_⟩
    · simp [PushBack, hlt, hst]
    · refine ⟨by simpa using hlt, hwf.2.1, ?_⟩
      have hc : v.capacity_ ≠ 0 := by omega
      simp only [hc, if_false]
      exact (hlen1 _).trans (WF.len h v hwf hc)
    · apply toList_eq_of_load
      · simp [hlenL]
      · intro k hk
        simp only [] at hk
        rw [hload1, List.getElem?_append]
        simp only [ArrayPtr.index, Ptr.add, Ptr.eq_iff, hlenL]
        by_cases hks : k < v.size_
        · have c : ¬ (True ∧ v.items_.raw_ptr_.off + k = v.items_.raw_ptr_.off + v.size_) := by
            omega
          simp only [true_and] at c
          simp only [c, hks, if_true, if_false, true_and]
          exact load_of_toList h v k hks
        · have e : k = v.size_ := by omega
          subst e
          simp
  · have hsc : v.size_ = v.capacity_ := by have := hwf.1; omega
    have hblk := WF.blk_le h v hwf
    have hne : v.items_.raw_ptr_.blk ≠ h.cells.length + 1 := by omega
    have hM : max (v.size_ + 1) (v.capacity_ * 2) ≠ 0 := by omega
    obtain ⟨h1, hctor, hlen1, hload1⟩ :=
      ctor_fill_spec h (max (v.size_ + 1) (v.capacity_ * 2)) (Element.dflt : T)
    rw [if_neg hM] at hctor
    have hs : ∀ k, k < v.size_ → h1.inb (v.begin.add k) := by
      intro k hk
      refine ⟨v.capacity_, ?_, ?_⟩
      · show h1.len v.items_.raw_ptr_.blk = _
        rw [hlen1, if_neg hne]
        exact WF.len h v hwf (by omega)
      · show v.items_.raw_ptr_.off + k < _
        rw [hwf.2.1]; omega
    have hd : ∀ k, k < v.size_ → h1.inb ((⟨h.cells.length + 1, 0⟩ : Ptr).add k) := by
      intro k hk
      refine ⟨max (v.size_ + 1) (v.capacity_ * 2), ?_, ?_⟩
      · show h1.len (h.cells.length + 1) = _
        rw [hlen1, if_pos rfl]
      · show 0 + k < _
        omega
    obtain ⟨h2, hcopy, hlen2, hload2⟩ := copy_loop_spec v.size_ h1 v.begin ⟨h.cells.length + 1, 0⟩
      hs hd (Or.inl hne)
    obtain ⟨h3, hst⟩ := Heap.store_ok h2 ⟨h.cells.length + 1, v.size_⟩ x
      ⟨max (v.size_ + 1) (v.capacity_ * 2), by rw [hlen2, hlen1, if_pos rfl], by
        show v.size_ < _
        omega⟩
    have hlen3 := Heap.store_len h2 h3 _ x hst
    have hload3 := Heap.store_load h2 h3 _ x hst
    obtain ⟨h4, hdel⟩ := Heap.delete_array_ok h3 v.items_.raw_ptr_ (by
      rcases WF.destroy_ok h v hwf with hnull | ⟨ho, hb⟩
      · exact Or.inl hnull
      · refine Or.inr ⟨ho, ?_⟩
        intro hc
        have e : h3.len v.items_.raw_ptr_.blk = h.len v.items_.raw_ptr_.blk := by
          rw [hlen3, hlen2, hlen1, if_neg hne]
        have e1 : h3.len v.items_.raw_ptr_.blk = none := by simp [Heap.len, hc]
        have e2 : h.len v.items_.raw_ptr_.blk ≠ none := by
          intro hn
          apply hb
          cases hbb : h.block v.items_.raw_ptr_.blk with
          | none => rfl
          | some l => simp [Heap.len, hbb] at hn
        exact e2 (e ▸ e1))
    have hlen4 := Heap.delete_array_len h3 h4 _ hdel
    have hload4 := Heap.delete_array_load h3 h4 _ hdel
    refine ⟨h4, ⟨⟨⟨h.cells.length + 1, 0⟩⟩, v.size_ + 1, max (v.size_ + 1) (v.capacity_ * 2)⟩,
      ?_, ?_, rfl, by simp [hlt], ?_⟩
    · have hsub : v.size_ < max (v.size_ + 1) (v.capacity_ * 2) := by omega
      simp only [begin, ArrayPtr.Get] at hcopy
      simp only [PushBack, hlt, if_false, ctor_size, hctor, begin, end_, ArrayPtr.Get,
        std_copy_range, hcopy, subscript, hsub, if_true, swap, ArrayPtr.swap, destroy,
        ArrayPtr.destroy]
      simp only [ArrayPtr.index, Ptr.add, Nat.zero_add, hst, hdel]
    · refine ⟨by simp, rfl, ?_⟩
      simp only [hM, if_false]
      show h4.len (h.cells.length + 1) = _
      rw [hlen4, if_neg (Ne.symm hne), hlen3, hlen2, hlen1, if_pos rfl]
    · apply toList_eq_of_load
      · simp [hlenL]
      · intro k hk
        simp only [] at hk
        rw [hload4, hload3, hload2, hload1, List.getElem?_append]
        simp only [begin, ArrayPtr.Get, Ptr.eq_iff, hlenL, Nat.zero_add]
        by_cases hks : k < v.size_
        · have c : ¬ (True ∧ k = v.size_) := by omega
          simp only [true_and] at c
          simp only [if_neg (Ne.symm hne), c, hks, if_true, if_false, true_and, and_self,
            Nat.zero_le, Nat.sub_zero, if_neg hne]
          exact load_of_toList h v k hks
        · have e : k = v.size_ := by omega
          subst e
          simp [Ne.symm hne]

end SimpleVector

theorem std_copy_backward_range (h : Heap T) (s d_last : Ptr) (n : Nat) :
    std_copy_backward h s (s.add n) d_last = copy_backward_loop n h (s.add n) d_last := by
  simp [std_copy_backward, valid_range, Ptr.add]

theorem std_move_backward_range [Element T] (h : Heap T) (s d_last : Ptr) (n : Nat) :
    std_move_backward h s (s.add n) d_last = move_backward_loop n h (s.add n) d_last := by
  simp [std_move_backward, valid_range, Ptr.add]

/-- Reading the list `take i l ++ [x] ++ drop i l` position by position. -/
theorem getElem?_insert_list (l : List T) (i : Nat) (x : T) (hi : i ≤ l.length) (k : Nat) :
    (l.take i ++ [x] ++ l.drop i)[k]? =
      if k < i then l[k]? else if k = i then some x else l[k - 1]? := by
  rw [List.append_assoc, List.getElem?_append]
  simp only [List.length_take, Nat.min_eq_left hi]
  by_cases hk : k < i
  · simp [hk, List.getElem?_take]
  · simp only [hk, if_false]
    by_cases hki : k = i
    · subst hki; simp
    · obtain ⟨j, hj⟩ : ∃ j, k - i = j + 1 := ⟨k - i - 1, by omega⟩
      have e : i + j = k - 1 := by omega
      simp [hki, hj, List.getElem?_drop, e]

namespace SimpleVector

theorem WF.blk_ne_zero (h : Heap T) (v : SimpleVector) (hwf : WF h v) (hc : v.capacity_ ≠ 0) :
    v.items_.raw_ptr_.blk ≠ 0 := by
  intro h0
  have := WF.len h v hwf hc
  rw [h0] at this
  simp [Heap.len, Heap.block] at this

/-- Deleting the old buffer succeeds in any heap where that buffer still has its length. -/
theorem WF.delete_ok (h h3 : Heap T) (v : SimpleVector) (hwf : WF h v)
    (hl : h3.len v.items_.raw_ptr_.blk = h.len v.items_.raw_ptr_.blk) :
    ∃ h4, h3.delete_array v.items_.raw_ptr_ = some h4 := by
  apply Heap.delete_array_ok
  rcases WF.destroy_ok h v hwf with hnull | ⟨ho, hb⟩
  · exact Or.inl hnull
  · refine Or.inr ⟨ho, ?_⟩
    intro hc
    have e1 : h3.len v.items_.raw_ptr_.blk = none := by simp [Heap.len, hc]
    have e2 : h.len v.items_.raw_ptr_.blk ≠ none := by
      intro hn
      apply hb
      cases hbb : h.block v.items_.raw_ptr_.blk with
      | none => rfl
      | some l => simp [Heap.len, hbb] at hn
    exact e2 (hl ▸ e1)

/-- The slots of a well-formed vector stay in bounds in any heap where its buffer
still has its length. -/
theorem WF.inb_after (h h1 : Heap T) (v : SimpleVector) (hwf : WF h v)
    (hl : h1.len v.items_.raw_ptr_.blk = h.len v.items_.raw_ptr_.blk) (j : Nat)
    (hj : j < v.capacity_) : h1.inb ⟨v.items_.raw_ptr_.blk, v.items_.raw_ptr_.off + j⟩ := by
  refine ⟨v.capacity_, ?_, ?_⟩
  · show h1.len v.items_.raw_ptr_.blk = _
    rw [hl]
    exact WF.len h v hwf (by omega)
  · show v.items_.raw_ptr_.off + j < _
    rw [hwf.2.1]; omega

theorem Heap.read_object (h : Heap T) (x : T) : h.read (ConstRef.object x) = some x := rfl

theorem Heap.read_slot (h : Heap T) (p : Ptr) : h.read (ConstRef.slot p) = h.load p := rfl

/-- `Insert` on a vector that owns its storage splices in the value `x` that its
argument holds at the moment it is read: with room in the buffer that is after the
elements from `i` on have been copied one slot up, without room it is the value the
argument holds at the call. -/
theorem Insert_spec_read [Element T] (h : Heap T) (v : SimpleVector) (i : Nat)
    (value : ConstRef T) (x : T)
    (hwf : WF h v) (hi : i ≤ v.size_)
    (hroom : v.size_ < v.capacity_ → ∀ h1 : Heap T,
      Heap.Copied h h1 (v.begin.add i) ((v.begin.add i).add 1) (v.size_ - i) →
        h1.read value = some x)
    (hfull : ¬ v.size_ < v.capacity_ → h.read value = some x) :
    ∃ h' v', Insert h v (v.begin.add i) value = some (h', v', v'.begin.add i) ∧ WF h' v' ∧
      v'.size_ = v.size_ + 1 ∧
      v'.capacity_ =
        (if v.size_ < v.capacity_ then v.capacity_ else max (v.size_ + 1) (v.capacity_ * 2)) ∧
      toList h' v' = (toList h v).take i ++ [x] ++ (toList h v).drop i := by
  have hlenL := toList_length h v hwf
  have hoff := hwf.2.1
  have hassert : ptr_le v.begin (v.begin.add i) ∧ ptr_le (v.begin.add i) v.end_ := by
    simp only [ptr_le, begin, end_, ArrayPtr.Get, Ptr.add, true_and]
    omega
  have hdiff : ptr_diff (v.begin.add i) v.begin = some i := by
    simp [ptr_diff, ptr_le, begin, ArrayPtr.Get, Ptr.add]
  have hend : v.end_ = (v.begin.add i).add (v.size_ - i) := by
    simp only [begin, end_, ArrayPtr.Get, Ptr.add, Ptr.eq_iff, true_and]
    omega
  by_cases hlt : v.size_ < v.capacity_
  · have hc : v.capacity_ ≠ 0 := by omega
    have hend1 : v.end_.add 1 = ((v.begin.add i).add 1).add (v.size_ - i) := by
      simp only [begin, end_, ArrayPtr.Get, Ptr.add, Ptr.eq_iff, true_and]
      omega
    obtain ⟨h1, hcb, hlen1, hload1⟩ := copy_backward_loop_spec (v.size_ - i) h (v.begin.add i)
      ((v.begin.add i).add 1)
      (fun k hk => by
        have := WF.inb_off h v hwf (i + k) (by omega)
        simpa [begin, ArrayPtr.Get, Ptr.add, Nat.add_assoc] using this)
      (fun k hk => by
        have := WF.inb_off h v hwf (i + (1 + k)) (by omega)
        simpa [begin, ArrayPtr.Get, Ptr.add, Nat.add_assoc] using this)
      (Or.inr (by simp [Ptr.add]))
    have hr1 : h1.read value = some x := hroom hlt h1 ⟨hlen1, hload1⟩
    obtain ⟨h2, hst⟩ := Heap.store_ok h1 (v.items_.index i) x
      ((Heap.inb_of_len_eq h h1 hlen1 _).2 (WF.inb_off h v hwf i (by omega)))
    have hlen2 := Heap.store_len h1 h2 _ x hst
    have hload2 := Heap.store_load h1 h2 _ x hst
    have hnn : ¬ v.begin.add i = nullptr := by
      intro hc2
      have := WF.blk_ne_zero h v hwf hc
      rw [Ptr.eq_iff] at hc2
      exact this hc2.1
    refine ⟨h2, { v with size_ := v.size_ + 1 }, ?_, ?_, rfl, by simp [hlt], ?_⟩
    · rw [← hend1, ← hend] at hcb
      simp only [Insert, hassert, and_self, if_true, hlt, std_copy_backward_range, hdiff]
      rw [hend, std_copy_backward_range, ← hend, hcb]
      simp only [hr1, hst, hnn, if_false]
      rfl
    · refine ⟨by simpa using hlt, hwf.2.1, ?_⟩
      simp only [hc, if_false]
      exact ((hlen2 _).trans (hlen1 _)).trans (WF.len h v hwf hc)
    · apply toList_eq_of_load
      · simp [hlenL]; omega
      · intro k hk
        simp only [] at hk
        rw [hload2, hload1, getElem?_insert_list _ _ _ (by omega)]
        simp only [ArrayPtr.index, begin, ArrayPtr.Get, Ptr.add, Ptr.eq_iff, true_and, hoff,
          Nat.zero_add]
        by_cases hki : k = i
        · subst hki; simp
        · by_cases hk2 : k < i
          · have c : ¬ (i + 1 ≤ k ∧ k < i + 1 + (v.size_ - i)) := by omega
            simp only [hki, hk2, c, if_true, if_false]
            have := load_of_toList h v k (by omega)
            rwa [hoff, Nat.zero_add] at this
          · have c : (i + 1 ≤ k ∧ k < i + 1 + (v.size_ - i)) := by omega
            have e : i + (k - (i + 1)) = k - 1 := by omega
            simp only [hki, hk2, c, if_true, if_false, and_self, e, ite_self]
            have := load_of_toList h v (k - 1) (by omega)
            rwa [hoff, Nat.zero_add] at this
  · have hsc : v.size_ = v.capacity_ := by have := hwf.1; omega
    have hblk := WF.blk_le h v hwf
    have hne : v.items_.raw_ptr_.blk ≠ h.cells.length + 1 := by omega
    have hM : max (v.size_ + 1) (v.capacity_ * 2) ≠ 0 := by omega
    obtain ⟨h1, hctor, hlen1, hload1⟩ :=
      ctor_fill_spec h (max (v.size_ + 1) (v.capacity_ * 2)) (Element.dflt : T)
    rw [if_neg hM] at hctor
    have hl1 : h1.len v.items_.raw_ptr_.blk = h.len v.items_.raw_ptr_.blk := by
      rw [hlen1, if_neg hne]
    have hn1 : h1.len (h.cells.length + 1) = some (max (v.size_ + 1) (v.capacity_ * 2)) := by
      rw [hlen1, if_pos rfl]
    obtain ⟨h2, hcopy, hlen2, hload2⟩ := copy_loop_spec v.size_ h1 v.begin ⟨h.cells.length + 1, 0⟩
      (fun k hk => WF.inb_after h h1 v hwf hl1 k (by omega))
      (fun k hk => ⟨_, hn1, by show 0 + k < _; omega⟩) (Or.inl hne)
    have hl2 : h2.len v.items_.raw_ptr_.blk = h.len v.items_.raw_ptr_.blk := by
      rw [hlen2, hl1]
    have hn2 : h2.len (h.cells.length + 1) = some (max (v.size_ + 1) (v.capacity_ * 2)) := by
      rw [hlen2, hn1]
    obtain ⟨h3, hcb, hlen3, hload3⟩ := copy_backward_loop_spec (v.size_ - i) h2 (v.begin.add i)
      ⟨h.cells.length + 1, i + 1⟩
      (fun k hk => by
        have := WF.inb_after h h2 v hwf hl2 (i + k) (by omega)
        simpa [begin, ArrayPtr.Get, Ptr.add, Nat.add_assoc] using this)
      (fun k hk => ⟨_, hn2, by show i + 1 + k < _; omega⟩) (Or.inl hne)
    have hdl : ((⟨h.cells.length + 1, i + 1⟩ : Ptr).add (v.size_ - i)) =
        ⟨h.cells.length + 1, v.size_ + 1⟩ := by
      simp only [Ptr.add, Ptr.eq_iff, true_and]; omega
    rw [hdl, ← hend] at hcb
    have hread := hfull hlt
    have hr3 : h3.read value = some x := by
      cases value with
      | object y => exact hread
      | slot p =>
        rw [Heap.read_slot] at hread ⊢
        obtain ⟨n, hn, _⟩ := Heap.inb_of_load h p x hread
        have hpb : p.blk ≠ h.cells.length + 1 := by
          have := Heap.len_le_cells h p.blk n hn
          omega
        rw [hload3, if_neg (fun hc2 => hpb hc2.1), hload2, if_neg (fun hc2 => hpb hc2.1),
          hload1, if_neg hpb, hread]
    obtain ⟨h4, hst⟩ := Heap.store_ok h3 ⟨h.cells.length + 1, i⟩ x
      ⟨_, by rw [hlen3, hn2], by show i < _; omega⟩
    have hlen4 := Heap.store_len h3 h4 _ x hst
    have hload4 := Heap.store_load h3 h4 _ x hst
    obtain ⟨h5, hdel⟩ := WF.delete_ok h h4 v hwf (by rw [hlen4, hlen3, hl2])
    have hlen5 := Heap.delete_array_len h4 h5 _ hdel
    have hload5 := Heap.delete_array_load h4 h5 _ hdel
    refine ⟨h5, ⟨⟨⟨h.cells.length + 1, 0⟩⟩, v.size_ + 1, max (v.size_ + 1) (v.capacity_ * 2)⟩,
      ?_, ?_, rfl, by simp [hlt], ?_⟩
    · simp only [Insert, hassert, and_self, if_true, hlt, if_false, hdiff, ctor_size, hctor]
      have ec : std_copy h1 v.begin v.end_ ⟨h.cells.length + 1, 0⟩ = some h2 := by
        rw [show v.end_ = v.begin.add v.size_ from rfl, std_copy_range, hcopy]
      have eb : std_copy_backward h2 (v.begin.add i) v.end_ ⟨h.cells.length + 1, v.size_ + 1⟩
          = some h3 := by
        rw [hend, std_copy_backward_range, ← hend, hcb]
      have e1 : begin ⟨⟨⟨h.cells.length + 1, 0⟩⟩, v.size_, max (v.size_ + 1) (v.capacity_ * 2)⟩
          = ⟨h.cells.length + 1, 0⟩ := rfl
      have e2 : (end_ ⟨⟨⟨h.cells.length + 1, 0⟩⟩, v.size_,
          max (v.size_ + 1) (v.capacity_ * 2)⟩).add 1 = ⟨h.cells.length + 1, v.size_ + 1⟩ := by
        simp [end_, ArrayPtr.Get, Ptr.add]
      have e3 : ArrayPtr.index ⟨⟨h.cells.length + 1, 0⟩⟩ i = ⟨h.cells.length + 1, i⟩ := by
        simp [ArrayPtr.index, Ptr.add]
      simp only [e1, e2, e3, ec, eb, hr3, hst, swap, ArrayPtr.swap, destroy, ArrayPtr.destroy,
        hdel]
    · refine ⟨by simp, rfl, ?_⟩
      simp only [hM, if_false]
      show h5.len (h.cells.length + 1) = _
      rw [hlen5, if_neg (Ne.symm hne), hlen4, hlen3, hn2]
    · apply toList_eq_of_load
      · simp [hlenL]; omega
      · intro k hk
        simp only [] at hk
        rw [getElem?_insert_list _ _ _ (by omega)]
        simp only [hload5, hload4, hload3, hload2, hload1,
          begin, ArrayPtr.Get, Ptr.add, Ptr.eq_iff, true_and, hoff,
          Nat.zero_add, if_neg (Ne.symm hne), if_neg hne, false_and, if_false, Nat.zero_le,
          Nat.sub_zero]
        by_cases hki : k = i
        · subst hki; simp
        · by_cases hk2 : k < i
          · have c : ¬ (i + 1 ≤ k ∧ k < i + 1 + (v.size_ - i)) := by omega
            have c2 : k < v.size_ := by omega
            simp only [hki, hk2, c, c2, if_true, if_false]
            have := load_of_toList h v k (by omega)
            rwa [hoff, Nat.zero_add] at this
          · have c : (i + 1 ≤ k ∧ k < i + 1 + (v.size_ - i)) := by omega
            have e : i + (k - (i + 1)) = k - 1 := by omega
            simp only [hki, hk2, c, if_true, if_false, and_self, e, ite_self]
            have := load_of_toList h v (k - 1) (by omega)
            rwa [hoff, Nat.zero_add] at this

/-- `Insert` on a vector that owns its storage, for an argument that reads `x`
and does not refer to a slot the call shifts into (the slots `i + 1 .. size` of
the vector's own array, when there is room): the value is spliced in at `i`. -/
theorem Insert_spec [Element T] (h : Heap T) (v : SimpleVector) (i : Nat)
    (value : ConstRef T) (x : T)
    (hwf : WF h v) (hi : i ≤ v.size_) (hread : h.read value = some x)
    (hout : ∀ p, value = ConstRef.slot p → v.size_ < v.capacity_ →
      p.blk = v.items_.raw_ptr_.blk → p.off ≤ i ∨ v.size_ < p.off) :
    ∃ h' v', Insert h v (v.begin.add i) value = some (h', v', v'.begin.add i) ∧ WF h' v' ∧
      v'.size_ = v.size_ + 1 ∧
      v'.capacity_ =
        (if v.size_ < v.capacity_ then v.capacity_ else max (v.size_ + 1) (v.capacity_ * 2)) ∧
      toList h' v' = (toList h v).take i ++ [x] ++ (toList h v).drop i := by
  apply Insert_spec_read h v i value x hwf hi ?_ (fun _ => hread)
  intro hlt h1 hc
  cases value with
  | object y => exact hread
  | slot p =>
    rw [Heap.read_slot] at hread ⊢
    rw [hc.2, if_neg, hread]
    simp only [begin, ArrayPtr.Get, Ptr.add, hwf.2.1, Nat.zero_add]
    intro hc2
    have := hout p rfl hlt hc2.1
    omega

/-- The copy overload of `Insert` with an argument that refers to an element of the
same vector behind the insertion point, on a vector with room: the argument is read
after the shift, so what is spliced in at `i` is the element that stood before the
one referred to, `s[j - 1]` for the argument `v[j]`. -/
theorem Insert_of_own_later_element [Element T] (h : Heap T) (v : SimpleVector) (i j : Nat)
    (y : T) (hwf : WF h v) (hij : i < j) (hj : j < v.size_) (hlt : v.size_ < v.capacity_)
    (hy : (toList h v)[j - 1]? = some y) :
    ∃ h' v', Insert h v (v.begin.add i) (ConstRef.slot (v.begin.add j)) =
        some (h', v', v'.begin.add i) ∧
      v'.size_ = v.size_ + 1 ∧
      toList h' v' = (toList h v).take i ++ [y] ++ (toList h v).drop i := by
  obtain ⟨h', v', hrun, _, hs, _, hl⟩ :=
    Insert_spec_read h v i (ConstRef.slot (v.begin.add j)) y hwf (by omega)
      (fun _ h1 hc => by
        rw [Heap.read_slot, hc.2, if_pos, ← hy]
        · have := load_of_toList h v (j - 1) (by omega)
          rw [← this]
          apply Heap.load_congr
          · rfl
          · simp only [begin, ArrayPtr.Get, Ptr.add, hwf.2.1, Nat.zero_add]
            omega
        · simp only [begin, ArrayPtr.Get, Ptr.add, hwf.2.1, Nat.zero_add, true_and]
          omega)
      (fun hn => absurd hlt hn)
  exact ⟨h', v', hrun, hs, hl⟩

theorem PushBack_move_spec [Element T] (h : Heap T) (v : SimpleVector) (x : T) (hwf : WF h v) :
    ∃ h' v', PushBack_move h v x = some (h', v') ∧ WF h' v' ∧ v'.size_ = v.size_ + 1 ∧
      v'.capacity_ =
        (if v.size_ < v.capacity_ then v.capacity_ else max (v.size_ + 1) (v.capacity_ * 2)) ∧
      toList h' v' = toList h v ++ [x] := by
  by_cases hlt : v.size_ < v.capacity_
  · obtain ⟨h', v', hrun, hrest⟩ := PushBack_spec h v x hwf
    refine ⟨h', v', ?_, hrest⟩
    rw [← hrun]
    simp [PushBack_move, PushBack, hlt]
  · have hlenL := toList_length h v hwf
    have hoff := hwf.2.1
    have hsc : v.size_ = v.capacity_ := by have := hwf.1; omega
    have hblk := WF.blk_le h v hwf
    have hne : v.items_.raw_ptr_.blk ≠ h.cells.length + 1 := by omega
    have hM : max (v.size_ + 1) (v.capacity_ * 2) ≠ 0 := by omega
    have hlen1 := Heap.new_array_len (T := T) h (max (v.size_ + 1) (v.capacity_ * 2))
    have hload1 := Heap.new_array_load (T := T) h (max (v.size_ + 1) (v.capacity_ * 2))
    have hl1 : (h.new_array (max (v.size_ + 1) (v.capacity_ * 2))).1.len v.items_.raw_ptr_.blk =
        h.len v.items_.raw_ptr_.blk := by
      rw [hlen1, if_neg hne]
    have hn1 : (h.new_array (max (v.size_ + 1) (v.capacity_ * 2))).1.len (h.cells.length + 1) =
        some (max (v.size_ + 1) (v.capacity_ * 2)) := by
      rw [hlen1, if_pos rfl]
    obtain ⟨h2, hmv, hlen2, hload2⟩ := move_loop_spec v.size_
      (h.new_array (max (v.size_ + 1) (v.capacity_ * 2))).1 v.begin ⟨h.cells.length + 1, 0⟩
      (fun k hk => WF.inb_after h _ v hwf hl1 k (by omega))
      (fun k hk => ⟨_, hn1, by show 0 + k < _; omega⟩) (Or.inl hne)
    obtain ⟨h3, hst⟩ := Heap.store_ok h2 ⟨h.cells.length + 1, v.size_⟩ x
      ⟨_, by rw [hlen2, hn1], by show v.size_ < _; omega⟩
    have hlen3 := Heap.store_len h2 h3 _ x hst
    have hload3 := Heap.store_load h2 h3 _ x hst
    obtain ⟨h4, hdel⟩ := WF.delete_ok h h3 v hwf (by rw [hlen3, hlen2, hl1])
    have hlen4 := Heap.delete_array_len h3 h4 _ hdel
    have hload4 := Heap.delete_array_load h3 h4 _ hdel
    refine ⟨h4, ⟨⟨⟨h.cells.length + 1, 0⟩⟩, v.size_ + 1, max (v.size_ + 1) (v.capacity_ * 2)⟩,
      ?_, ?_, rfl, by simp [hlt], ?_⟩
    · have e0 : ArrayPtr.index ⟨if max (v.size_ + 1) (v.capacity_ * 2) = 0 then nullptr
          else ⟨h.cells.length + 1, 0⟩⟩ 0 = ⟨h.cells.length + 1, 0⟩ := by
        simp [hM, ArrayPtr.index, Ptr.add]
      have e1 : ArrayPtr.index ⟨if max (v.size_ + 1) (v.capacity_ * 2) = 0 then nullptr
          else ⟨h.cells.length + 1, 0⟩⟩ v.size_ = ⟨h.cells.length + 1, v.size_⟩ := by
        simp [hM, ArrayPtr.index, Ptr.add]
      have em : std_move (h.new_array (max (v.size_ + 1) (v.capacity_ * 2))).1
          (begin { v with capacity_ := max (v.size_ + 1) (v.capacity_ * 2) })
          (end_ { v with capacity_ := max (v.size_ + 1) (v.capacity_ * 2) })
          ⟨h.cells.length + 1, 0⟩ = some h2 := by
        rw [← hmv]
        exact std_move_range _ v.begin _ v.size_
      simp only [PushBack_move, hlt, if_false, ArrayPtr.create_eq, e0, e1, em, hst,
        ArrayPtr.swap, ArrayPtr.destroy, hdel]
      simp [hM]
    · refine ⟨by simp, rfl, ?_⟩
      simp only [hM, if_false]
      show h4.len (h.cells.length + 1) = _
      rw [hlen4, if_neg (Ne.symm hne), hlen3, hlen2, hn1]
    · apply toList_eq_of_load
      · simp [hlenL]
      · intro k hk
        simp only [] at hk
        rw [List.getElem?_append]
        simp only [hload4, hload3, hload2, hload1, begin, ArrayPtr.Get, Ptr.eq_iff, hlenL,
          Nat.zero_add, hoff, true_and, if_neg (Ne.symm hne), if_neg hne, false_and, if_false,
          Nat.zero_le, Nat.sub_zero]
        by_cases hks : k < v.size_
        · have c : ¬ (k = v.size_) := by omega
          simp only [c, hks, if_true, if_false]
          have := load_of_toList h v k hks
          rwa [hoff, Nat.zero_add] at this
        · have e : k = v.size_ := by omega
          subst e
          simp

end SimpleVector

theorem Heap.block_zero (h : Heap T) : h.block 0 = none := rfl

theorem Heap.live_ne_zero (h : Heap T) (b : Nat) (hl : h.block b ≠ none) : b ≠ 0 := by
  intro e; subst e; exact hl rfl

namespace SimpleVector

theorem Reserve_noop [Element T] (h : Heap T) (v : SimpleVector) (n : Nat)
    (hn : n < v.capacity_) : Reserve h v n = some (h, v) := by
  simp [Reserve, hn]

theorem Reserve_spec [Element T] (h : Heap T) (v : SimpleVector) (n : Nat) (hwf : WF h v)
    (hn : ¬ n < v.capacity_) :
    ∃ h', Reserve h v n =
        some (h', ⟨⟨if n = 0 then nullptr else ⟨h.cells.length + 1, 0⟩⟩, v.size_, n⟩) ∧
      WF h' ⟨⟨if n = 0 then nullptr else ⟨h.cells.length + 1, 0⟩⟩, v.size_, n⟩ ∧
      toList h' ⟨⟨if n = 0 then nullptr else ⟨h.cells.length + 1, 0⟩⟩, v.size_, n⟩ =
        toList h v := by
  have hlenL := toList_length h v hwf
  have hoff := hwf.2.1
  have hsz := hwf.1
  have hblk := WF.blk_le h v hwf
  have hne : v.items_.raw_ptr_.blk ≠ h.cells.length + 1 := by omega
  obtain ⟨h1, hctor, hlen1, hload1⟩ := ctor_fill_spec h n (Element.dflt : T)
  have hl1 : h1.len v.items_.raw_ptr_.blk = h.len v.items_.raw_ptr_.blk := by
    rw [hlen1, if_neg hne]
  have hn1 : h1.len (h.cells.length + 1) = some n := by
    rw [hlen1, if_pos rfl]
  have hpoff : (if n = 0 then nullptr else (⟨h.cells.length + 1, 0⟩ : Ptr)).off = 0 := by
    split <;> rfl
  obtain ⟨h2, hcopy, hlen2, hload2⟩ := copy_loop_spec v.size_ h1 v.begin
    (if n = 0 then nullptr else ⟨h.cells.length + 1, 0⟩)
    (fun k hk => WF.inb_after h h1 v hwf hl1 k (by omega))
    (fun k hk => by
      have hn0 : n ≠ 0 := by omega
      rw [if_neg hn0]
      exact ⟨_, hn1, by show 0 + k < _; omega⟩)
    (Or.inr (by rw [hpoff]; exact Nat.zero_le _))
  obtain ⟨h3, hdel⟩ := WF.delete_ok h h2 v hwf (by rw [hlen2, hl1])
  have hlen3 := Heap.delete_array_len h2 h3 _ hdel
  have hload3 := Heap.delete_array_load h2 h3 _ hdel
  refine ⟨h3, ?_, ?_, ?_⟩
  · have ec : std_copy h1 v.begin v.end_ (if n = 0 then nullptr else ⟨h.cells.length + 1, 0⟩)
        = some h2 := by
      rw [show v.end_ = v.begin.add v.size_ from rfl, std_copy_range, hcopy]
    have e1 : begin ⟨⟨if n = 0 then nullptr else ⟨h.cells.length + 1, 0⟩⟩, n, n⟩
        = (if n = 0 then nullptr else ⟨h.cells.length + 1, 0⟩) := rfl
    simp only [Reserve, hn, if_false, ctor_size, hctor, e1, ec, swap, ArrayPtr.swap, destroy,
      ArrayPtr.destroy, hdel]
  · refine ⟨by simp only []; omega, hpoff, ?_⟩
    by_cases hn0 : n = 0
    · simp [hn0, nullptr]
    · simp only [hn0, if_false]
      show h3.len (h.cells.length + 1) = _
      rw [hlen3, if_neg (Ne.symm hne), hlen2, hn1]
  · apply toList_eq_of_load
    · simp [hlenL]
    · intro k hk
      simp only [] at hk
      have hn0 : n ≠ 0 := by omega
      simp only [hn0, if_false, hload3, hload2, hload1, begin, ArrayPtr.Get, hoff,
        Nat.zero_add, if_neg (Ne.symm hne), if_neg hne, true_and, Nat.zero_le, Nat.sub_zero, hk,
        if_true]
      have := load_of_toList h v k hk
      rwa [hoff, Nat.zero_add] at this

theorem copy_ctor_spec [Element T] (h : Heap T) (a : SimpleVector) (hwf : WF h a) :
    ∃ h', copy_ctor h a =
        some (h', ⟨⟨if a.size_ = 0 then nullptr else ⟨h.cells.length + 1, 0⟩⟩,
          a.size_, a.capacity_⟩) ∧
      h'.len (h.cells.length + 1) = some a.size_ ∧
      (∀ b, h.block b ≠ none → h'.block b = h.block b) ∧
      toList h' ⟨⟨if a.size_ = 0 then nullptr else ⟨h.cells.length + 1, 0⟩⟩,
          a.size_, a.capacity_⟩ = toList h a := by
  have hlenL := toList_length h a hwf
  have hoff := hwf.2.1
  have hsz := hwf.1
  have hblk := WF.blk_le h a hwf
  have hne : a.items_.raw_ptr_.blk ≠ h.cells.length + 1 := by omega
  have hlen1 := Heap.new_array_len (T := T) h a.size_
  have hload1 := Heap.new_array_load (T := T) h a.size_
  have hl1 : (h.new_array a.size_).1.len a.items_.raw_ptr_.blk = h.len a.items_.raw_ptr_.blk := by
    rw [hlen1, if_neg hne]
  have hn1 : (h.new_array a.size_).1.len (h.cells.length + 1) = some a.size_ := by
    rw [hlen1, if_pos rfl]
  have hpoff : (if a.size_ = 0 then nullptr else (⟨h.cells.length + 1, 0⟩ : Ptr)).off = 0 := by
    split <;> rfl
  obtain ⟨h2, hcopy, hlen2, hload2⟩ := copy_loop_spec a.size_ (h.new_array a.size_).1 a.begin
    (if a.size_ = 0 then nullptr else ⟨h.cells.length + 1, 0⟩)
    (fun k hk => WF.inb_after h _ a hwf hl1 k (by omega))
    (fun k hk => by
      have hn0 : a.size_ ≠ 0 := by omega
      rw [if_neg hn0]
      exact ⟨_, hn1, by show 0 + k < _; omega⟩)
    (Or.inr (by rw [hpoff]; exact Nat.zero_le _))
  refine ⟨h2, ?_, by rw [hlen2, hn1], ?_, ?_⟩
  · have ec : std_copy (h.new_array a.size_).1 a.begin a.end_
        (if a.size_ = 0 then nullptr else ⟨h.cells.length + 1, 0⟩) = some h2 := by
      rw [show a.end_ = a.begin.add a.size_ from rfl, std_copy_range, hcopy]
    have e1 : begin ⟨⟨if a.size_ = 0 then nullptr else ⟨h.cells.length + 1, 0⟩⟩, a.size_,
        a.capacity_⟩ = (if a.size_ = 0 then nullptr else ⟨h.cells.length + 1, 0⟩) := rfl
    simp only [copy_ctor, ArrayPtr.create_eq, e1, ec]
  · intro b hb
    have hb0 := Heap.live_ne_zero h b hb
    have hbL := Heap.block_le_cells h b hb
    have hbn : b ≠ h.cells.length + 1 := by omega
    have hbp : ¬ b = (if a.size_ = 0 then nullptr else (⟨h.cells.length + 1, 0⟩ : Ptr)).blk := by
      split
      · exact hb0
      · exact hbn
    apply Heap.block_ext
    · rw [hlen2, hlen1, if_neg hbn]
    · intro j
      simp only [hload2, hload1, hbp, false_and, if_false, hbn]
  · apply toList_eq_of_load
    · simp [hlenL]
    · intro k hk
      simp only [] at hk
      have hn0 : a.size_ ≠ 0 := by omega
      simp only [hn0, if_false, hload2, hload1, begin, ArrayPtr.Get, hoff,
        Nat.zero_add, if_neg hne, true_and, Nat.zero_le, Nat.sub_zero, hk, if_true]
      have := load_of_toList h a k hk
      rwa [hoff, Nat.zero_add] at this

end SimpleVector

/-! ## Which arrays a call can touch -/

theorem Heap.store_block_ne (h h' : Heap T) (p : Ptr) (x : T) (hst : h.store p x = some h')
    (b : Nat) (hb : b ≠ p.blk) : h'.block b = h.block b := by
  rw [Heap.store_block h h' p x hst b, if_neg hb]

theorem copy_loop_frame (n : Nat) : ∀ (h h' : Heap T) (s d : Ptr),
    copy_loop n h s d = some h' → ∀ b, b ≠ d.blk → h'.block b = h.block b := by
  induction n with
  | zero =>
    intro h h' s d hrun b _
    simp only [copy_loop, Option.some.injEq] at hrun
    rw [hrun]
  | succ n ih =>
    intro h h' s d hrun b hb
    unfold copy_loop at hrun
    split at hrun
    · exact absurd hrun (by simp)
    · split at hrun
      · exact absurd hrun (by simp)
      · rename_i h1 hst
        rw [ih h1 h' _ _ hrun b hb, Heap.store_block_ne h h1 d _ hst b hb]

theorem copy_backward_loop_frame (n : Nat) : ∀ (h h' : Heap T) (last d_last : Ptr),
    copy_backward_loop n h last d_last = some h' → ∀ b, b ≠ d_last.blk →
      h'.block b = h.block b := by
  induction n with
  | zero =>
    intro h h' s d hrun b _
    simp only [copy_backward_loop, Option.some.injEq] at hrun
    rw [hrun]
  | succ n ih =>
    intro h h' s d hrun b hb
    unfold copy_backward_loop at hrun
    split at hrun
    · exact absurd hrun (by simp)
    · split at hrun
      · exact absurd hrun (by simp)
      · split at hrun
        · exact absurd hrun (by simp)
        · rename_i h1 hst
          rw [ih h1 h' _ _ hrun b hb, Heap.store_block_ne h h1 d.pred _ hst b hb]

theorem move_loop_frame [Element T] (n : Nat) : ∀ (h h' : Heap T) (s d : Ptr),
    move_loop n h s d = some h' → ∀ b, b ≠ d.blk → b ≠ s.blk → h'.block b = h.block b := by
  induction n with
  | zero =>
    intro h h' s d hrun b _ _
    simp only [move_loop, Option.some.injEq] at hrun
    rw [hrun]
  | succ n ih =>
    intro h h' s d hrun b hb hbs
    unfold move_loop at hrun
    split at hrun
    · exact absurd hrun (by simp)
    · split at hrun
      · exact absurd hrun (by simp)
      · split at hrun
        · exact absurd hrun (by simp)
        · rename_i h1 hst _ h2 hst2
          rw [ih h2 h' _ _ hrun b hb hbs, Heap.store_block_ne h1 h2 s _ hst2 b hbs,
            Heap.store_block_ne h h1 d _ hst b hb]

theorem move_backward_loop_frame [Element T] (n : Nat) : ∀ (h h' : Heap T) (last d_last : Ptr),
    move_backward_loop n h last d_last = some h' → ∀ b, b ≠ d_last.blk → b ≠ last.blk →
      h'.block b = h.block b := by
  induction n with
  | zero =>
    intro h h' s d hrun b _ _
    simp only [move_backward_loop, Option.some.injEq] at hrun
    rw [hrun]
  | succ n ih =>
    intro h h' s d hrun b hb hbs
    unfold move_backward_loop at hrun
    split at hrun
    · exact absurd hrun (by simp)
    · split at hrun
      · exact absurd hrun (by simp)
      · split at hrun
        · exact absurd hrun (by simp)
        · split at hrun
          · exact absurd hrun (by simp)
          · rename_i h1 hst _ h2 hst2
            rw [ih h2 h' _ _ hrun b hb hbs, Heap.store_block_ne h1 h2 s.pred _ hst2 b hbs,
              Heap.store_block_ne h h1 d.pred _ hst b hb]

theorem fill_loop_frame (n : Nat) : ∀ (h h' : Heap T) (d : Ptr) (x : T),
    fill_loop n h d x = some h' → ∀ b, b ≠ d.blk → h'.block b = h.block b := by
  induction n with
  | zero =>
    intro h h' d x hrun b _
    simp only [fill_loop, Option.some.injEq] at hrun
    rw [hrun]
  | succ n ih =>
    intro h h' d x hrun b hb
    unfold fill_loop at hrun
    split at hrun
    · exact absurd hrun (by simp)
    · rename_i h1 hst
      rw [ih h1 h' _ _ hrun b hb, Heap.store_block_ne h h1 d _ hst b hb]

theorem store_list_frame (xs : List T) : ∀ (h h' : Heap T) (d : Ptr),
    store_list xs h d = some h' → ∀ b, b ≠ d.blk → h'.block b = h.block b := by
  induction xs with
  | nil =>
    intro h h' d hrun b _
    simp only [store_list, Option.some.injEq] at hrun
    rw [hrun]
  | cons x xs ih =>
    intro h h' d hrun b hb
    unfold store_list at hrun
    split at hrun
    · exact absurd hrun (by simp)
    · rename_i h1 hst
      rw [ih h1 h' _ hrun b hb, Heap.store_block_ne h h1 d _ hst b hb]

theorem std_copy_frame (h h' : Heap T) (first last d : Ptr)
    (hrun : std_copy h first last d = some h') (b : Nat) (hb : b ≠ d.blk) :
    h'.block b = h.block b := by
  unfold std_copy at hrun
  split at hrun
  · exact copy_loop_frame _ h h' _ _ hrun b hb
  · exact absurd hrun (by simp)

theorem std_copy_backward_frame (h h' : Heap T) (first last d : Ptr)
    (hrun : std_copy_backward h first last d = some h') (b : Nat) (hb : b ≠ d.blk) :
    h'.block b = h.block b := by
  unfold std_copy_backward at hrun
  split at hrun
  · exact copy_backward_loop_frame _ h h' _ _ hrun b hb
  · exact absurd hrun (by simp)

theorem std_move_frame [Element T] (h h' : Heap T) (first last d : Ptr)
    (hrun : std_move h first last d = some h') (b : Nat) (hb : b ≠ d.blk)
    (hbs : b ≠ first.blk) : h'.block b = h.block b := by
  unfold std_move at hrun
  split at hrun
  · exact move_loop_frame _ h h' _ _ hrun b hb hbs
  · exact absurd hrun (by simp)

theorem std_move_backward_frame [Element T] (h h' : Heap T) (first last d : Ptr)
    (hrun : std_move_backward h first last d = some h') (b : Nat) (hb : b ≠ d.blk)
    (hbs : b ≠ first.blk) : h'.block b = h.block b := by
  unfold std_move_backward at hrun
  split at hrun
  · rename_i hv
    exact move_backward_loop_frame _ h h' _ _ hrun b hb (by rw [← hv.1]; exact hbs)
  · exact absurd hrun (by simp)

theorem std_fill_frame (h h' : Heap T) (first last : Ptr) (x : T)
    (hrun : std_fill h first last x = some h') (b : Nat) (hb : b ≠ first.blk) :
    h'.block b = h.block b := by
  unfold std_fill at hrun
  split at hrun
  · exact fill_loop_frame _ h h' _ _ hrun b hb
  · exact absurd hrun (by simp)

theorem Heap.new_array_block_live [Element T] (h : Heap T) (n b : Nat) (hb : h.block b ≠ none) :
    (h.new_array n).1.block b = h.block b := by
  have := Heap.block_le_cells h b hb
  rw [Heap.new_array_block, if_neg (by omega)]

theorem Heap.fresh_block_none (h : Heap T) : h.block (h.cells.length + 1) = none := by
  by_contra hc
  have := Heap.block_le_cells h _ hc
  omega

theorem Heap.delete_array_block_ne (h h' : Heap T) (p : Ptr) (hd : h.delete_array p = some h')
    (b : Nat) (hb : b ≠ p.blk) : h'.block b = h.block b := by
  rw [Heap.delete_array_block h h' p hd b, if_neg hb]

theorem fresh_ptr_blk_ne (h : Heap T) (n b : Nat) (hb : h.block b ≠ none) :
    b ≠ (if n = 0 then nullptr else (⟨h.cells.length + 1, 0⟩ : Ptr)).blk := by
  have h0 := Heap.live_ne_zero h b hb
  have hL := Heap.block_le_cells h b hb
  split
  · exact h0
  · show b ≠ h.cells.length + 1
    omega

theorem fresh_ptr_block_none (h : Heap T) (n : Nat) :
    h.block (if n = 0 then nullptr else (⟨h.cells.length + 1, 0⟩ : Ptr)).blk = none := by
  split
  · rfl
  · exact Heap.fresh_block_none h

namespace SimpleVector

theorem Confined.refl (h : Heap T) (v : SimpleVector) : Confined h h v v :=
  ⟨fun _ _ _ => rfl, Or.inl rfl⟩

theorem subscript_blk (v : SimpleVector) (index : Nat) (slot : Ptr)
    (hs : v.subscript index = some slot) : slot.blk = v.items_.raw_ptr_.blk := by
  unfold subscript at hs
  split at hs
  · injection hs with e
    rw [← e]; rfl
  · exact absurd hs (by simp)

theorem ctor_fill_fields [Element T] (h h1 : Heap T) (n : Nat) (x : T) (tmp : SimpleVector)
    (hres : ctor_fill h n x = some (h1, tmp)) :
    tmp = ⟨⟨if n = 0 then nullptr else ⟨h.cells.length + 1, 0⟩⟩, n, n⟩ := by
  obtain ⟨h1', hctor, -, -⟩ := ctor_fill_spec h n x
  rw [hctor] at hres
  simp only [Option.some.injEq, Prod.mk.injEq] at hres
  exact hres.2.symm

theorem ctor_fill_frame [Element T] (h h1 : Heap T) (n : Nat) (x : T) (tmp : SimpleVector)
    (hres : ctor_fill h n x = some (h1, tmp)) (b : Nat) (hb : h.block b ≠ none) :
    h1.block b = h.block b := by
  simp only [ctor_fill] at hres
  split at hres
  · exact absurd hres (by simp)
  · rename_i h2 hfill
    simp only [Option.some.injEq, Prod.mk.injEq] at hres
    rw [← hres.1, std_fill_frame _ _ _ _ _ hfill b (fresh_ptr_blk_ne h n b hb)]
    exact Heap.new_array_block_live h n b hb

theorem PushBack_effect [Element T] (h h' : Heap T) (v v' : SimpleVector) (x : T)
    (hres : PushBack h v x = some (h', v')) :
    v'.size_ = v.size_ + 1 ∧
      v'.capacity_ =
        (if v.size_ < v.capacity_ then v.capacity_ else max (v.size_ + 1) (v.capacity_ * 2)) ∧
      Confined h h' v v' := by
  unfold PushBack at hres
  by_cases hlt : v.size_ < v.capacity_
  · simp only [hlt, if_true] at hres ⊢
    split at hres
    · exact absurd hres (by simp)
    · rename_i h1 hst
      simp only [Option.some.injEq, Prod.mk.injEq] at hres
      rw [← hres.2, ← hres.1]
      exact ⟨rfl, rfl, fun b hb _ => Heap.store_block_ne h h1 _ x hst b hb, Or.inl rfl⟩
  · simp only [hlt, if_false] at hres ⊢
    split at hres
    · exact absurd hres (by simp)
    · rename_i h1 tmp hctor
      have ht := ctor_fill_fields _ _ _ _ _ hctor
      subst ht
      split at hres
      · exact absurd hres (by simp)
      · rename_i h2 hcopy
        split at hres
        · exact absurd hres (by simp)
        · rename_i slot hslot
          split at hres
          · exact absurd hres (by simp)
          · rename_i h3 hst
            split at hres
            · exact absurd hres (by simp)
            · rename_i h4 hdel
              simp only [Option.some.injEq, Prod.mk.injEq] at hres
              rw [← hres.2, ← hres.1]
              refine ⟨rfl, rfl, ?_, Or.inr (fresh_ptr_block_none h _)⟩
              intro b hb hlive
              have hfresh := fresh_ptr_blk_ne h (max (v.size_ + 1) (v.capacity_ * 2)) b hlive
              have hsl : slot.blk = (if max (v.size_ + 1) (v.capacity_ * 2) = 0 then nullptr
                  else (⟨h.cells.length + 1, 0⟩ : Ptr)).blk := subscript_blk _ _ _ hslot
              rw [Heap.delete_array_block_ne _ _ _ hdel b hb,
                Heap.store_block_ne _ _ _ _ hst b (by rw [hsl]; exact hfresh),
                std_copy_frame _ _ _ _ _ hcopy b hfresh,
                ctor_fill_frame _ _ _ _ _ hctor b hlive]

theorem PushBack_move_effect [Element T] (h h' : Heap T) (v v' : SimpleVector) (x : T)
    (hres : PushBack_move h v x = some (h', v')) :
    v'.size_ = v.size_ + 1 ∧
      v'.capacity_ =
        (if v.size_ < v.capacity_ then v.capacity_ else max (v.size_ + 1) (v.capacity_ * 2)) ∧
      Confined h h' v v' := by
  unfold PushBack_move at hres
  by_cases hlt : v.size_ < v.capacity_
  · simp only [hlt, if_true] at hres ⊢
    split at hres
    · exact absurd hres (by simp)
    · rename_i h1 hst
      simp only [Option.some.injEq, Prod.mk.injEq] at hres
      rw [← hres.2, ← hres.1]
      exact ⟨rfl, rfl, fun b hb _ => Heap.store_block_ne h h1 _ x hst b hb, Or.inl rfl⟩
  · simp only [hlt, if_false, ArrayPtr.create_eq] at hres ⊢
    split at hres
    · exact absurd hres (by simp)
    · rename_i h2 hmv
      split at hres
      · exact absurd hres (by simp)
      · rename_i h3 hst
        split at hres
        · exact absurd hres (by simp)
        · rename_i h4 hdel
          simp only [Option.some.injEq, Prod.mk.injEq] at hres
          rw [← hres.2, ← hres.1]
          refine ⟨rfl, rfl, ?_, Or.inr (fresh_ptr_block_none h _)⟩
          intro b hb hlive
          have hfresh := fresh_ptr_blk_ne h (max (v.size_ + 1) (v.capacity_ * 2)) b hlive
          rw [Heap.delete_array_block_ne _ _ _ hdel b hb,
            Heap.store_block_ne _ _ _ _ hst b hfresh,
            std_move_frame _ _ _ _ _ hmv b hfresh hb]
          exact Heap.new_array_block_live h _ b hlive

theorem ptr_diff_blk (a b : Ptr) (d : Nat) (hd : ptr_diff a b = some d) : a.blk = b.blk := by
  unfold ptr_diff at hd
  split at hd
  · rename_i hle
    exact hle.1.symm
  · exact absurd hd (by simp)

theorem Insert_effect [Element T] (h h' : Heap T) (v v' : SimpleVector) (pos p : Ptr)
    (value : ConstRef T) (hres : Insert h v pos value = some (h', v', p)) :
    v'.size_ = v.size_ + 1 ∧
      v'.capacity_ =
        (if v.size_ < v.capacity_ then v.capacity_ else max (v.size_ + 1) (v.capacity_ * 2)) ∧
      Confined h h' v v' := by
  unfold Insert at hres
  split at hres
  swap
  · exact absurd hres (by simp)
  by_cases hlt : v.size_ < v.capacity_
  · simp only [hlt, if_true] at hres ⊢
    split at hres
    · exact absurd hres (by simp)
    · rename_i h1 hcb
      split at hres
      · exact absurd hres (by simp)
      · split at hres
        · exact absurd hres (by simp)
        · split at hres
          · exact absurd hres (by simp)
          · rename_i h2 hst
            simp only [Option.some.injEq, Prod.mk.injEq] at hres
            rw [← hres.2.1, ← hres.1]
            refine ⟨rfl, rfl, ?_, Or.inl rfl⟩
            intro b hb _
            rw [Heap.store_block_ne _ _ _ _ hst b hb,
              std_copy_backward_frame _ _ _ _ _ hcb b hb]
  · simp only [hlt, if_false] at hres ⊢
    split at hres
    · exact absurd hres (by simp)
    · split at hres
      · exact absurd hres (by simp)
      · rename_i h1 tmp hctor
        have ht := ctor_fill_fields _ _ _ _ _ hctor
        subst ht
        split at hres
        · exact absurd hres (by simp)
        · rename_i h2 hcopy
          split at hres
          · exact absurd hres (by simp)
          · rename_i h3 hcb
            split at hres
            · exact absurd hres (by simp)
            · split at hres
              · exact absurd hres (by simp)
              · rename_i h4 hst
                split at hres
                · exact absurd hres (by simp)
                · rename_i h5 hdel
                  simp only [Option.some.injEq, Prod.mk.injEq] at hres
                  rw [← hres.2.1, ← hres.1]
                  refine ⟨rfl, rfl, ?_, Or.inr (fresh_ptr_block_none h _)⟩
                  intro b hb hlive
                  have hfresh :=
                    fresh_ptr_blk_ne h (max (v.size_ + 1) (v.capacity_ * 2)) b hlive
                  rw [Heap.delete_array_block_ne _ _ _ hdel b hb,
                    Heap.store_block_ne _ _ _ _ hst b hfresh,
                    std_copy_backward_frame _ _ _ _ _ hcb b hfresh,
                    std_copy_frame _ _ _ _ _ hcopy b hfresh,
                    ctor_fill_frame _ _ _ _ _ hctor b hlive]

theorem Insert_move_effect [Element T] (h h' : Heap T) (v v' : SimpleVector) (pos p : Ptr)
    (x : T) (hres : Insert_move h v pos x = some (h', v', p)) :
    v'.size_ = v.size_ + 1 ∧
      v'.capacity_ =
        (if v.size_ < v.capacity_ then v.capacity_ else max (v.size_ + 1) (v.capacity_ * 2)) ∧
      Confined h h' v v' := by
  unfold Insert_move at hres
  split at hres
  swap
  · exact absurd hres (by simp)
  rename_i hassert
  have hpos : pos.blk = v.items_.raw_ptr_.blk := hassert.1.1.symm
  by_cases hlt : v.size_ < v.capacity_
  · simp only [hlt, if_true] at hres ⊢
    split at hres
    · exact absurd hres (by simp)
    · rename_i h1 hcb
      split at hres
      · exact absurd hres (by simp)
      · split at hres
        · exact absurd hres (by simp)
        · rename_i h2 hst
          simp only [Option.some.injEq, Prod.mk.injEq] at hres
          rw [← hres.2.1, ← hres.1]
          refine ⟨rfl, rfl, ?_, Or.inl rfl⟩
          intro b hb _
          rw [Heap.store_block_ne _ _ _ _ hst b hb,
            std_move_backward_frame _ _ _ _ _ hcb b hb (by rw [hpos]; exact hb)]
  · simp only [hlt, if_false, ArrayPtr.create_eq] at hres ⊢
    split at hres
    · exact absurd hres (by simp)
    · split at hres
      · exact absurd hres (by simp)
      · rename_i h2 hmv
        split at hres
        · exact absurd hres (by simp)
        · rename_i h3 hcb
          split at hres
          · exact absurd hres (by simp)
          · rename_i h4 hst
            split at hres
            · exact absurd hres (by simp)
            · rename_i h5 hdel
              simp only [Option.some.injEq, Prod.mk.injEq] at hres
              rw [← hres.2.1, ← hres.1]
              refine ⟨rfl, rfl, ?_, Or.inr (fresh_ptr_block_none h _)⟩
              intro b hb hlive
              have hfresh :=
                fresh_ptr_blk_ne h (max (v.size_ + 1) (v.capacity_ * 2)) b hlive
              rw [Heap.delete_array_block_ne _ _ _ hdel b hb,
                Heap.store_block_ne _ _ _ _ hst b hfresh,
                std_move_backward_frame _ _ _ _ _ hcb b hfresh (by rw [hpos]; exact hb),
                std_move_frame _ _ _ _ _ hmv b hfresh hb]
              exact Heap.new_array_block_live h _ b hlive

theorem Erase_effect [Element T] (h h' : Heap T) (v v' : SimpleVector) (pos p : Ptr)
    (hres : Erase h v pos = some (h', v', p)) :
    v.size_ ≠ 0 ∧ v'.size_ = v.size_ - 1 ∧ v'.capacity_ = v.capacity_ ∧ Confined h h' v v' := by
  unfold Erase at hres
  split at hres
  swap
  · exact absurd hres (by simp)
  rename_i hne
  split at hres
  · exact absurd hres (by simp)
  · rename_i shift hdiff
    have hpos : pos.blk = v.items_.raw_ptr_.blk := ptr_diff_blk _ _ _ hdiff
    split at hres
    · exact absurd hres (by simp)
    · rename_i h1 hmv
      simp only [Option.some.injEq, Prod.mk.injEq] at hres
      rw [← hres.2.1, ← hres.1]
      refine ⟨hne, rfl, rfl, ?_, Or.inl rfl⟩
      intro b hb _
      exact std_move_frame _ _ _ _ _ hmv b (by rw [hpos]; exact hb) (by
        show b ≠ pos.blk
        rw [hpos]; exact hb)

theorem Reserve_effect [Element T] (h h' : Heap T) (v v' : SimpleVector) (n : Nat)
    (hres : Reserve h v n = some (h', v')) :
    v'.size_ = v.size_ ∧
      v'.capacity_ = (if n < v.capacity_ then v.capacity_ else n) ∧
      Confined h h' v v' := by
  unfold Reserve at hres
  by_cases hlt : n < v.capacity_
  · simp only [hlt, if_true, Option.some.injEq, Prod.mk.injEq] at hres ⊢
    rw [← hres.2, ← hres.1]
    exact ⟨rfl, rfl, Confined.refl h v⟩
  · simp only [hlt, if_false] at hres ⊢
    split at hres
    · exact absurd hres (by simp)
    · rename_i h1 tmp hctor
      have ht := ctor_fill_fields _ _ _ _ _ hctor
      subst ht
      split at hres
      · exact absurd hres (by simp)
      · rename_i h2 hcopy
        split at hres
        · exact absurd hres (by simp)
        · rename_i h3 hdel
          simp only [Option.some.injEq, Prod.mk.injEq] at hres
          rw [← hres.2, ← hres.1]
          refine ⟨rfl, rfl, ?_, Or.inr (fresh_ptr_block_none h _)⟩
          intro b hb hlive
          have hfresh := fresh_ptr_blk_ne h n b hlive
          rw [Heap.delete_array_block_ne _ _ _ hdel b hb,
            std_copy_frame _ _ _ _ _ hcopy b hfresh,
            ctor_fill_frame _ _ _ _ _ hctor b hlive]

theorem Resize_effect [Element T] (h h' : Heap T) (v v' : SimpleVector) (n : Nat)
    (hres : Resize h v n = some (h', v')) :
    v'.size_ = (if ¬ n < v.size_ ∧ n = v.capacity_ then v.size_ else n) ∧
      v'.capacity_ =
        (if ¬ n < v.size_ ∧ n > v.capacity_ then max n (v.capacity_ * 2) else v.capacity_) ∧
      Confined h h' v v' := by
  unfold Resize at hres
  by_cases h1 : n < v.size_
  · simp only [h1, if_true, Option.some.injEq, Prod.mk.injEq] at hres
    rw [← hres.2, ← hres.1]
    refine ⟨?_, ?_, Confined.refl h _⟩
    · simp [h1]
    · simp [h1]
  · by_cases h2 : n > v.capacity_
    · simp only [h1, h2, if_true, if_false, ArrayPtr.create_eq] at hres
      split at hres
      · exact absurd hres (by simp)
      · rename_i h3 hmv
        split at hres
        · exact absurd hres (by simp)
        · rename_i h4 hdel
          simp only [Option.some.injEq, Prod.mk.injEq] at hres
          rw [← hres.2, ← hres.1]
          have hn : ¬ n = v.capacity_ := by omega
          refine ⟨?_, ?_, ?_, Or.inr (fresh_ptr_block_none h _)⟩
          · simp [h1, hn]
          · show (if v.capacity_ * 2 > n then v.capacity_ * 2 else n) =
              (if ¬ n < v.size_ ∧ n > v.capacity_ then max n (v.capacity_ * 2) else v.capacity_)
            rw [if_pos (And.intro h1 h2)]
            by_cases h5 : v.capacity_ * 2 > n
            · rw [if_pos h5]; omega
            · rw [if_neg h5]; omega
          · intro b hb hlive
            have hfresh := fresh_ptr_blk_ne h (max n (v.capacity_ * 2)) b hlive
            rw [Heap.delete_array_block_ne _ _ _ hdel b hb,
              std_move_frame _ _ _ _ _ hmv b hfresh hb]
            exact Heap.new_array_block_live h _ b hlive
    · by_cases h3 : n < v.capacity_
      · simp only [h1, h2, h3, if_true, if_false] at hres
        split at hres
        · exact absurd hres (by simp)
        · rename_i h4 hfill
          simp only [Option.some.injEq, Prod.mk.injEq] at hres
          rw [← hres.2, ← hres.1]
          have hn : ¬ n = v.capacity_ := by omega
          refine ⟨?_, ?_, fun b hb _ => fill_loop_frame _ _ _ _ _ hfill b hb, Or.inl rfl⟩
          · simp [h1, hn]
          · simp [h1, h2]
      · simp only [h1, h2, h3, if_false, Option.some.injEq, Prod.mk.injEq] at hres
        rw [← hres.2, ← hres.1]
        have hn : n = v.capacity_ := by omega
        refine ⟨?_, ?_, Confined.refl h _⟩
        · rw [if_pos (And.intro h1 hn)]
        · simp [h1, h2]

theorem assign_effect (h h' : Heap T) (v v' : SimpleVector) (index : Nat) (x : T)
    (hres : assign h v index x = some (h', v')) : v' = v ∧ Confined h h' v v' := by
  unfold assign at hres
  split at hres
  · exact absurd hres (by simp)
  · rename_i slot hslot
    split at hres
    · exact absurd hres (by simp)
    · rename_i h1 hst
      simp only [Option.some.injEq, Prod.mk.injEq] at hres
      rw [← hres.2, ← hres.1]
      refine ⟨rfl, ?_, Or.inl rfl⟩
      intro b hb _
      exact Heap.store_block_ne _ _ _ _ hst b (by rw [subscript_blk _ _ _ hslot]; exact hb)

theorem ctor_init_fields [Element T] (h h1 : Heap T) (init : List T) (v : SimpleVector)
    (hres : ctor_init h init = some (h1, v)) :
    v.size_ = init.length ∧ v.capacity_ = init.length := by
  simp only [ctor_init] at hres
  split at hres
  · exact absurd hres (by simp)
  · simp only [Option.some.injEq, Prod.mk.injEq] at hres
    rw [← hres.2]
    exact ⟨rfl, rfl⟩

theorem copy_ctor_fields [Element T] (h h1 : Heap T) (other v : SimpleVector)
    (hres : copy_ctor h other = some (h1, v)) :
    v.size_ = other.size_ ∧ v.capacity_ = other.capacity_ := by
  simp only [copy_ctor] at hres
  split at hres
  · exact absurd hres (by simp)
  · simp only [Option.some.injEq, Prod.mk.injEq] at hres
    rw [← hres.2]
    exact ⟨rfl, rfl⟩

theorem move_ctor_fields (h h1 : Heap T) (other v other1 : SimpleVector)
    (hres : move_ctor h other = some (h1, v, other1)) :
    v.size_ = other.size_ ∧ v.capacity_ = other.capacity_ ∧
      other1.size_ = 0 ∧ other1.capacity_ = 0 := by
  simp only [move_ctor] at hres
  split at hres
  · exact absurd hres (by simp)
  · simp only [Option.some.injEq, Prod.mk.injEq] at hres
    rw [← hres.2.1, ← hres.2.2]
    exact ⟨rfl, rfl, rfl, rfl⟩

theorem copy_ctor_effect [Element T] (h h1 : Heap T) (other v : SimpleVector)
    (hres : copy_ctor h other = some (h1, v)) :
    v = ⟨⟨if other.size_ = 0 then nullptr else ⟨h.cells.length + 1, 0⟩⟩,
        other.size_, other.capacity_⟩ ∧
      ∀ b, h.block b ≠ none → h1.block b = h.block b := by
  simp only [copy_ctor, ArrayPtr.create_eq] at hres
  split at hres
  · exact absurd hres (by simp)
  · rename_i h2 hcopy
    simp only [Option.some.injEq, Prod.mk.injEq] at hres
    refine ⟨hres.2.symm, ?_⟩
    intro b hb
    rw [← hres.1, std_copy_frame _ _ _ _ _ hcopy b (fresh_ptr_blk_ne h other.size_ b hb)]
    exact Heap.new_array_block_live h _ b hb

theorem copy_assign_effect [Element T] (h h1 : Heap T) (v rhs v1 : SimpleVector)
    (hres : copy_assign h v rhs = some (h1, v1)) : Confined h h1 v v1 := by
  unfold copy_assign at hres
  split at hres
  · split at hres
    · exact absurd hres (by simp)
    · rename_i h2 tmp hcopy
      obtain ⟨ht, hfr⟩ := copy_ctor_effect _ _ _ _ hcopy
      subst ht
      simp only [] at hres
      split at hres
      · exact absurd hres (by simp)
      · rename_i h3 hdel
        simp only [Option.some.injEq, Prod.mk.injEq] at hres
        rw [← hres.2, ← hres.1]
        refine ⟨?_, Or.inr (fresh_ptr_block_none h _)⟩
        intro b hb hlive
        rw [Heap.delete_array_block_ne _ _ _ hdel b hb, hfr b hlive]
  · simp only [Option.some.injEq, Prod.mk.injEq] at hres
    rw [← hres.2, ← hres.1]
    exact Confined.refl h v

theorem copy_assign_fields [Element T] (h h1 : Heap T) (v rhs v1 : SimpleVector)
    (hres : copy_assign h v rhs = some (h1, v1)) :
    v1 = v ∨ (v1.size_ = rhs.size_ ∧ v1.capacity_ = rhs.capacity_) := by
  unfold copy_assign at hres
  split at hres
  · split at hres
    · exact absurd hres (by simp)
    · rename_i h2 tmp hcopy
      have hf := copy_ctor_fields _ _ _ _ hcopy
      simp only [] at hres
      split at hres
      · exact absurd hres (by simp)
      · simp only [Option.some.injEq, Prod.mk.injEq] at hres
        rw [← hres.2]
        exact Or.inr hf
  · simp only [Option.some.injEq, Prod.mk.injEq] at hres
    exact Or.inl hres.2.symm

end SimpleVector

/-- Every mutating call keeps `size_ <= capacity_` and touches only the buffer of its
vector and arrays it allocates itself. -/
theorem Mutation.apply_effect [Element T] (m : Mutation T) (h h' : Heap T)
    (v v' : SimpleVector) (hres : m.apply h v = some (h', v')) :
    (v.size_ ≤ v.capacity_ → v'.size_ ≤ v'.capacity_) ∧ SimpleVector.Confined h h' v v' := by
  cases m with
  | pushBack item =>
    obtain ⟨hs, hc, hf⟩ := SimpleVector.PushBack_effect h h' v v' item hres
    refine ⟨fun hinv => ?_, hf⟩
    rw [hs, hc]; split <;> omega
  | pushBackMove item =>
    obtain ⟨hs, hc, hf⟩ := SimpleVector.PushBack_move_effect h h' v v' item hres
    refine ⟨fun hinv => ?_, hf⟩
    rw [hs, hc]; split <;> omega
  | insert pos value =>
    simp only [Mutation.apply, Option.map_eq_some'] at hres
    obtain ⟨⟨h2, v2, p⟩, hrun, heq⟩ := hres
    simp only [Prod.mk.injEq] at heq
    obtain ⟨rfl, rfl⟩ := heq
    obtain ⟨hs, hc, hf⟩ := SimpleVector.Insert_effect h _ v _ pos p value hrun
    refine ⟨fun hinv => ?_, hf⟩
    rw [hs, hc]; split <;> omega
  | insertMove pos value =>
    simp only [Mutation.apply, Option.map_eq_some'] at hres
    obtain ⟨⟨h2, v2, p⟩, hrun, heq⟩ := hres
    simp only [Prod.mk.injEq] at heq
    obtain ⟨rfl, rfl⟩ := heq
    obtain ⟨hs, hc, hf⟩ := SimpleVector.Insert_move_effect h _ v _ pos p value hrun
    refine ⟨fun hinv => ?_, hf⟩
    rw [hs, hc]; split <;> omega
  | popBack =>
    simp only [Mutation.apply, Option.map_eq_some'] at hres
    obtain ⟨v2, hrun, heq⟩ := hres
    simp only [Prod.mk.injEq] at heq
    obtain ⟨rfl, rfl⟩ := heq
    unfold SimpleVector.PopBack at hrun
    split at hrun
    · simp only [Option.some.injEq] at hrun
      rw [← hrun]
      exact ⟨fun hinv => by simp only []; omega, fun _ _ _ => rfl, Or.inl rfl⟩
    · exact absurd hrun (by simp)
  | erase pos =>
    simp only [Mutation.apply, Option.map_eq_some'] at hres
    obtain ⟨⟨h2, v2, p⟩, hrun, heq⟩ := hres
    simp only [Prod.mk.injEq] at heq
    obtain ⟨rfl, rfl⟩ := heq
    obtain ⟨_, hs, hc, hf⟩ := SimpleVector.Erase_effect h _ v _ pos p hrun
    refine ⟨fun hinv => ?_, hf⟩
    rw [hs, hc]; omega
  | reserve n =>
    obtain ⟨hs, hc, hf⟩ := SimpleVector.Reserve_effect h h' v v' n hres
    refine ⟨fun hinv => ?_, hf⟩
    rw [hs, hc]; split <;> omega
  | resize n =>
    obtain ⟨hs, hc, hf⟩ := SimpleVector.Resize_effect h h' v v' n hres
    refine ⟨fun hinv => ?_, hf⟩
    rw [hs, hc]
    by_cases h1 : n < v.size_
    · have c1 : ¬ (¬ n < v.size_ ∧ n = v.capacity_) := fun c => c.1 h1
      have c2 : ¬ (¬ n < v.size_ ∧ n > v.capacity_) := fun c => c.1 h1
      rw [if_neg c1, if_neg c2]; omega
    · by_cases h2 : n > v.capacity_
      · have c1 : ¬ (¬ n < v.size_ ∧ n = v.capacity_) := fun c => by omega
        rw [if_neg c1, if_pos (And.intro h1 h2)]; omega
      · have c2 : ¬ (¬ n < v.size_ ∧ n > v.capacity_) := fun c => h2 c.2
        rw [if_neg c2]
        split <;> omega
  | clear =>
    simp only [Mutation.apply, Option.some.injEq, Prod.mk.injEq] at hres
    rw [← hres.1, ← hres.2]
    exact ⟨fun _ => Nat.zero_le _, fun _ _ _ => rfl, Or.inl rfl⟩
  | assign index value =>
    obtain ⟨hv, hf⟩ := SimpleVector.assign_effect h h' v v' index value hres
    refine ⟨fun hinv => by rw [hv]; exact hinv, hf⟩

/-- A sequence of mutating calls on `v` leaves any live array that is not the buffer
of `v` as it was. -/
theorem Mutation.applyAll_keeps_block [Element T] (ms : List (Mutation T)) :
    ∀ (h h' : Heap T) (v v' : SimpleVector) (a : Nat),
      Mutation.applyAll ms h v = some (h', v') → h.block a ≠ none →
      v.items_.raw_ptr_.blk ≠ a → h'.block a = h.block a := by
  induction ms with
  | nil =>
    intro h h' v v' a hres _ _
    simp only [Mutation.applyAll, Option.some.injEq, Prod.mk.injEq] at hres
    rw [hres.1]
  | cons m ms ih =>
    intro h h' v v' a hres hlive hne
    unfold Mutation.applyAll at hres
    split at hres
    · exact absurd hres (by simp)
    · rename_i h1 v1 hstep
      obtain ⟨_, hfr, hbuf⟩ := Mutation.apply_effect m h h1 v v1 hstep
      have e1 : h1.block a = h.block a := hfr a (Ne.symm hne) hlive
      have hne1 : v1.items_.raw_ptr_.blk ≠ a := by
        rcases hbuf with hb | hb
        · rw [hb]; exact hne
        · intro e
          rw [e] at hb
          exact hlive hb
      rw [ih h1 h' v1 v' a hres (by rw [e1]; exact hlive) hne1, e1]

theorem Command.exec_keeps_inv [Element T] (c : Command T) (p p' : Program T)
    (hres : c.exec p = some p') (hinv : ∀ v ∈ p.vectors, v.size_ ≤ v.capacity_) :
    ∀ v ∈ p'.vectors, v.size_ ≤ v.capacity_ := by
  have happ : ∀ (h1 : Heap T) (w : SimpleVector), w.size_ ≤ w.capacity_ →
      ∀ v ∈ (⟨h1, p.vectors ++ [w]⟩ : Program T).vectors, v.size_ ≤ v.capacity_ := by
    intro h1 w hw v hv
    rcases List.mem_append.1 hv with hv | hv
    · exact hinv v hv
    · simp only [List.mem_singleton] at hv
      rw [hv]; exact hw
  have hset : ∀ (l : List SimpleVector) (i : Nat) (w : SimpleVector),
      (∀ v ∈ l, v.size_ ≤ v.capacity_) → w.size_ ≤ w.capacity_ →
      ∀ v ∈ l.set i w, v.size_ ≤ v.capacity_ := by
    intro l i w hl hw v hv
    rcases List.mem_or_eq_of_mem_set hv with hv | hv
    · exact hl v hv
    · rw [hv]; exact hw
  cases c with
  | construct_default =>
    simp only [Command.exec, Option.some.injEq] at hres
    rw [← hres]
    exact happ _ _ (Nat.le_refl 0)
  | construct_size size =>
    simp only [Command.exec] at hres
    split at hres
    · exact absurd hres (by simp)
    · rename_i h1 w hctor
      simp only [Option.some.injEq] at hres
      rw [← hres, SimpleVector.ctor_fill_fields _ _ _ _ _ hctor]
      exact happ _ _ (Nat.le_refl _)
  | construct_fill size value =>
    simp only [Command.exec] at hres
    split at hres
    · exact absurd hres (by simp)
    · rename_i h1 w hctor
      simp only [Option.some.injEq] at hres
      rw [← hres, SimpleVector.ctor_fill_fields _ _ _ _ _ hctor]
      exact happ _ _ (Nat.le_refl _)
  | construct_init init =>
    simp only [Command.exec] at hres
    split at hres
    · exact absurd hres (by simp)
    · rename_i h1 w hctor
      simp only [Option.some.injEq] at hres
      rw [← hres]
      have hf := SimpleVector.ctor_init_fields _ _ _ _ hctor
      exact happ _ _ (by rw [hf.1, hf.2])
  | construct_copy other =>
    simp only [Command.exec] at hres
    split at hres
    · exact absurd hres (by simp)
    · rename_i o ho
      split at hres
      · exact absurd hres (by simp)
      · rename_i h1 w hctor
        simp only [Option.some.injEq] at hres
        rw [← hres]
        have hf := SimpleVector.copy_ctor_fields _ _ _ _ hctor
        exact happ _ _ (by rw [hf.1, hf.2]; exact hinv o (List.getElem?_mem ho))
  | construct_move other =>
    simp only [Command.exec] at hres
    split at hres
    · exact absurd hres (by simp)
    · rename_i o ho
      split at hres
      · exact absurd hres (by simp)
      · rename_i h1 w o1 hctor
        simp only [Option.some.injEq] at hres
        rw [← hres]
        have hf := SimpleVector.move_ctor_fields _ _ _ _ _ hctor
        intro v hv
        rcases List.mem_append.1 hv with hv | hv
        · exact hset _ _ _ hinv (by rw [hf.2.2.1, hf.2.2.2]) v hv
        · simp only [List.mem_singleton] at hv
          rw [hv, hf.1, hf.2.1]
          exact hinv o (List.getElem?_mem ho)
  | construct_reserve proxyObj =>
    simp only [Command.exec] at hres
    split at hres
    · exact absurd hres (by simp)
    · rename_i h1 w hctor
      simp only [Option.some.injEq] at hres
      rw [← hres]
      obtain ⟨hs, hc, _⟩ := SimpleVector.Reserve_effect _ _ _ _ _ hctor
      exact happ _ _ (by rw [hs, hc]; simp [SimpleVector.empty])
  | mutate target m =>
    simp only [Command.exec] at hres
    split at hres
    · exact absurd hres (by simp)
    · rename_i w hw
      split at hres
      · exact absurd hres (by simp)
      · rename_i h1 w1 hstep
        simp only [Option.some.injEq] at hres
        rw [← hres]
        exact hset _ _ _ hinv
          ((Mutation.apply_effect m _ _ _ _ hstep).1 (hinv w (List.getElem?_mem hw)))
  | swap target other =>
    simp only [Command.exec] at hres
    split at hres
    · rename_i w o hw ho
      simp only [Option.some.injEq] at hres
      rw [← hres]
      exact hset _ _ _ (hset _ _ _ hinv (hinv o (List.getElem?_mem ho)))
        (hinv w (List.getElem?_mem hw))
    · exact absurd hres (by simp)
  | copy_assign target rhs =>
    simp only [Command.exec] at hres
    split at hres
    · rename_i w r hw hr
      split at hres
      · exact absurd hres (by simp)
      · rename_i h1 w1 hstep
        simp only [Option.some.injEq] at hres
        rw [← hres]
        refine hset _ _ _ hinv ?_
        rcases SimpleVector.copy_assign_fields _ _ _ _ _ hstep with e | ⟨e1, e2⟩
        · rw [e]; exact hinv w (List.getElem?_mem hw)
        · rw [e1, e2]; exact hinv r (List.getElem?_mem hr)
    · exact absurd hres (by simp)

theorem Program.run_keeps_inv [Element T] (cs : List (Command T)) :
    ∀ (p p' : Program T), Program.run cs p = some p' →
      (∀ v ∈ p.vectors, v.size_ ≤ v.capacity_) → ∀ v ∈ p'.vectors, v.size_ ≤ v.capacity_ := by
  induction cs with
  | nil =>
    intro p p' hres hinv
    simp only [Program.run, Option.some.injEq] at hres
    rw [← hres]; exact hinv
  | cons c cs ih =>
    intro p p' hres hinv
    unfold Program.run at hres
    split at hres
    · exact absurd hres (by simp)
    · rename_i p1 hstep
      exact ih p1 p' hres (Command.exec_keeps_inv c p p1 hstep hinv)

namespace SimpleVector

/-- Shrinking: `Resize(n)` with `n < size` only lowers `size_`. -/
theorem Resize_shrink_spec [Element T] (h : Heap T) (v : SimpleVector) (n : Nat)
    (hn : n < v.size_) :
    Resize h v n = some (h, { v with size_ := n }) ∧
      toList h { v with size_ := n } = (toList h v).take n := by
  refine ⟨by simp [Resize, hn], ?_⟩
  simp only [toList, List.take_take]
  rw [Nat.min_eq_left (Nat.le_of_lt hn)]

/-- Growing: `Resize(n)` with `size <= n` and `n` other than the capacity appends
`n - size` value-initialised elements. -/
theorem Resize_grow_spec [Element T] (h : Heap T) (v : SimpleVector) (n : Nat)
    (hwf : WF h v) (hn : v.size_ ≤ n) (hne : n ≠ v.capacity_) :
    ∃ h' v', Resize h v n = some (h', v') ∧ WF h' v' ∧ v'.size_ = n ∧
      v'.capacity_ = (if n > v.capacity_ then max n (v.capacity_ * 2) else v.capacity_) ∧
      toList h' v' = toList h v ++ List.replicate (n - v.size_) (Element.dflt : T) := by
  have hlenL := toList_length h v hwf
  have hoff := hwf.2.1
  have hsz := hwf.1
  have h1 : ¬ n < v.size_ := by omega
  by_cases h2 : n > v.capacity_
  · have hblk := WF.blk_le h v hwf
    have hneb : v.items_.raw_ptr_.blk ≠ h.cells.length + 1 := by omega
    have hM : max n (v.capacity_ * 2) ≠ 0 := by omega
    have hlen1 := Heap.new_array_len (T := T) h (max n (v.capacity_ * 2))
    have hload1 := Heap.new_array_load (T := T) h (max n (v.capacity_ * 2))
    have hl1 : (h.new_array (max n (v.capacity_ * 2))).1.len v.items_.raw_ptr_.blk =
        h.len v.items_.raw_ptr_.blk := by
      rw [hlen1, if_neg hneb]
    have hn1 : (h.new_array (max n (v.capacity_ * 2))).1.len (h.cells.length + 1) =
        some (max n (v.capacity_ * 2)) := by
      rw [hlen1, if_pos rfl]
    obtain ⟨h3, hmv, hlen3, hload3⟩ := move_loop_spec v.size_
      (h.new_array (max n (v.capacity_ * 2))).1 v.begin ⟨h.cells.length + 1, 0⟩
      (fun k hk => WF.inb_after h _ v hwf hl1 k (by omega))
      (fun k hk => ⟨_, hn1, by show 0 + k < _; omega⟩) (Or.inl hneb)
    obtain ⟨h4, hdel⟩ := WF.delete_ok h h3 v hwf (by rw [hlen3, hl1])
    have hlen4 := Heap.delete_array_len h3 h4 _ hdel
    have hload4 := Heap.delete_array_load h3 h4 _ hdel
    have hcap : (if v.capacity_ * 2 > n then v.capacity_ * 2 else n) =
        max n (v.capacity_ * 2) := by
      by_cases h5 : v.capacity_ * 2 > n
      · rw [if_pos h5]; omega
      · rw [if_neg h5]; omega
    refine ⟨h4, ⟨⟨⟨h.cells.length + 1, 0⟩⟩, n, max n (v.capacity_ * 2)⟩, ?_, ?_, rfl,
      by rw [if_pos h2], ?_⟩
    · have e0 : ArrayPtr.index ⟨if max n (v.capacity_ * 2) = 0 then nullptr
          else ⟨h.cells.length + 1, 0⟩⟩ 0 = ⟨h.cells.length + 1, 0⟩ := by
        simp [hM, ArrayPtr.index, Ptr.add]
      have em : std_move (h.new_array (max n (v.capacity_ * 2))).1 v.begin v.end_
          ⟨h.cells.length + 1, 0⟩ = some h3 := by
        rw [← hmv]
        exact std_move_range _ v.begin _ v.size_
      simp only [Resize, h1, h2, if_true, if_false, ArrayPtr.create_eq, e0, em,
        ArrayPtr.swap, ArrayPtr.destroy, hdel, hcap]
      simp [hM]
    · refine ⟨by simp only []; omega, rfl, ?_⟩
      simp only [hM, if_false]
      show h4.len (h.cells.length + 1) = _
      rw [hlen4, if_neg (Ne.symm hneb), hlen3, hn1]
    · apply toList_eq_of_load
      · simp [hlenL]; omega
      · intro k hk
        simp only [] at hk
        rw [List.getElem?_append]
        simp only [hload4, hload3, hload1, begin, ArrayPtr.Get, hlenL,
          Nat.zero_add, hoff, true_and, if_neg (Ne.symm hneb), if_neg hneb, false_and, if_false,
          Nat.zero_le, Nat.sub_zero]
        by_cases hks : k < v.size_
        · simp only [hks, if_true]
          have := load_of_toList h v k hks
          rwa [hoff, Nat.zero_add] at this
        · have c1 : k < max n (v.capacity_ * 2) := by omega
          have c2 : k - v.size_ < n - v.size_ := by omega
          simp [hks, c1, c2, List.getElem?_replicate]
  · have h3 : n < v.capacity_ := by omega
    have hc : v.capacity_ ≠ 0 := by omega
    obtain ⟨h4, hfill, hlen4, hload4⟩ := fill_loop_spec (n - v.size_) h v.end_
      (Element.dflt : T) (fun k hk => by
        have := WF.inb_off h v hwf (v.size_ + k) (by omega)
        simpa [end_, ArrayPtr.Get, Ptr.add, Nat.add_assoc] using this)
    refine ⟨h4, { v with size_ := n }, ?_, ?_, rfl, by rw [if_neg h2], ?_⟩
    · simp only [Resize, h1, h2, h3, if_true, if_false, hfill]
    · refine ⟨by simp only []; omega, hoff, ?_⟩
      simp only [hc, if_false]
      exact (hlen4 _).trans (WF.len h v hwf hc)
    · apply toList_eq_of_load
      · simp [hlenL]; omega
      · intro k hk
        simp only [] at hk
        rw [List.getElem?_append, hload4]
        simp only [end_, ArrayPtr.Get, Ptr.add, hlenL, Nat.zero_add, hoff, true_and]
        by_cases hks : k < v.size_
        · have c : ¬ (v.size_ ≤ k ∧ k < v.size_ + (n - v.size_)) := by omega
          simp only [hks, c, if_true, if_false]
          have := load_of_toList h v k hks
          rwa [hoff, Nat.zero_add] at this
        · have c : (v.size_ ≤ k ∧ k < v.size_ + (n - v.size_)) := by omega
          have c2 : k - v.size_ < n - v.size_ := by omega
          simp [hks, c, c2, List.getElem?_replicate]

/-! ## Resize -/

/-- A call `Resize(new_size)` with `size_ <= new_size` and `new_size == capacity_` takes none of
the three branches: the heap and the vector come back as they were. -/
theorem Resize_at_capacity [Element T] (h : Heap T) (v : SimpleVector) (hsz : v.size_ ≤ v.capacity_) :
    Resize h v v.capacity_ = some (h, v) := by
  have c1 : ¬ v.capacity_ < v.size_ := by omega
  simp [Resize, c1]

/-- Claim C1, evaluated on the code at its own example: the vector `{1, 2, 3}` is
resized to 1 and then to 3.  The second call meets `new_size == capacity_`, runs no
branch, and the vector keeps size 1 and the sequence `[1]` (the claim says size 3
and `[1, 0, 0]`). -/
theorem resize_one_then_three_keeps_size_one :
    ctor_init (Heap.init : Heap Int) [1, 2, 3] =
        some (⟨[some [1, 2, 3]]⟩, ⟨⟨⟨1, 0⟩⟩, 3, 3⟩) ∧
      Resize (⟨[some [1, 2, 3]]⟩ : Heap Int) ⟨⟨⟨1, 0⟩⟩, 3, 3⟩ 1 =
        some (⟨[some [1, 2, 3]]⟩, ⟨⟨⟨1, 0⟩⟩, 1, 3⟩) ∧
      Resize (⟨[some [1, 2, 3]]⟩ : Heap Int) ⟨⟨⟨1, 0⟩⟩, 1, 3⟩ 3 =
        some (⟨[some [1, 2, 3]]⟩, ⟨⟨⟨1, 0⟩⟩, 1, 3⟩) ∧
      GetSize ⟨⟨⟨1, 0⟩⟩, 1, 3⟩ = 1 ∧
      toList (⟨[some [1, 2, 3]]⟩ : Heap Int) ⟨⟨⟨1, 0⟩⟩, 1, 3⟩ = [1] := by
  decide

/-! ## Insert -/

/-- The part of the insertion contract that the copy overload of `Insert` keeps.
On a vector that owns its storage, for an argument that reads `x` and is not one of
the slots the call shifts into, `Insert(begin() + i, x)` with `i <= size` succeeds,
the sequence becomes `s[0..i) ++ [x] ++ s[i..size)`, the size grows by one, and the
returned iterator is `begin() + i` of the resulting vector and points at `x`.  Both
branches (`size_ < capacity_` and the reallocating one, which includes the empty
vector with a null buffer) are covered. -/
theorem insert_copy_splices_value [Element T] (h : Heap T) (v : SimpleVector) (i : Nat)
    (value : ConstRef T) (x : T)
    (hwf : WF h v) (hi : i ≤ v.GetSize) (hread : h.read value = some x)
    (hout : ∀ p, value = ConstRef.slot p → v.size_ < v.capacity_ →
      p.blk = v.items_.raw_ptr_.blk → p.off ≤ i ∨ v.size_ < p.off) :
    ∃ h' v', Insert h v (v.begin.add i) value = some (h', v', v'.begin.add i) ∧
      toList h' v' = (toList h v).take i ++ [x] ++ (toList h v).drop i ∧
      v'.GetSize = v.GetSize + 1 ∧
      h'.load (v'.begin.add i) = some x := by
  obtain ⟨h', v', hrun, hwf', hsize, _, hlist⟩ := Insert_spec h v i value x hwf hi hread hout
  refine ⟨h', v', hrun, hlist, hsize, ?_⟩
  have hl := toList_length h v hwf
  have := load_of_toList h' v' i (by rw [hsize]; exact Nat.lt_succ_of_le hi)
  rw [hlist, getElem?_insert_list _ _ _ (by rw [hl]; exact hi)] at this
  simpa [begin, ArrayPtr.Get, Ptr.add] using this

/-- The scenario `Insert(begin(), 0)` on `{1, 2, 3}`, as an instance of
`insert_copy_splices_value`. -/
theorem insert_copy_splices_value_witness :
    WF (⟨[some [1, 2, 3]]⟩ : Heap Int) ⟨⟨⟨1, 0⟩⟩, 3, 3⟩ ∧
      toList (⟨[some [1, 2, 3]]⟩ : Heap Int) ⟨⟨⟨1, 0⟩⟩, 3, 3⟩ = [1, 2, 3] ∧
      ∃ h' v', Insert (⟨[some [1, 2, 3]]⟩ : Heap Int) ⟨⟨⟨1, 0⟩⟩, 3, 3⟩
          ((begin ⟨⟨⟨1, 0⟩⟩, 3, 3⟩).add 0) (ConstRef.object 0) =
            some (h', v', v'.begin.add 0) ∧
        toList h' v' =
          (toList (⟨[some [1, 2, 3]]⟩ : Heap Int) ⟨⟨⟨1, 0⟩⟩, 3, 3⟩).take 0 ++ [0] ++
            (toList (⟨[some [1, 2, 3]]⟩ : Heap Int) ⟨⟨⟨1, 0⟩⟩, 3, 3⟩).drop 0 ∧
        v'.GetSize = GetSize ⟨⟨⟨1, 0⟩⟩, 3, 3⟩ + 1 ∧
        h'.load (v'.begin.add 0) = some 0 :=
  ⟨by decide, by decide,
    insert_copy_splices_value (⟨[some [1, 2, 3]]⟩ : Heap Int) ⟨⟨⟨1, 0⟩⟩, 3, 3⟩ 0
      (ConstRef.object 0) 0 (by decide) (by decide) rfl (fun _ hp => ConstRef.noConfusion hp)⟩

/-! ## Erase -/

/-- The part of the append contract that `PushBack` keeps: on a vector that owns its
storage, `PushBack(x)` succeeds in the copy overload and in the move overload, with
or without reallocation; the sequence becomes `s ++ [x]` and the size grows by one. -/
theorem push_back_appends [Element T] (h : Heap T) (v : SimpleVector) (x : T) (hwf : WF h v) :
    (∃ h' v', PushBack h v x = some (h', v') ∧ toList h' v' = toList h v ++ [x] ∧
      v'.GetSize = v.GetSize + 1) ∧
    (∃ h' v', PushBack_move h v x = some (h', v') ∧ toList h' v' = toList h v ++ [x] ∧
      v'.GetSize = v.GetSize + 1) := by
  obtain ⟨h1, v1, hrun1, _, hsize1, _, hlist1⟩ := PushBack_spec h v x hwf
  obtain ⟨h2, v2, hrun2, _, hsize2, _, hlist2⟩ := PushBack_move_spec h v x hwf
  exact ⟨⟨h1, v1, hrun1, hlist1, hsize1⟩, ⟨h2, v2, hrun2, hlist2, hsize2⟩⟩

/-- An instance of `push_back_appends`: `PushBack(3)` on a vector `{1, 2}` that is
full. -/
theorem push_back_appends_witness :
    WF (⟨[some [1, 2]]⟩ : Heap Int) ⟨⟨⟨1, 0⟩⟩, 2, 2⟩ ∧
      toList (⟨[some [1, 2]]⟩ : Heap Int) ⟨⟨⟨1, 0⟩⟩, 2, 2⟩ = [1, 2] ∧
      (∃ h' v', PushBack (⟨[some [1, 2]]⟩ : Heap Int) ⟨⟨⟨1, 0⟩⟩, 2, 2⟩ 3 = some (h', v') ∧
        toList h' v' = toList (⟨[some [1, 2]]⟩ : Heap Int) ⟨⟨⟨1, 0⟩⟩, 2, 2⟩ ++ [3] ∧
        v'.GetSize = GetSize ⟨⟨⟨1, 0⟩⟩, 2, 2⟩ + 1) ∧
      (∃ h' v', PushBack_move (⟨[some [1, 2]]⟩ : Heap Int) ⟨⟨⟨1, 0⟩⟩, 2, 2⟩ 3 = some (h', v') ∧
        toList h' v' = toList (⟨[some [1, 2]]⟩ : Heap Int) ⟨⟨⟨1, 0⟩⟩, 2, 2⟩ ++ [3] ∧
        v'.GetSize = GetSize ⟨⟨⟨1, 0⟩⟩, 2, 2⟩ + 1) :=
  ⟨by decide, by decide,
    push_back_appends (⟨[some [1, 2]]⟩ : Heap Int) ⟨⟨⟨1, 0⟩⟩, 2, 2⟩ 3 (by decide)⟩

/-- The scenario of three `PushBack` calls on the empty vector. -/
theorem push_back_one_two_three :
    PushBack (Heap.init : Heap Int) empty 1 = some (⟨[some [1]]⟩, ⟨⟨⟨1, 0⟩⟩, 1, 1⟩) ∧
      PushBack (⟨[some [1]]⟩ : Heap Int) ⟨⟨⟨1, 0⟩⟩, 1, 1⟩ 2 =
        some (⟨[none, some [1, 2]]⟩, ⟨⟨⟨2, 0⟩⟩, 2, 2⟩) ∧
      PushBack (⟨[none, some [1, 2]]⟩ : Heap Int) ⟨⟨⟨2, 0⟩⟩, 2, 2⟩ 3 =
        some (⟨[none, none, some [1, 2, 3, 0]]⟩, ⟨⟨⟨3, 0⟩⟩, 3, 4⟩) ∧
      GetSize ⟨⟨⟨3, 0⟩⟩, 3, 4⟩ = 3 ∧
      toList (⟨[none, none, some [1, 2, 3, 0]]⟩ : Heap Int) ⟨⟨⟨3, 0⟩⟩, 3, 4⟩ = [1, 2, 3] := by
  decide

/-! ## At -/

/-- The claim's scenario for C5: on a vector of size 3, `At(5)` throws and `At(2)`
refers to the third element. -/
theorem at_five_throws_at_two_reads_third :
    (At (⟨[some [1, 2, 3]]⟩ : Heap Int) ⟨⟨⟨1, 0⟩⟩, 3, 3⟩ 5).2 =
        Except.error Exception.out_of_range ∧
      (At (⟨[some [1, 2, 3]]⟩ : Heap Int) ⟨⟨⟨1, 0⟩⟩, 3, 3⟩ 2).2 = Except.ok ⟨1, 2⟩ ∧
      (⟨[some [1, 2, 3]]⟩ : Heap Int).load ⟨1, 2⟩ = some 3 :=
  ⟨rfl, rfl, by decide⟩

/-! ## Reserve -/

/-- For `n < capacity` the early return of `Reserve` leaves the heap and the vector
as they were. -/
theorem reserve_below_capacity_is_noop [Element T] (h : Heap T) (v : SimpleVector) (n : Nat)
    (hn : n < v.GetCapacity) : Reserve h v n = some (h, v) :=
  Reserve_noop h v n hn

/-- A call `Reserve(capacity)` on a vector that owns a non-empty buffer passes the guard
`new_capacity < capacity_` and moves the vector to a newly allocated buffer. -/
theorem reserve_at_capacity_reallocates [Element T] (h : Heap T) (v : SimpleVector)
    (hwf : WF h v) (hc : v.capacity_ ≠ 0) :
    ∃ h' v', Reserve h v v.capacity_ = some (h', v') ∧ v'.items_ ≠ v.items_ ∧
      h'.block v.items_.raw_ptr_.blk = none := by
  obtain ⟨h', hrun, _, _⟩ := Reserve_spec h v v.capacity_ hwf (Nat.lt_irrefl _)
  refine ⟨h', _, hrun, ?_, ?_⟩
  · have hblk := WF.blk_le h v hwf
    simp only [hc, if_false]
    intro e
    have : (⟨h.cells.length + 1, 0⟩ : Ptr).blk = v.items_.raw_ptr_.blk := by rw [← e]
    simp only [] at this
    omega
  · have hne := WF.blk_ne_zero h v hwf hc
    simp only [Reserve, Nat.lt_irrefl, if_false] at hrun
    obtain ⟨h1, hctor, hlen1, hload1⟩ := ctor_fill_spec h v.capacity_ (Element.dflt : T)
    simp only [ctor_size, hctor] at hrun
    cases hcp : std_copy h1 v.begin v.end_
        (begin ⟨⟨if v.capacity_ = 0 then nullptr else ⟨h.cells.length + 1, 0⟩⟩,
          v.capacity_, v.capacity_⟩) with
    | none => simp [hcp] at hrun
    | some h2 =>
      simp only [hcp, swap, ArrayPtr.swap, destroy, ArrayPtr.destroy] at hrun
      cases hdl : h2.delete_array v.items_.raw_ptr_ with
      | none => simp [hdl] at hrun
      | some h3 =>
        simp only [hdl, Option.some.injEq, Prod.mk.injEq] at hrun
        rw [← hrun.1, Heap.delete_array_block h2 h3 _ hdl, if_pos rfl]

/-- Claim C6, evaluated on the code at `n == GetCapacity()`: a vector over the buffer
`[1, 2, 3]` with size 1 and capacity 3 calls `Reserve(3)`.  The guard is
`new_capacity < capacity_`, so the call allocates block 2, copies the one logical
element, deletes block 1 and leaves the vector on the new buffer, whose slots past
the size hold `0` and no longer `2, 3` (the claim says nothing is reallocated and
no slot changes). -/
theorem reserve_equal_capacity_moves_buffer :
    WF (⟨[some [1, 2, 3]]⟩ : Heap Int) ⟨⟨⟨1, 0⟩⟩, 1, 3⟩ ∧
      Reserve (⟨[some [1, 2, 3]]⟩ : Heap Int) ⟨⟨⟨1, 0⟩⟩, 1, 3⟩ 3 =
        some (⟨[none, some [1, 0, 0]]⟩, ⟨⟨⟨2, 0⟩⟩, 1, 3⟩) ∧
      slots (⟨[some [1, 2, 3]]⟩ : Heap Int) ⟨⟨⟨1, 0⟩⟩, 1, 3⟩ = some [1, 2, 3] ∧
      slots (⟨[none, some [1, 0, 0]]⟩ : Heap Int) ⟨⟨⟨2, 0⟩⟩, 1, 3⟩ = some [1, 0, 0] ∧
      Reserve (⟨[some [1, 2, 3]]⟩ : Heap Int) ⟨⟨⟨1, 0⟩⟩, 1, 3⟩ 2 =
        some (⟨[some [1, 2, 3]]⟩, ⟨⟨⟨1, 0⟩⟩, 1, 3⟩) := by
  decide

theorem toList_eq_of_block (h h2 : Heap T) (v : SimpleVector)
    (hb : h2.block v.items_.raw_ptr_.blk = h.block v.items_.raw_ptr_.blk) :
    toList h2 v = toList h v := by
  simp only [toList, hb]

/-- The part of the deep-copy contract that the copy constructor keeps.  Applied to a
vector `a` that owns its storage it succeeds and yields a vector `b` with the size of
`a`, the logical elements of `a` in order and the `GetCapacity()` of `a`; the copy
leaves every slot of `a` as it was, and so does every later sequence of mutating calls
on `b` that stays within defined behaviour.  When `a` has spare capacity, a call on
`b` that uses that capacity does not stay within defined behaviour
(`PushBack_on_copy_with_room`). -/
theorem copy_ctor_is_deep_copy [Element T] (h : Heap T) (a : SimpleVector) (hwf : WF h a) :
    ∃ h1 b, copy_ctor h a = some (h1, b) ∧
      b.GetSize = a.GetSize ∧ toList h1 b = toList h a ∧ b.GetCapacity = a.GetCapacity ∧
      slots h1 a = slots h a ∧ toList h1 a = toList h a ∧
      ∀ (ms : List (Mutation T)) (h2 : Heap T) (b2 : SimpleVector),
        Mutation.applyAll ms h1 b = some (h2, b2) →
          slots h2 a = slots h a ∧ toList h2 a = toList h a := by
  obtain ⟨h1, hrun, _, hframe, hlist⟩ := copy_ctor_spec h a hwf
  by_cases hc : a.capacity_ = 0
  · have hblk : a.items_.raw_ptr_.blk = 0 := by
      have := hwf.2.2
      rwa [if_pos hc] at this
    have hz : ∀ hx : Heap T, hx.block a.items_.raw_ptr_.blk = h.block a.items_.raw_ptr_.blk := by
      intro hx
      rw [hblk]; rfl
    refine ⟨h1, _, hrun, rfl, hlist, rfl, hz h1, toList_eq_of_block h h1 a (hz h1), ?_⟩
    intro ms h2 b2 _
    exact ⟨hz h2, toList_eq_of_block h h2 a (hz h2)⟩
  · have hlen := WF.len h a hwf hc
    have hlive : h.block a.items_.raw_ptr_.blk ≠ none := by
      intro e
      simp [Heap.len, e] at hlen
    have e1 : h1.block a.items_.raw_ptr_.blk = h.block a.items_.raw_ptr_.blk :=
      hframe _ hlive
    refine ⟨h1, _, hrun, rfl, hlist, rfl, e1, toList_eq_of_block h h1 a e1, ?_⟩
    intro ms h2 b2 hms
    have hne : (if a.size_ = 0 then nullptr else (⟨h.cells.length + 1, 0⟩ : Ptr)).blk ≠
        a.items_.raw_ptr_.blk := Ne.symm (fresh_ptr_blk_ne h a.size_ _ hlive)
    have e2 : h2.block a.items_.raw_ptr_.blk = h1.block a.items_.raw_ptr_.blk :=
      Mutation.applyAll_keeps_block ms h1 h2 _ b2 _ hms (by rw [e1]; exact hlive) hne
    exact ⟨e2.trans e1, toList_eq_of_block h h2 a (e2.trans e1)⟩

/-- An instance of `copy_ctor_is_deep_copy`: copying `{1, 2, 3}`. -/
theorem copy_ctor_is_deep_copy_witness :
    WF (⟨[some [1, 2, 3]]⟩ : Heap Int) ⟨⟨⟨1, 0⟩⟩, 3, 3⟩ ∧
      ∃ h1 b, copy_ctor (⟨[some [1, 2, 3]]⟩ : Heap Int) ⟨⟨⟨1, 0⟩⟩, 3, 3⟩ = some (h1, b) ∧
        b.GetSize = GetSize ⟨⟨⟨1, 0⟩⟩, 3, 3⟩ ∧
        toList h1 b = toList (⟨[some [1, 2, 3]]⟩ : Heap Int) ⟨⟨⟨1, 0⟩⟩, 3, 3⟩ ∧
        b.GetCapacity = GetCapacity ⟨⟨⟨1, 0⟩⟩, 3, 3⟩ ∧
        slots h1 ⟨⟨⟨1, 0⟩⟩, 3, 3⟩ = slots (⟨[some [1, 2, 3]]⟩ : Heap Int) ⟨⟨⟨1, 0⟩⟩, 3, 3⟩ ∧
        toList h1 ⟨⟨⟨1, 0⟩⟩, 3, 3⟩ =
          toList (⟨[some [1, 2, 3]]⟩ : Heap Int) ⟨⟨⟨1, 0⟩⟩, 3, 3⟩ ∧
        ∀ (ms : List (Mutation Int)) (h2 : Heap Int) (b2 : SimpleVector),
          Mutation.applyAll ms h1 b = some (h2, b2) →
            slots h2 ⟨⟨⟨1, 0⟩⟩, 3, 3⟩ =
                slots (⟨[some [1, 2, 3]]⟩ : Heap Int) ⟨⟨⟨1, 0⟩⟩, 3, 3⟩ ∧
              toList h2 ⟨⟨⟨1, 0⟩⟩, 3, 3⟩ =
                toList (⟨[some [1, 2, 3]]⟩ : Heap Int) ⟨⟨⟨1, 0⟩⟩, 3, 3⟩ :=
  ⟨by decide,
    copy_ctor_is_deep_copy (⟨[some [1, 2, 3]]⟩ : Heap Int) ⟨⟨⟨1, 0⟩⟩, 3, 3⟩ (by decide)⟩

/-- An instance of the deep-copy property: `{1, 2, 3}` is copied, the copy gets
`b[0] = 9`, `PushBack(4)` and `Erase(begin() + 1)`, and the original still reads
`[1, 2, 3]`. -/
theorem copy_then_mutate_example :
    copy_ctor (⟨[some [1, 2, 3]]⟩ : Heap Int) ⟨⟨⟨1, 0⟩⟩, 3, 3⟩ =
        some (⟨[some [1, 2, 3], some [1, 2, 3]]⟩, ⟨⟨⟨2, 0⟩⟩, 3, 3⟩) ∧
      Mutation.applyAll [Mutation.assign 0 9, Mutation.pushBack 4, Mutation.erase ⟨3, 1⟩]
          (⟨[some [1, 2, 3], some [1, 2, 3]]⟩ : Heap Int) ⟨⟨⟨2, 0⟩⟩, 3, 3⟩ =
        some (⟨[some [1, 2, 3], none, some [9, 3, 4, 4, 0, 0]]⟩, ⟨⟨⟨3, 0⟩⟩, 3, 6⟩) ∧
      toList (⟨[some [1, 2, 3], none, some [9, 3, 4, 4, 0, 0]]⟩ : Heap Int)
          ⟨⟨⟨3, 0⟩⟩, 3, 6⟩ = [9, 3, 4] ∧
      toList (⟨[some [1, 2, 3], none, some [9, 3, 4, 4, 0, 0]]⟩ : Heap Int)
          ⟨⟨⟨1, 0⟩⟩, 3, 3⟩ = [1, 2, 3] := by
  decide

/-- The copy constructor allocates `other.size_` slots and records `other.capacity_`:
from a source with `size < capacity` the copy does not own `capacity_` slots. -/
theorem copy_ctor_allocates_size_only [Element T] (h : Heap T) (a : SimpleVector)
    (hwf : WF h a) (hlt : a.size_ < a.capacity_) :
    ∃ h1 b, copy_ctor h a = some (h1, b) ∧ b.capacity_ = a.capacity_ ∧
      h1.len (h.cells.length + 1) = some a.size_ ∧ ¬ WF h1 b := by
  obtain ⟨h1, hrun, hlen, _, _⟩ := copy_ctor_spec h a hwf
  refine ⟨h1, _, hrun, rfl, hlen, ?_⟩
  intro hwfb
  have hc : a.capacity_ ≠ 0 := by omega
  have h3 := hwfb.2.2
  simp only [hc, if_false] at h3
  by_cases hs : a.size_ = 0
  · simp only [hs, if_true] at h3
    simp [nullptr, Heap.block] at h3
  · simp only [hs, if_false] at h3
    have : h1.len (h.cells.length + 1) = some a.capacity_ := h3
    rw [hlen] at this
    simp only [Option.some.injEq] at this
    omega

/-- Claim C9, evaluated on the code: `{1}` is built, `Reserve(2)` gives it capacity 2,
and it is copy-constructed.  The copy reports `GetCapacity() = 2` while its buffer is
an array of one slot, so position 1 is not an allocated slot and `PushBack` on the
copy stores outside the array (the claim says the reported capacity is the number
of allocated slots). -/
theorem copy_of_reserved_vector_reports_unallocated_capacity :
    Program.run [Command.construct_init [1], Command.mutate 0 (Mutation.reserve 2),
        Command.construct_copy 0] (Program.init : Program Int) =
      some ⟨⟨[none, some [1, 0], some [1]]⟩, [⟨⟨⟨2, 0⟩⟩, 1, 2⟩, ⟨⟨⟨3, 0⟩⟩, 1, 2⟩]⟩ ∧
    WF (⟨[none, some [1, 0]]⟩ : Heap Int) ⟨⟨⟨2, 0⟩⟩, 1, 2⟩ ∧
    copy_ctor (⟨[none, some [1, 0]]⟩ : Heap Int) ⟨⟨⟨2, 0⟩⟩, 1, 2⟩ =
      some (⟨[none, some [1, 0], some [1]]⟩, ⟨⟨⟨3, 0⟩⟩, 1, 2⟩) ∧
    GetCapacity ⟨⟨⟨3, 0⟩⟩, 1, 2⟩ = 2 ∧
    slots (⟨[none, some [1, 0], some [1]]⟩ : Heap Int) ⟨⟨⟨3, 0⟩⟩, 1, 2⟩ = some [1] ∧
    ¬ WF (⟨[none, some [1, 0], some [1]]⟩ : Heap Int) ⟨⟨⟨3, 0⟩⟩, 1, 2⟩ ∧
    PushBack (⟨[none, some [1, 0], some [1]]⟩ : Heap Int) ⟨⟨⟨3, 0⟩⟩, 1, 2⟩ 5 = none := by
  decide

end SimpleVector

/-! ## The size/capacity invariant -/

/-- Claim C10: in every state a client program reaches from the initial one, through
any of the constructors and any sequence of `PushBack`, `Insert`, `PopBack`, `Erase`,
`Reserve`, `Resize`, `Clear`, element assignment, `swap` and copy assignment calls made
within their preconditions, every vector has `0 <= size <= capacity`. -/
theorem size_le_capacity_in_reachable_states [Element T] (p : Program T)
    (hreach : p.Reachable) :
    ∀ v ∈ p.vectors, 0 ≤ v.GetSize ∧ v.GetSize ≤ v.GetCapacity := by
  obtain ⟨cs, hrun⟩ := hreach
  intro v hv
  refine ⟨Nat.zero_le _, ?_⟩
  exact Program.run_keeps_inv cs Program.init p hrun
    (fun w hw => by simp [Program.init] at hw) v hv

/-- Witness for C10: the state reached by `Program.demo_commands`, which uses every
constructor, `swap`, copy assignment and several mutating calls. -/
theorem size_le_capacity_in_reachable_states_witness :
    Program.Reachable Program.demo_state ∧
      ∀ v ∈ Program.demo_state.vectors, 0 ≤ v.GetSize ∧ v.GetSize ≤ v.GetCapacity :=
  ⟨⟨Program.demo_commands, by decide⟩,
    size_le_capacity_in_reachable_states Program.demo_state
      ⟨Program.demo_commands, by decide⟩⟩


/-! ## Moves -/

namespace SimpleVector

/-- Moving from a vector whose buffer is not null: the new vector takes the buffer and
the fields, the source is left as a default-constructed vector, the heap is untouched. -/
theorem move_ctor_of_nonnull (h : Heap T) (a : SimpleVector)
    (hn : a.items_.raw_ptr_ ≠ nullptr) :
    move_ctor h a = some (h, ⟨a.items_, a.size_, a.capacity_⟩, empty) := by
  have hn2 : ¬ nullptr = a.items_.raw_ptr_ := fun e => hn e.symm
  simp [move_ctor, std_swap_ArrayPtr, ArrayPtr.move_ctor, ArrayPtr.move_assign, empty,
    ArrayPtr.empty, ArrayPtr.destroy, Heap.delete_array, hn, hn2]

/-- Moving from a vector whose buffer is null: `std::swap(items_, other.items_)` runs
`items_ = std::move(other.items_)` with both handles null, and the `assert` of the
move assignment fails. -/
theorem move_ctor_of_null (h : Heap T) (a : SimpleVector)
    (hn : a.items_.raw_ptr_ = nullptr) : move_ctor h a = none := by
  simp [move_ctor, std_swap_ArrayPtr, ArrayPtr.move_ctor, ArrayPtr.move_assign, empty,
    ArrayPtr.empty, hn]

/-- Claim C11, evaluated on the code at an empty source: move-constructing from a
default-constructed vector reaches `ArrayPtr::operator=(ArrayPtr&&)` with both
handles null, and its `assert(this->raw_ptr_ != other.raw_ptr_)` fails, so the call
does not return (the claim says the source is left empty and the new vector holds
its contents).  From a populated source the move is as claimed. -/
theorem move_ctor_from_empty_fails_assert :
    ArrayPtr.move_assign ArrayPtr.empty ArrayPtr.empty = none ∧
      std_swap_ArrayPtr (Heap.init : Heap Int) ArrayPtr.empty ArrayPtr.empty = none ∧
      move_ctor (Heap.init : Heap Int) empty = none ∧
      move_ctor (⟨[some [1, 2, 3]]⟩ : Heap Int) ⟨⟨⟨1, 0⟩⟩, 3, 3⟩ =
        some (⟨[some [1, 2, 3]]⟩, ⟨⟨⟨1, 0⟩⟩, 3, 3⟩, ⟨⟨⟨0, 0⟩⟩, 0, 0⟩) := by
  decide

end SimpleVector

namespace ArrayPtr

/-- The move constructor and the move assignment of `ArrayPtr` copy the handle and
leave the source as it was. -/
theorem move_leaves_source (this other : ArrayPtr) :
    (move_ctor other).1.raw_ptr_ = other.raw_ptr_ ∧ (move_ctor other).2 = other ∧
      ∀ r, move_assign this other = some r → r.1.raw_ptr_ = other.raw_ptr_ ∧ r.2 = other := by
  refine ⟨rfl, rfl, ?_⟩
  intro r hr
  unfold move_assign at hr
  split at hr
  · simp only [Option.some.injEq] at hr
    rw [← hr]
    exact ⟨rfl, rfl⟩
  · exact absurd hr (by simp)

/-- Claim C12, evaluated on the code: an `ArrayPtr<int>` of three slots is moved
from, by construction and by assignment.  In both cases the destination receives
the handle and the source still holds it (`operator bool` of the source is `true`),
so two instances hold one allocation and the second destructor deletes an array
that is already deleted (the claim says the source is left with the null handle). -/
theorem array_ptr_move_keeps_source_handle :
    create (Heap.init : Heap Int) 3 = (⟨[some [0, 0, 0]]⟩, ⟨⟨1, 0⟩⟩) ∧
      move_ctor ⟨⟨1, 0⟩⟩ = (⟨⟨1, 0⟩⟩, ⟨⟨1, 0⟩⟩) ∧
      toBool (move_ctor ⟨⟨1, 0⟩⟩).2 = true ∧
      move_assign empty ⟨⟨1, 0⟩⟩ = some (⟨⟨1, 0⟩⟩, ⟨⟨1, 0⟩⟩) ∧
      destroy (⟨[some [0, 0, 0]]⟩ : Heap Int) ⟨⟨1, 0⟩⟩ = some ⟨[none]⟩ ∧
      destroy (⟨[none]⟩ : Heap Int) ⟨⟨1, 0⟩⟩ = none := by
  decide

end ArrayPtr

/-! ## Resize to a smaller size -/

namespace SimpleVector

/-- Claim C16: `Resize(n)` with `n < size` succeeds, sets the size to exactly `n`,
keeps the first `n` elements in order, and leaves the capacity, the buffer and the
whole heap as they were (no reallocation). -/
theorem resize_down_keeps_head (h : Heap T) [Element T] (v : SimpleVector) (n : Nat)
    (hn : n < v.GetSize) :
    ∃ v', Resize h v n = some (h, v') ∧ v'.GetSize = n ∧
      toList h v' = (toList h v).take n ∧ v'.GetCapacity = v.GetCapacity ∧
      v'.items_ = v.items_ := by
  obtain ⟨hrun, hlist⟩ := Resize_shrink_spec h v n hn
  exact ⟨_, hrun, rfl, hlist, rfl, rfl⟩

/-- Witness for C16: `Resize(1)` on `{1, 2, 3}`. -/
theorem resize_down_keeps_head_witness :
    1 < GetSize ⟨⟨⟨1, 0⟩⟩, 3, 3⟩ ∧
      ∃ v', Resize (⟨[some [1, 2, 3]]⟩ : Heap Int) ⟨⟨⟨1, 0⟩⟩, 3, 3⟩ 1 =
          some (⟨[some [1, 2, 3]]⟩, v') ∧ v'.GetSize = 1 ∧
        toList (⟨[some [1, 2, 3]]⟩ : Heap Int) v' =
          (toList (⟨[some [1, 2, 3]]⟩ : Heap Int) ⟨⟨⟨1, 0⟩⟩, 3, 3⟩).take 1 ∧
        v'.GetCapacity = GetCapacity ⟨⟨⟨1, 0⟩⟩, 3, 3⟩ ∧
        v'.items_ = (⟨⟨⟨1, 0⟩⟩, 3, 3⟩ : SimpleVector).items_ :=
  ⟨by decide,
    resize_down_keeps_head (⟨[some [1, 2, 3]]⟩ : Heap Int) ⟨⟨⟨1, 0⟩⟩, 3, 3⟩ 1 (by decide)⟩

end SimpleVector

/-! ## The comparison loops on element sequences -/

namespace SimpleVector

end SimpleVector

/-- The two orderings named in C14: `{1, 2, 3} < {1, 2, 4}` and `{1, 2} < {1, 2, 3}`
hold, and neither holds the other way round. -/
theorem operator_lt_examples :
    operator_lt (⟨[some [1, 2, 3], some [1, 2, 4], some [1, 2]]⟩ : Heap Int)
        ⟨⟨⟨1, 0⟩⟩, 3, 3⟩ ⟨⟨⟨2, 0⟩⟩, 3, 3⟩ = some true ∧
      operator_lt (⟨[some [1, 2, 3], some [1, 2, 4], some [1, 2]]⟩ : Heap Int)
        ⟨⟨⟨3, 0⟩⟩, 2, 2⟩ ⟨⟨⟨1, 0⟩⟩, 3, 3⟩ = some true ∧
      operator_lt (⟨[some [1, 2, 3], some [1, 2, 4], some [1, 2]]⟩ : Heap Int)
        ⟨⟨⟨2, 0⟩⟩, 3, 3⟩ ⟨⟨⟨1, 0⟩⟩, 3, 3⟩ = some false ∧
      operator_lt (⟨[some [1, 2, 3], some [1, 2, 4], some [1, 2]]⟩ : Heap Int)
        ⟨⟨⟨1, 0⟩⟩, 3, 3⟩ ⟨⟨⟨3, 0⟩⟩, 2, 2⟩ = some false := by
  decide

/-- Reading the list `take i l ++ [x] ++ map f (drop i l)` position by position. -/
theorem getElem?_insert_map_list (l : List T) (f : T → T) (i : Nat) (x : T)
    (hi : i ≤ l.length) (k : Nat) :
    (l.take i ++ [x] ++ (l.drop i).map f)[k]? =
      if k < i then l[k]? else if k = i then some x else (l[k - 1]?).map f := by
  rw [List.append_assoc, List.getElem?_append]
  simp only [List.length_take, Nat.min_eq_left hi]
  by_cases hk : k < i
  · simp [hk, List.getElem?_take]
  · simp only [hk, if_false]
    by_cases hki : k = i
    · subst hki; simp
    · obtain ⟨j, hj⟩ : ∃ j, k - i = j + 1 := ⟨k - i - 1, by omega⟩
      have e : i + j = k - 1 := by omega
      simp [hki, hj, List.getElem?_drop, e]

namespace SimpleVector

/-- The move overload of `Insert` with room left (`size < capacity`): the elements
from `pos` on are moved one slot up inside the buffer and the value is stored. -/
theorem Insert_move_spec_room [Element T] (h : Heap T) (v : SimpleVector) (i : Nat) (x : T)
    (hwf : WF h v) (hi : i ≤ v.size_) (hlt : v.size_ < v.capacity_) :
    ∃ h', Insert_move h v (v.begin.add i) x =
        some (h', { v with size_ := v.size_ + 1 }, v.begin.add i) ∧
      WF h' { v with size_ := v.size_ + 1 } ∧
      toList h' { v with size_ := v.size_ + 1 } =
        (toList h v).take i ++ [x] ++ (toList h v).drop i := by
  have hlenL := toList_length h v hwf
  have hoff := hwf.2.1
  have hassert : ptr_le v.begin (v.begin.add i) ∧ ptr_le (v.begin.add i) v.end_ := by
    simp only [ptr_le, begin, end_, ArrayPtr.Get, Ptr.add, true_and]
    omega
  have hdiff : ptr_diff (v.begin.add i) v.begin = some i := by
    simp [ptr_diff, ptr_le, begin, ArrayPtr.Get, Ptr.add]
  have hend : v.end_ = (v.begin.add i).add (v.size_ - i) := by
    simp only [begin, end_, ArrayPtr.Get, Ptr.add, Ptr.eq_iff, true_and]
    omega
  have hc : v.capacity_ ≠ 0 := by omega
  have hend1 : v.end_.add 1 = ((v.begin.add i).add 1).add (v.size_ - i) := by
    simp only [begin, end_, ArrayPtr.Get, Ptr.add, Ptr.eq_iff, true_and]
    omega
  obtain ⟨h1, hcb, hlen1, hload1⟩ := move_backward_loop_spec (v.size_ - i) h (v.begin.add i)
    ((v.begin.add i).add 1)
    (fun k hk => by
      have := WF.inb_off h v hwf (i + k) (by omega)
      simpa [begin, ArrayPtr.Get, Ptr.add, Nat.add_assoc] using this)
    (fun k hk => by
      have := WF.inb_off h v hwf (i + (1 + k)) (by omega)
      simpa [begin, ArrayPtr.Get, Ptr.add, Nat.add_assoc] using this)
    (Or.inr (by simp [Ptr.add]))
  obtain ⟨h2, hst⟩ := Heap.store_ok h1 (v.items_.index i) x
    ((Heap.inb_of_len_eq h h1 hlen1 _).2 (WF.inb_off h v hwf i (by omega)))
  have hlen2 := Heap.store_len h1 h2 _ x hst
  have hload2 := Heap.store_load h1 h2 _ x hst
  have hnn : ¬ v.begin.add i = nullptr := by
    intro hc2
    have := WF.blk_ne_zero h v hwf hc
    rw [Ptr.eq_iff] at hc2
    exact this hc2.1
  refine ⟨h2, ?_, ?_, ?_⟩
  · rw [← hend1, ← hend] at hcb
    simp only [Insert_move, hassert, and_self, if_true, hlt, hdiff]
    rw [hend, std_move_backward_range, ← hend, hcb]
    simp only [hst, hnn, if_false]
  · refine ⟨by simpa using hlt, hwf.2.1, ?_⟩
    simp only [hc, if_false]
    exact ((hlen2 _).trans (hlen1 _)).trans (WF.len h v hwf hc)
  · apply toList_eq_of_load
    · simp [hlenL]; omega
    · intro k hk
      simp only [] at hk
      rw [hload2, hload1, getElem?_insert_list _ _ _ (by omega)]
      simp only [ArrayPtr.index, begin, ArrayPtr.Get, Ptr.add, Ptr.eq_iff, true_and, hoff,
        Nat.zero_add]
      by_cases hki : k = i
      · subst hki; simp
      · by_cases hk2 : k < i
        · have c : ¬ (i + 1 ≤ k ∧ k < i + 1 + (v.size_ - i)) := by omega
          have c2 : ¬ (i ≤ k ∧ k < i + (v.size_ - i)) := by omega
          simp only [hki, hk2, c, c2, if_true, if_false]
          have := load_of_toList h v k (by omega)
          rwa [hoff, Nat.zero_add] at this
        · have c : (i + 1 ≤ k ∧ k < i + 1 + (v.size_ - i)) := by omega
          have e : i + (k - (i + 1)) = k - 1 := by omega
          simp only [hki, hk2, c, if_true, if_false, and_self, e, ite_self]
          have := load_of_toList h v (k - 1) (by omega)
          rwa [hoff, Nat.zero_add] at this

/-- The move overload of `Insert` on a full vector (`size == capacity`): every element
is first moved to the new buffer, and the elements from `pos` on are then moved a
second time, out of their moved-from sources, one slot further up. -/
theorem Insert_move_spec_full [Element T] (h : Heap T) (v : SimpleVector) (i : Nat) (x : T)
    (hwf : WF h v) (hi : i ≤ v.size_) (hlt : ¬ v.size_ < v.capacity_) :
    ∃ h', Insert_move h v (v.begin.add i) x =
        some (h', ⟨⟨⟨h.cells.length + 1, 0⟩⟩, v.size_ + 1,
          max (v.size_ + 1) (v.capacity_ * 2)⟩, ⟨h.cells.length + 1, i⟩) ∧
      WF h' ⟨⟨⟨h.cells.length + 1, 0⟩⟩, v.size_ + 1, max (v.size_ + 1) (v.capacity_ * 2)⟩ ∧
      toList h' ⟨⟨⟨h.cells.length + 1, 0⟩⟩, v.size_ + 1,
          max (v.size_ + 1) (v.capacity_ * 2)⟩ =
        (toList h v).take i ++ [x] ++ ((toList h v).drop i).map Element.moved := by
  have hlenL := toList_length h v hwf
  have hoff := hwf.2.1
  have hassert : ptr_le v.begin (v.begin.add i) ∧ ptr_le (v.begin.add i) v.end_ := by
    simp only [ptr_le, begin, end_, ArrayPtr.Get, Ptr.add, true_and]
    omega
  have hdiff : ptr_diff (v.begin.add i) v.begin = some i := by
    simp [ptr_diff, ptr_le, begin, ArrayPtr.Get, Ptr.add]
  have hend : v.end_ = (v.begin.add i).add (v.size_ - i) := by
    simp only [begin, end_, ArrayPtr.Get, Ptr.add, Ptr.eq_iff, true_and]
    omega
  have hsc : v.size_ = v.capacity_ := by have := hwf.1; omega
  have hblk := WF.blk_le h v hwf
  have hne : v.items_.raw_ptr_.blk ≠ h.cells.length + 1 := by omega
  have hM : max (v.size_ + 1) (v.capacity_ * 2) ≠ 0 := by omega
  have hlen1 := Heap.new_array_len (T := T) h (max (v.size_ + 1) (v.capacity_ * 2))
  have hload1 := Heap.new_array_load (T := T) h (max (v.size_ + 1) (v.capacity_ * 2))
  have hl1 : (h.new_array (max (v.size_ + 1) (v.capacity_ * 2))).1.len v.items_.raw_ptr_.blk =
      h.len v.items_.raw_ptr_.blk := by
    rw [hlen1, if_neg hne]
  have hn1 : (h.new_array (max (v.size_ + 1) (v.capacity_ * 2))).1.len (h.cells.length + 1) =
      some (max (v.size_ + 1) (v.capacity_ * 2)) := by
    rw [hlen1, if_pos rfl]
  obtain ⟨h2, hmv, hlen2, hload2⟩ := move_loop_spec v.size_
    (h.new_array (max (v.size_ + 1) (v.capacity_ * 2))).1 v.begin ⟨h.cells.length + 1, 0⟩
    (fun k hk => WF.inb_after h _ v hwf hl1 k (by omega))
    (fun k hk => ⟨_, hn1, by show 0 + k < _; omega⟩) (Or.inl hne)
  have hl2 : h2.len v.items_.raw_ptr_.blk = h.len v.items_.raw_ptr_.blk := by
    rw [hlen2, hl1]
  have hn2 : h2.len (h.cells.length + 1) = some (max (v.size_ + 1) (v.capacity_ * 2)) := by
    rw [hlen2, hn1]
  obtain ⟨h3, hcb, hlen3, hload3⟩ := move_backward_loop_spec (v.size_ - i) h2 (v.begin.add i)
    ⟨h.cells.length + 1, i + 1⟩
    (fun k hk => by
      have := WF.inb_after h h2 v hwf hl2 (i + k) (by omega)
      simpa [begin, ArrayPtr.Get, Ptr.add, Nat.add_assoc] using this)
    (fun k hk => ⟨_, hn2, by show i + 1 + k < _; omega⟩) (Or.inl hne)
  have hdl : ((⟨h.cells.length + 1, i + 1⟩ : Ptr).add (v.size_ - i)) =
      ⟨h.cells.length + 1, v.size_ + 1⟩ := by
    simp only [Ptr.add, Ptr.eq_iff, true_and]; omega
  rw [hdl, ← hend] at hcb
  obtain ⟨h4, hst⟩ := Heap.store_ok h3 ⟨h.cells.length + 1, i⟩ x
    ⟨_, by rw [hlen3, hn2], by show i < _; omega⟩
  have hlen4 := Heap.store_len h3 h4 _ x hst
  have hload4 := Heap.store_load h3 h4 _ x hst
  obtain ⟨h5, hdel⟩ := WF.delete_ok h h4 v hwf (by rw [hlen4, hlen3, hl2])
  have hlen5 := Heap.delete_array_len h4 h5 _ hdel
  have hload5 := Heap.delete_array_load h4 h5 _ hdel
  refine ⟨h5, ?_, ?_, ?_⟩
  · have e0 : ArrayPtr.index ⟨if max (v.size_ + 1) (v.capacity_ * 2) = 0 then nullptr
        else ⟨h.cells.length + 1, 0⟩⟩ 0 = ⟨h.cells.length + 1, 0⟩ := by
      simp [hM, ArrayPtr.index, Ptr.add]
    have e1 : (ArrayPtr.index ⟨if max (v.size_ + 1) (v.capacity_ * 2) = 0 then nullptr
        else ⟨h.cells.length + 1, 0⟩⟩ v.size_).add 1 = ⟨h.cells.length + 1, v.size_ + 1⟩ := by
      simp [hM, ArrayPtr.index, Ptr.add]
    have e2 : ArrayPtr.index ⟨if max (v.size_ + 1) (v.capacity_ * 2) = 0 then nullptr
        else ⟨h.cells.length + 1, 0⟩⟩ i = ⟨h.cells.length + 1, i⟩ := by
      simp [hM, ArrayPtr.index, Ptr.add]
    have em : std_move (h.new_array (max (v.size_ + 1) (v.capacity_ * 2))).1 v.begin v.end_
        ⟨h.cells.length + 1, 0⟩ = some h2 := by
      rw [← hmv]
      exact std_move_range _ v.begin _ v.size_
    have eb : std_move_backward h2 (v.begin.add i) v.end_
        ⟨h.cells.length + 1, v.size_ + 1⟩ = some h3 := by
      rw [hend, std_move_backward_range, ← hend, hcb]
    simp only [Insert_move, hassert, and_self, if_true, hlt, if_false, hdiff,
      ArrayPtr.create_eq, e0, e1, e2, em, eb, hst, ArrayPtr.swap, ArrayPtr.destroy, hdel]
    simp [hM, begin, ArrayPtr.Get, Ptr.add]
  · refine ⟨by simp, rfl, ?_⟩
    simp only [hM, if_false]
    show h5.len (h.cells.length + 1) = _
    rw [hlen5, if_neg (Ne.symm hne), hlen4, hlen3, hn2]
  · apply toList_eq_of_load
    · simp [hlenL]; omega
    · intro k hk
      simp only [] at hk
      rw [getElem?_insert_map_list _ _ _ _ (by omega)]
      have hne2 : h.cells.length + 1 ≠ v.items_.raw_ptr_.blk := Ne.symm hne
      simp only [hload5, hload4, hload3, hload2, hload1,
        begin, ArrayPtr.Get, Ptr.add, Ptr.eq_iff, true_and, hoff,
        Nat.zero_add, hne, hne2, false_and, if_false, Nat.zero_le,
        Nat.sub_zero]
      by_cases hki : k = i
      · subst hki; simp
      · by_cases hk2 : k < i
        · have c : ¬ (i + 1 ≤ k ∧ k < i + 1 + (v.size_ - i)) := by omega
          have c2 : k < v.size_ := by omega
          simp only [hki, hk2, c, c2, if_true, if_false]
          have := load_of_toList h v k (by omega)
          rwa [hoff, Nat.zero_add] at this
        · have c : (i + 1 ≤ k ∧ k < i + 1 + (v.size_ - i)) := by omega
          have e : i + (k - (i + 1)) = k - 1 := by omega
          have c3 : k - 1 < v.size_ := by omega
          simp only [hki, hk2, c, c3, if_true, if_false, and_self, e, ite_self]
          have := load_of_toList h v (k - 1) (by omega)
          rw [hoff, Nat.zero_add] at this
          rw [this]

end SimpleVector

/-! ## Growth of the capacity -/

namespace SimpleVector

/-- One `PushBack` call of either overload on a vector that owns its storage. -/
theorem push_back_step [Element T] (mv : Bool) (h : Heap T) (v : SimpleVector) (x : T)
    (hwf : WF h v) :
    ∃ h' v', (if mv then PushBack_move h v x else PushBack h v x) = some (h', v') ∧
      WF h' v' ∧ v'.size_ = v.size_ + 1 ∧
      v'.capacity_ =
        (if v.size_ < v.capacity_ then v.capacity_ else max (v.size_ + 1) (v.capacity_ * 2)) ∧
      toList h' v' = toList h v ++ [x] := by
  cases mv with
  | false => simpa using PushBack_spec h v x hwf
  | true => simpa using PushBack_move_spec h v x hwf

end SimpleVector

/-- A sequence of `PushBack` calls on a vector that owns its storage returns; the
size grows by the number of calls, the values are appended in order, and if `k >= 1`
of the calls reallocate then the final size exceeds `capacity * 2^(k-1)` and, for
`k >= 2`, also `2^(k-2)`. -/
theorem push_back_all_spec [Element T] (xs : List (Bool × T)) :
    ∀ (h : Heap T) (v : SimpleVector), SimpleVector.WF h v →
      ∃ h' v' k, push_back_all xs h v = some (h', v', k) ∧ SimpleVector.WF h' v' ∧
        v'.size_ = v.size_ + xs.length ∧
        SimpleVector.toList h' v' = SimpleVector.toList h v ++ xs.map Prod.snd ∧
        (1 ≤ k → v.capacity_ * 2 ^ (k - 1) < v.size_ + xs.length ∧
          (2 ≤ k → 2 ^ (k - 2) < v.size_ + xs.length)) := by
  induction xs with
  | nil =>
    intro h v hwf
    refine ⟨h, v, 0, rfl, hwf, rfl, by simp, ?_⟩
    intro hk
    omega
  | cons e rest ih =>
    intro h v hwf
    obtain ⟨mv, x⟩ := e
    obtain ⟨h1, v1, hstep, hwf1, hs1, hc1, hl1⟩ := SimpleVector.push_back_step mv h v x hwf
    obtain ⟨h2, v2, k, hrun, hwf2, hs2, hl2, hbound⟩ := ih h1 v1 hwf1
    have hsz := hwf.1
    refine ⟨h2, v2, (if v.size_ < v.capacity_ then 0 else 1) + k, ?_, hwf2, ?_, ?_, ?_⟩
    · simp only [push_back_all, hstep, hrun]
    · rw [hs2, hs1, List.length_cons]; omega
    · rw [hl2, hl1]; simp
    · intro hk
      rw [List.length_cons]
      by_cases hlt : v.size_ < v.capacity_
      · rw [if_pos hlt] at hc1
        simp only [hlt, if_true, Nat.zero_add] at hk ⊢
        obtain ⟨b1, b2⟩ := hbound hk
        rw [hs1, hc1] at b1
        rw [hs1] at b2
        exact ⟨by omega, fun h2k => by have := b2 h2k; omega⟩
      · rw [if_neg hlt] at hc1
        simp only [hlt, if_false] at hk ⊢
        have hsc : v.size_ = v.capacity_ := by omega
        by_cases hk0 : k = 0
        · subst hk0
          refine ⟨by simp; omega, fun h2k => by omega⟩
        · obtain ⟨b1, b2⟩ := hbound (by omega)
          rw [hs1, hc1] at b1
          obtain ⟨j, hj⟩ : ∃ j, k = j + 1 := ⟨k - 1, by omega⟩
          subst hj
          simp only [Nat.add_sub_cancel] at b1
          have e1 : 1 + (j + 1) - 1 = j + 1 := by omega
          have e2 : 1 + (j + 1) - 2 = j := by omega
          rw [e1, e2, pow_succ]
          have hp : 1 ≤ 2 ^ j := Nat.one_le_two_pow
          have m1 : v.capacity_ * 2 * 2 ^ j ≤ max (v.size_ + 1) (v.capacity_ * 2) * 2 ^ j :=
            Nat.mul_le_mul_right _ (le_max_right _ _)
          have m2 : 1 * 2 ^ j ≤ max (v.size_ + 1) (v.capacity_ * 2) * 2 ^ j :=
            Nat.mul_le_mul_right _ (by omega)
          have e3 : v.capacity_ * (2 ^ j * 2) = v.capacity_ * 2 * 2 ^ j := by ring
          rw [e3]
          exact ⟨by omega, fun _ => by omega⟩

/-- Claim C18: `N` sequential `PushBack` calls (of either overload) on a
default-constructed vector all return; afterwards `GetSize()` is `N`, the sequence is
the pushed values in order, and the number of calls that reallocate is at most
`ceil(log2 N) + 1` (for every `N`, in particular for `N >= 1`). -/
theorem push_back_reallocations_logarithmic [Element T] (h : Heap T)
    (xs : List (Bool × T)) :
    ∃ h' v' k, push_back_all xs h SimpleVector.empty = some (h', v', k) ∧
      v'.GetSize = xs.length ∧
      SimpleVector.toList h' v' = xs.map Prod.snd ∧
      k ≤ Nat.clog 2 xs.length + 1 := by
  have hwf : SimpleVector.WF h SimpleVector.empty := by
    simp [SimpleVector.WF, SimpleVector.empty, ArrayPtr.empty, nullptr]
  obtain ⟨h', v', k, hrun, _, hs, hl, hbound⟩ := push_back_all_spec xs h SimpleVector.empty hwf
  refine ⟨h', v', k, hrun, by simpa [SimpleVector.GetSize, SimpleVector.empty] using hs, ?_, ?_⟩
  · rw [hl]
    simp [SimpleVector.toList, SimpleVector.empty]
  · by_cases hk : 2 ≤ k
    · have b := (hbound (by omega)).2 hk
      simp only [SimpleVector.empty, Nat.zero_add] at b
      have := (Nat.pow_lt_iff_lt_clog (by decide : 1 < 2)).1 b
      omega
    · omega

/-- An instance of C18: five calls, the second and the fifth through the `Type&&`
overload; four of them reallocate and `ceil(log2 5) + 1 = 4`. -/
theorem push_back_five_times_example :
    push_back_all [(false, (1 : Int)), (true, 2), (false, 3), (false, 4), (true, 5)]
        Heap.init SimpleVector.empty =
      some (⟨[none, none, none, some [1, 2, 3, 4, 5, 0, 0, 0]]⟩, ⟨⟨⟨4, 0⟩⟩, 5, 8⟩, 4) ∧
      Nat.clog 2 5 + 1 = 4 := by
  refine ⟨by decide, ?_⟩
  have h1 : Nat.clog 2 5 ≤ 3 := (Nat.le_pow_iff_clog_le (by decide : 1 < 2)).1 (by decide)
  have h2 : 2 < Nat.clog 2 5 := (Nat.pow_lt_iff_lt_clog (by decide : 1 < 2)).1 (by decide)
  omega

namespace SimpleVector

/-- The growth policy on a vector that owns its storage: `PushBack` and `Insert` (copy
and move overloads) return; from a full vector (`size == capacity`) they leave the
capacity at `max(size + 1, 2 * capacity)` of the values before the call, and with
`size < capacity` they leave it unchanged.  `Resize(n)` with `n > capacity` returns
and leaves the capacity at `max(n, 2 * capacity)`. -/
theorem growth_policy [Element T] (h : Heap T) (v : SimpleVector) (i : Nat) (x : T)
    (hwf : WF h v) (hi : i ≤ v.GetSize) :
    (∃ h' v', PushBack h v x = some (h', v') ∧
      (v.GetSize = v.GetCapacity →
        v'.GetCapacity = max (v.GetSize + 1) (v.GetCapacity * 2)) ∧
      (v.GetSize < v.GetCapacity → v'.GetCapacity = v.GetCapacity)) ∧
    (∃ h' v', PushBack_move h v x = some (h', v') ∧
      (v.GetSize = v.GetCapacity →
        v'.GetCapacity = max (v.GetSize + 1) (v.GetCapacity * 2)) ∧
      (v.GetSize < v.GetCapacity → v'.GetCapacity = v.GetCapacity)) ∧
    (∃ h' v' p, Insert h v (v.begin.add i) (ConstRef.object x) = some (h', v', p) ∧
      (v.GetSize = v.GetCapacity →
        v'.GetCapacity = max (v.GetSize + 1) (v.GetCapacity * 2)) ∧
      (v.GetSize < v.GetCapacity → v'.GetCapacity = v.GetCapacity)) ∧
    (∃ h' v' p, Insert_move h v (v.begin.add i) x = some (h', v', p) ∧
      (v.GetSize = v.GetCapacity →
        v'.GetCapacity = max (v.GetSize + 1) (v.GetCapacity * 2)) ∧
      (v.GetSize < v.GetCapacity → v'.GetCapacity = v.GetCapacity)) ∧
    (∀ n, n > v.GetCapacity →
      ∃ h' v', Resize h v n = some (h', v') ∧ v'.GetCapacity = max n (v.GetCapacity * 2)) := by
  simp only [GetSize, GetCapacity] at *
  have hsz := hwf.1
  have key : ∀ c : Nat,
      c = (if v.size_ < v.capacity_ then v.capacity_
        else max (v.size_ + 1) (v.capacity_ * 2)) →
      (v.size_ = v.capacity_ → c = max (v.size_ + 1) (v.capacity_ * 2)) ∧
        (v.size_ < v.capacity_ → c = v.capacity_) := by
    intro c hc
    constructor
    · intro e
      rw [hc, if_neg (by omega)]
    · intro e
      rw [hc, if_pos e]
  refine ⟨?_, ?_, ?_, ?_, ?_⟩
  · obtain ⟨h', v', hrun, _, _, hcap, _⟩ := PushBack_spec h v x hwf
    exact ⟨h', v', hrun, key _ hcap⟩
  · obtain ⟨h', v', hrun, _, _, hcap, _⟩ := PushBack_move_spec h v x hwf
    exact ⟨h', v', hrun, key _ hcap⟩
  · obtain ⟨h', v', hrun, _, _, hcap, _⟩ :=
      Insert_spec h v i (ConstRef.object x) x hwf hi rfl (fun _ hp => ConstRef.noConfusion hp)
    exact ⟨h', v', _, hrun, key _ hcap⟩
  · by_cases hlt : v.size_ < v.capacity_
    · obtain ⟨h', hrun, _, _⟩ := Insert_move_spec_room h v i x hwf hi hlt
      exact ⟨h', _, _, hrun, key _ (by simp [hlt])⟩
    · obtain ⟨h', hrun, _, _⟩ := Insert_move_spec_full h v i x hwf hi hlt
      exact ⟨h', _, _, hrun, key _ (by simp [hlt])⟩
  · intro n hn
    obtain ⟨h', v', hrun, _, _, hcap, _⟩ := Resize_grow_spec h v n hwf (by omega) (by omega)
    rw [if_pos hn] at hcap
    exact ⟨h', v', hrun, hcap⟩

/-- An instance of `growth_policy`: the full vector `{1, 2}`, insertion at offset 1. -/
theorem growth_policy_witness :
    WF (⟨[some [1, 2]]⟩ : Heap Int) ⟨⟨⟨1, 0⟩⟩, 2, 2⟩ ∧
      Insert_move (⟨[some [1, 2]]⟩ : Heap Int) ⟨⟨⟨1, 0⟩⟩, 2, 2⟩ ⟨1, 1⟩ 7 =
        some (⟨[none, some [1, 7, 2, 0]]⟩, ⟨⟨⟨2, 0⟩⟩, 3, 4⟩, ⟨2, 1⟩) ∧
      Resize (⟨[some [1, 2]]⟩ : Heap Int) ⟨⟨⟨1, 0⟩⟩, 2, 2⟩ 3 =
        some (⟨[none, some [1, 2, 0, 0]]⟩, ⟨⟨⟨2, 0⟩⟩, 3, 4⟩) ∧
      ∀ n, n > GetCapacity ⟨⟨⟨1, 0⟩⟩, 2, 2⟩ →
        ∃ h' v', Resize (⟨[some [1, 2]]⟩ : Heap Int) ⟨⟨⟨1, 0⟩⟩, 2, 2⟩ n = some (h', v') ∧
          v'.GetCapacity = max n (GetCapacity ⟨⟨⟨1, 0⟩⟩, 2, 2⟩ * 2) :=
  ⟨by decide, by decide, by decide,
    (growth_policy (⟨[some [1, 2]]⟩ : Heap Int) ⟨⟨⟨1, 0⟩⟩, 2, 2⟩ 1 7
      (by decide) (by decide)).2.2.2.2⟩

/-- For an element type whose move is a copy, the move overload of `Insert` on a full
vector leaves the sequence of the copy overload. -/
theorem Insert_move_full_of_trivial_move [Element T] (h : Heap T) (v : SimpleVector)
    (i : Nat) (x : T) (hwf : WF h v) (hi : i ≤ v.size_) (hlt : ¬ v.size_ < v.capacity_)
    (hmv : ∀ y : T, Element.moved y = y) :
    ∃ h' v' p, Insert_move h v (v.begin.add i) x = some (h', v', p) ∧
      toList h' v' = (toList h v).take i ++ [x] ++ (toList h v).drop i := by
  obtain ⟨h', hrun, _, hlist⟩ := Insert_move_spec_full h v i x hwf hi hlt
  refine ⟨h', _, _, hrun, ?_⟩
  rw [hlist]
  have : (fun y : T => Element.moved y) = id := funext hmv
  have e : List.map Element.moved (List.drop i (toList h v)) = List.drop i (toList h v) := by
    show List.map (fun y : T => Element.moved y) _ = _
    rw [this, List.map_id]
  rw [e]

/-- Claim C19, evaluated on the code for `std::string` elements: the full vector
`{"a", "b"}` receives `Insert(begin(), std::move(x))` with `x = "x"`.  The call first
moves both elements to the new buffer and then moves the range from `pos` on a second
time, out of the moved-from sources, so the result is `["x", "", ""]`; the copy
overload gives `["x", "a", "b"]` (the claim says both overloads give that sequence). -/
theorem insert_move_on_full_vector_loses_tail :
    WF (⟨[some ["a", "b"]]⟩ : Heap String) ⟨⟨⟨1, 0⟩⟩, 2, 2⟩ ∧
      toList (⟨[some ["a", "b"]]⟩ : Heap String) ⟨⟨⟨1, 0⟩⟩, 2, 2⟩ = ["a", "b"] ∧
      Insert_move (⟨[some ["a", "b"]]⟩ : Heap String) ⟨⟨⟨1, 0⟩⟩, 2, 2⟩ ⟨1, 0⟩ "x" =
        some (⟨[none, some ["x", "", "", ""]]⟩, ⟨⟨⟨2, 0⟩⟩, 3, 4⟩, ⟨2, 0⟩) ∧
      toList (⟨[none, some ["x", "", "", ""]]⟩ : Heap String) ⟨⟨⟨2, 0⟩⟩, 3, 4⟩ =
        ["x", "", ""] ∧
      Insert (⟨[some ["a", "b"]]⟩ : Heap String) ⟨⟨⟨1, 0⟩⟩, 2, 2⟩ ⟨1, 0⟩
          (ConstRef.object "x") =
        some (⟨[none, some ["x", "a", "b", ""]]⟩, ⟨⟨⟨2, 0⟩⟩, 3, 4⟩, ⟨2, 0⟩) ∧
      toList (⟨[none, some ["x", "a", "b", ""]]⟩ : Heap String) ⟨⟨⟨2, 0⟩⟩, 3, 4⟩ =
        ["x", "a", "b"] := by
  decide

/-! ## Copy assignment -/

/-- The copy constructor leaves every block other than the newly allocated one as it
was. -/
theorem copy_ctor_keeps_blocks [Element T] (h h1 : Heap T) (other v : SimpleVector)
    (hres : copy_ctor h other = some (h1, v)) (c : Nat) (hc : c ≠ h.cells.length + 1) :
    h1.block c = h.block c := by
  by_cases hc0 : c = 0
  · subst hc0; rfl
  · simp only [copy_ctor, ArrayPtr.create_eq] at hres
    split at hres
    · exact absurd hres (by simp)
    · rename_i h2 hcopy
      simp only [Option.some.injEq, Prod.mk.injEq] at hres
      have hd : c ≠ (if other.size_ = 0 then nullptr
          else (⟨h.cells.length + 1, 0⟩ : Ptr)).blk := by
        split
        · exact hc0
        · exact hc
      rw [← hres.1, std_copy_frame _ _ _ _ _ hcopy c hd, Heap.new_array_block, if_neg hc]

/-- Copy assignment between two vectors with different buffers: a copy of `rhs` is
built on a new array, swapped in, and the old buffer of the target is deleted. -/
theorem copy_assign_spec [Element T] (h : Heap T) (a b : SimpleVector)
    (ha : WF h a) (hb : WF h b) (hne : b.items_.Get ≠ a.items_.Get) :
    ∃ h', copy_assign h a b =
        some (h', ⟨⟨if b.size_ = 0 then nullptr else ⟨h.cells.length + 1, 0⟩⟩,
          b.size_, b.capacity_⟩) ∧
      toList h' ⟨⟨if b.size_ = 0 then nullptr else ⟨h.cells.length + 1, 0⟩⟩,
          b.size_, b.capacity_⟩ = toList h b ∧
      h'.block b.items_.raw_ptr_.blk = h.block b.items_.raw_ptr_.blk := by
  obtain ⟨h1, hrun, _, _, hlist⟩ := copy_ctor_spec h b hb
  have hkeep := copy_ctor_keeps_blocks h h1 b _ hrun
  have hablk := WF.blk_le h a ha
  have hbblk := WF.blk_le h b hb
  have hka : h1.block a.items_.raw_ptr_.blk = h.block a.items_.raw_ptr_.blk :=
    hkeep _ (by omega)
  obtain ⟨h2, hdel⟩ := WF.delete_ok h h1 a ha (by simp only [Heap.len, hka])
  have hblock2 := Heap.delete_array_block h1 h2 _ hdel
  have hab : b.items_.raw_ptr_.blk ≠ a.items_.raw_ptr_.blk := by
    intro e
    apply hne
    show b.items_.raw_ptr_ = a.items_.raw_ptr_
    rw [Ptr.eq_iff]
    exact ⟨e, by rw [hb.2.1, ha.2.1]⟩
  refine ⟨h2, ?_, ?_, ?_⟩
  · simp only [copy_assign, hne, ne_eq, not_false_eq_true, if_true, hrun, swap,
      ArrayPtr.swap, destroy, ArrayPtr.destroy, hdel]
  · rw [← hlist]
    apply toList_eq_of_block
    have hfresh : ∀ c : Nat, (c = 0 ∨ c = h.cells.length + 1) → h2.block c = h1.block c := by
      intro c hc
      rw [hblock2]
      by_cases e : c = a.items_.raw_ptr_.blk
      · rw [if_pos e]
        rcases hc with hc | hc
        · subst hc; rfl
        · omega
      · rw [if_neg e]
    apply hfresh
    show (if b.size_ = 0 then nullptr else (⟨h.cells.length + 1, 0⟩ : Ptr)).blk = 0 ∨
      (if b.size_ = 0 then nullptr else (⟨h.cells.length + 1, 0⟩ : Ptr)).blk =
        h.cells.length + 1
    by_cases hs : b.size_ = 0
    · left; simp [hs, nullptr]
    · right; simp [hs]
  · rw [hblock2, if_neg hab]
    exact hkeep _ (by omega)

/-- The part of the assignment contract that the copy assignment keeps: for vectors
`a` and `b` that own their storage and do not share a buffer unless they are the same
vector, the copy assignment `a = b` returns; `a` then has the size, the logical
elements in order and the `GetCapacity()` of `b`, and `b` is unchanged.  The
self-assignment `a = a` returns the heap and `a` as they were. -/
theorem copy_assign_copies_rhs [Element T] (h : Heap T) (a b : SimpleVector)
    (ha : WF h a) (hb : WF h b) (hown : a.items_.Get = b.items_.Get → a = b) :
    (∃ h' a', copy_assign h a b = some (h', a') ∧ a'.GetSize = b.GetSize ∧
      toList h' a' = toList h b ∧ a'.GetCapacity = b.GetCapacity ∧
      toList h' b = toList h b ∧ slots h' b = slots h b) ∧
    copy_assign h a a = some (h, a) := by
  have hself : copy_assign h a a = some (h, a) := by simp [copy_assign]
  refine ⟨?_, hself⟩
  by_cases he : a.items_.Get = b.items_.Get
  · have hab := hown he
    subst hab
    exact ⟨h, a, hself, rfl, rfl, rfl, rfl, rfl⟩
  · obtain ⟨h', hrun, hlist, hblock⟩ := copy_assign_spec h a b ha hb (fun e => he e.symm)
    exact ⟨h', _, hrun, rfl, hlist, rfl, toList_eq_of_block h h' b hblock, hblock⟩

/-- An instance of `copy_assign_copies_rhs`: `a = {7, 8, 9}` with capacity 4 is
assigned `b = {1, 2}`. -/
theorem copy_assign_copies_rhs_witness :
    WF (⟨[some [7, 8, 9, 0], some [1, 2]]⟩ : Heap Int) ⟨⟨⟨1, 0⟩⟩, 3, 4⟩ ∧
      WF (⟨[some [7, 8, 9, 0], some [1, 2]]⟩ : Heap Int) ⟨⟨⟨2, 0⟩⟩, 2, 2⟩ ∧
      copy_assign (⟨[some [7, 8, 9, 0], some [1, 2]]⟩ : Heap Int)
          ⟨⟨⟨1, 0⟩⟩, 3, 4⟩ ⟨⟨⟨2, 0⟩⟩, 2, 2⟩ =
        some (⟨[none, some [1, 2], some [1, 2]]⟩, ⟨⟨⟨3, 0⟩⟩, 2, 2⟩) ∧
      ((∃ h' a', copy_assign (⟨[some [7, 8, 9, 0], some [1, 2]]⟩ : Heap Int)
            ⟨⟨⟨1, 0⟩⟩, 3, 4⟩ ⟨⟨⟨2, 0⟩⟩, 2, 2⟩ = some (h', a') ∧
          a'.GetSize = GetSize ⟨⟨⟨2, 0⟩⟩, 2, 2⟩ ∧
          toList h' a' =
            toList (⟨[some [7, 8, 9, 0], some [1, 2]]⟩ : Heap Int) ⟨⟨⟨2, 0⟩⟩, 2, 2⟩ ∧
          a'.GetCapacity = GetCapacity ⟨⟨⟨2, 0⟩⟩, 2, 2⟩ ∧
          toList h' ⟨⟨⟨2, 0⟩⟩, 2, 2⟩ =
            toList (⟨[some [7, 8, 9, 0], some [1, 2]]⟩ : Heap Int) ⟨⟨⟨2, 0⟩⟩, 2, 2⟩ ∧
          slots h' ⟨⟨⟨2, 0⟩⟩, 2, 2⟩ =
            slots (⟨[some [7, 8, 9, 0], some [1, 2]]⟩ : Heap Int) ⟨⟨⟨2, 0⟩⟩, 2, 2⟩) ∧
        copy_assign (⟨[some [7, 8, 9, 0], some [1, 2]]⟩ : Heap Int)
            ⟨⟨⟨1, 0⟩⟩, 3, 4⟩ ⟨⟨⟨1, 0⟩⟩, 3, 4⟩ =
          some (⟨[some [7, 8, 9, 0], some [1, 2]]⟩, ⟨⟨⟨1, 0⟩⟩, 3, 4⟩)) :=
  ⟨by decide, by decide, by decide,
    copy_assign_copies_rhs (⟨[some [7, 8, 9, 0], some [1, 2]]⟩ : Heap Int)
      ⟨⟨⟨1, 0⟩⟩, 3, 4⟩ ⟨⟨⟨2, 0⟩⟩, 2, 2⟩ (by decide) (by decide) (by decide)⟩

end SimpleVector


/-- A store through a pointer that is not in bounds has no defined outcome. -/
theorem Heap.store_none_of_not_inb (h : Heap T) (p : Ptr) (x : T) (hn : ¬ h.inb p) :
    h.store p x = none := by
  cases hs : h.store p x with
  | none => rfl
  | some h' => exact absurd (Heap.store_inb h h' p x hs) hn

namespace SimpleVector

/-- The copy of a vector with spare capacity, for every source that owns its storage:
the copy records `size < capacity`, and `PushBack` on it stores outside its array, in
both overloads. -/
theorem PushBack_on_copy_with_room [Element T] (h : Heap T) (a : SimpleVector) (x : T)
    (hwf : WF h a) (hlt : a.size_ < a.capacity_) :
    ∃ h1 b, copy_ctor h a = some (h1, b) ∧ b.size_ < b.capacity_ ∧
      PushBack h1 b x = none ∧ PushBack_move h1 b x = none := by
  obtain ⟨h1, hrun, hlen, _, _⟩ := copy_ctor_spec h a hwf
  refine ⟨h1, _, hrun, hlt, ?_⟩
  have hno : ¬ h1.inb (ArrayPtr.index
      ⟨if a.size_ = 0 then nullptr else ⟨h.cells.length + 1, 0⟩⟩ a.size_) := by
    rintro ⟨n, hn, hlt2⟩
    by_cases hs : a.size_ = 0
    · simp [hs, ArrayPtr.index, nullptr, Ptr.add, Heap.len, Heap.block] at hn
    · simp only [hs, if_false, ArrayPtr.index, Ptr.add] at hn hlt2
      rw [hlen] at hn
      simp only [Option.some.injEq] at hn
      omega
  have hst := Heap.store_none_of_not_inb h1 _ x hno
  constructor
  · simp only [PushBack, hlt, if_true, hst]
  · simp only [PushBack_move, hlt, if_true, hst]

/-- The guard of the copy assignment: whenever the two vectors hold the same buffer
pointer, two null buffers included, the assignment changes nothing. -/
theorem copy_assign_of_equal_buffers [Element T] (h : Heap T) (a b : SimpleVector)
    (he : b.items_.Get = a.items_.Get) : copy_assign h a b = some (h, a) := by
  simp [copy_assign, he]

end SimpleVector


namespace SimpleVector

/-! ## Calls that fail on reachable vectors

The theorems of this section run the code on client programs.  Two defects are met:
the copy overload of `Insert` reads its reference argument after it has shifted the
elements (`Insert_of_own_later_element`), and the copy constructor allocates `size_`
slots while recording the source's `capacity_` (`copy_ctor_allocates_size_only`), so
that a copy of a vector with spare capacity takes the `size_ < capacity_` branches
over an array that has no spare slot (`PushBack_on_copy_with_room`). -/

/-- Claim C2, evaluated on the code.  First program: `SimpleVector<int> v{1, 2, 3};
v.Reserve(4); v.Insert(v.begin(), v[2]);`.  The argument is a reference to the third
slot, which holds 3; with room in the buffer the call shifts the elements first and
reads the argument afterwards, when that slot holds 2, so the sequence becomes
`[2, 1, 2, 3]`.  The claim says `[3, 1, 2, 3]`, which is what the same call gives for
an argument outside the vector, and what the reallocating branch gives for the same
aliased argument on the full vector `{1, 2, 3}`.  Second program:
`SimpleVector<int> a{1}; a.Reserve(2); SimpleVector<int> b(a);`, after which `b`
records capacity 2 over an array of one slot, and `b.Insert(b.begin(), 0)` and
`b.Insert(b.end(), 0)` both store outside that array. -/
theorem insert_copy_reads_argument_after_shift :
    Program.run [Command.construct_init [1, 2, 3], Command.mutate 0 (Mutation.reserve 4)]
        (Program.init : Program Int) =
      some ⟨⟨[none, some [1, 2, 3, 0]]⟩, [⟨⟨⟨2, 0⟩⟩, 3, 4⟩]⟩ ∧
    toList (⟨[none, some [1, 2, 3, 0]]⟩ : Heap Int) ⟨⟨⟨2, 0⟩⟩, 3, 4⟩ = [1, 2, 3] ∧
    subscript ⟨⟨⟨2, 0⟩⟩, 3, 4⟩ 2 = some ⟨2, 2⟩ ∧
    (⟨[none, some [1, 2, 3, 0]]⟩ : Heap Int).read (ConstRef.slot ⟨2, 2⟩) = some 3 ∧
    Insert (⟨[none, some [1, 2, 3, 0]]⟩ : Heap Int) ⟨⟨⟨2, 0⟩⟩, 3, 4⟩
        (begin ⟨⟨⟨2, 0⟩⟩, 3, 4⟩) (ConstRef.slot ⟨2, 2⟩) =
      some (⟨[none, some [2, 1, 2, 3]]⟩, ⟨⟨⟨2, 0⟩⟩, 4, 4⟩, ⟨2, 0⟩) ∧
    toList (⟨[none, some [2, 1, 2, 3]]⟩ : Heap Int) ⟨⟨⟨2, 0⟩⟩, 4, 4⟩ = [2, 1, 2, 3] ∧
    Insert (⟨[none, some [1, 2, 3, 0]]⟩ : Heap Int) ⟨⟨⟨2, 0⟩⟩, 3, 4⟩
        (begin ⟨⟨⟨2, 0⟩⟩, 3, 4⟩) (ConstRef.object 3) =
      some (⟨[none, some [3, 1, 2, 3]]⟩, ⟨⟨⟨2, 0⟩⟩, 4, 4⟩, ⟨2, 0⟩) ∧
    Insert (⟨[some [1, 2, 3]]⟩ : Heap Int) ⟨⟨⟨1, 0⟩⟩, 3, 3⟩
        (begin ⟨⟨⟨1, 0⟩⟩, 3, 3⟩) (ConstRef.slot ⟨1, 2⟩) =
      some (⟨[none, some [3, 1, 2, 3, 0, 0]]⟩, ⟨⟨⟨2, 0⟩⟩, 4, 6⟩, ⟨2, 0⟩) ∧
    Program.run [Command.construct_init [1], Command.mutate 0 (Mutation.reserve 2),
        Command.construct_copy 0] (Program.init : Program Int) =
      some ⟨⟨[none, some [1, 0], some [1]]⟩, [⟨⟨⟨2, 0⟩⟩, 1, 2⟩, ⟨⟨⟨3, 0⟩⟩, 1, 2⟩]⟩ ∧
    Insert (⟨[none, some [1, 0], some [1]]⟩ : Heap Int) ⟨⟨⟨3, 0⟩⟩, 1, 2⟩
        (begin ⟨⟨⟨3, 0⟩⟩, 1, 2⟩) (ConstRef.object 0) = none ∧
    Insert (⟨[none, some [1, 0], some [1]]⟩ : Heap Int) ⟨⟨⟨3, 0⟩⟩, 1, 2⟩
        (end_ ⟨⟨⟨3, 0⟩⟩, 1, 2⟩) (ConstRef.object 0) = none := by
  decide

/-- Claim C4, evaluated on the code: `SimpleVector<int> a{1}; a.Reserve(2);
SimpleVector<int> b(a); b.PushBack(5);`.  The copy `b` holds `[1]` with size 1 and
records capacity 2, but its array has one slot.  `PushBack` takes the branch
`size_ < capacity_` and stores at slot 1, which is outside the array, in the copy
overload and in the move overload; the claim says the sequence becomes `[1, 5]`.
The same call on the source `a`, which owns two slots, gives `[1, 5]`. -/
theorem push_back_on_copy_of_reserved_vector_overruns_array :
    Program.run [Command.construct_init [1], Command.mutate 0 (Mutation.reserve 2),
        Command.construct_copy 0] (Program.init : Program Int) =
      some ⟨⟨[none, some [1, 0], some [1]]⟩, [⟨⟨⟨2, 0⟩⟩, 1, 2⟩, ⟨⟨⟨3, 0⟩⟩, 1, 2⟩]⟩ ∧
    toList (⟨[none, some [1, 0], some [1]]⟩ : Heap Int) ⟨⟨⟨3, 0⟩⟩, 1, 2⟩ = [1] ∧
    GetSize ⟨⟨⟨3, 0⟩⟩, 1, 2⟩ < GetCapacity ⟨⟨⟨3, 0⟩⟩, 1, 2⟩ ∧
    (⟨[none, some [1, 0], some [1]]⟩ : Heap Int).len 3 = some 1 ∧
    (⟨[none, some [1, 0], some [1]]⟩ : Heap Int).store
        ((⟨⟨⟨3, 0⟩⟩, 1, 2⟩ : SimpleVector).items_.index 1) 5 = none ∧
    PushBack (⟨[none, some [1, 0], some [1]]⟩ : Heap Int) ⟨⟨⟨3, 0⟩⟩, 1, 2⟩ 5 = none ∧
    PushBack_move (⟨[none, some [1, 0], some [1]]⟩ : Heap Int) ⟨⟨⟨3, 0⟩⟩, 1, 2⟩ 5 = none ∧
    Program.run [Command.construct_init [1], Command.mutate 0 (Mutation.reserve 2),
        Command.construct_copy 0, Command.mutate 1 (Mutation.pushBack 5)]
        (Program.init : Program Int) = none ∧
    PushBack (⟨[none, some [1, 0], some [1]]⟩ : Heap Int) ⟨⟨⟨2, 0⟩⟩, 1, 2⟩ 5 =
      some (⟨[none, some [1, 5], some [1]]⟩, ⟨⟨⟨2, 0⟩⟩, 2, 2⟩) := by
  decide

/-- Claim C8, evaluated on the code: `SimpleVector<int> a{1, 2}; a.Reserve(4);
SimpleVector<int> b(a);` followed by a mutation of `b`.  The copy has the size, the
elements and the `GetCapacity()` of `a`, and `a` is untouched by the copy, but `b`
owns an array of two slots only.  Each of `b.PushBack(5)`, `b.Insert(b.begin(), 5)`
and `b.Resize(3)` stays within the recorded capacity 4 and stores outside the array
of `b`, so the later mutation of `b` has no defined outcome; the claim says `b` can be
mutated and `a` stays as it was.  A mutation that stays inside the two slots
(`b[0] = 9`) leaves `a` unchanged. -/
theorem mutation_of_copy_of_reserved_vector_overruns_array :
    Program.run [Command.construct_init [1, 2], Command.mutate 0 (Mutation.reserve 4),
        Command.construct_copy 0] (Program.init : Program Int) =
      some ⟨⟨[none, some [1, 2, 0, 0], some [1, 2]]⟩,
        [⟨⟨⟨2, 0⟩⟩, 2, 4⟩, ⟨⟨⟨3, 0⟩⟩, 2, 4⟩]⟩ ∧
    copy_ctor (⟨[none, some [1, 2, 0, 0]]⟩ : Heap Int) ⟨⟨⟨2, 0⟩⟩, 2, 4⟩ =
      some (⟨[none, some [1, 2, 0, 0], some [1, 2]]⟩, ⟨⟨⟨3, 0⟩⟩, 2, 4⟩) ∧
    GetSize ⟨⟨⟨3, 0⟩⟩, 2, 4⟩ = GetSize ⟨⟨⟨2, 0⟩⟩, 2, 4⟩ ∧
    GetCapacity ⟨⟨⟨3, 0⟩⟩, 2, 4⟩ = GetCapacity ⟨⟨⟨2, 0⟩⟩, 2, 4⟩ ∧
    toList (⟨[none, some [1, 2, 0, 0], some [1, 2]]⟩ : Heap Int) ⟨⟨⟨3, 0⟩⟩, 2, 4⟩ =
      toList (⟨[none, some [1, 2, 0, 0]]⟩ : Heap Int) ⟨⟨⟨2, 0⟩⟩, 2, 4⟩ ∧
    slots (⟨[none, some [1, 2, 0, 0], some [1, 2]]⟩ : Heap Int) ⟨⟨⟨3, 0⟩⟩, 2, 4⟩ =
      some [1, 2] ∧
    Mutation.applyAll [Mutation.pushBack 5]
        (⟨[none, some [1, 2, 0, 0], some [1, 2]]⟩ : Heap Int) ⟨⟨⟨3, 0⟩⟩, 2, 4⟩ = none ∧
    Mutation.applyAll [Mutation.insert ⟨3, 0⟩ (ConstRef.object 5)]
        (⟨[none, some [1, 2, 0, 0], some [1, 2]]⟩ : Heap Int) ⟨⟨⟨3, 0⟩⟩, 2, 4⟩ = none ∧
    Mutation.applyAll [Mutation.resize 3]
        (⟨[none, some [1, 2, 0, 0], some [1, 2]]⟩ : Heap Int) ⟨⟨⟨3, 0⟩⟩, 2, 4⟩ = none ∧
    Program.run [Command.construct_init [1, 2], Command.mutate 0 (Mutation.reserve 4),
        Command.construct_copy 0, Command.mutate 1 (Mutation.pushBack 5)]
        (Program.init : Program Int) = none ∧
    Mutation.applyAll [Mutation.assign 0 9]
        (⟨[none, some [1, 2, 0, 0], some [1, 2]]⟩ : Heap Int) ⟨⟨⟨3, 0⟩⟩, 2, 4⟩ =
      some (⟨[none, some [1, 2, 0, 0], some [9, 2]]⟩, ⟨⟨⟨3, 0⟩⟩, 2, 4⟩) := by
  decide

/-- Claim C17, evaluated on the code: `SimpleVector<int> a{1}; a.Reserve(2);
SimpleVector<int> b(a);` gives a vector `b` with size 1 and capacity 2, the case
`size < capacity` of the claim, over an array of one slot.  `PushBack` and `Insert`,
in the copy and in the move overload, take the branch without reallocation and store
at slot 1, outside the array, so none of the four calls has a defined outcome; the
claim says each of them returns with the capacity unchanged.  On the source `a` the
four calls return with capacity 2. -/
theorem calls_with_room_on_copy_of_reserved_vector_overrun_array :
    Program.run [Command.construct_init [1], Command.mutate 0 (Mutation.reserve 2),
        Command.construct_copy 0] (Program.init : Program Int) =
      some ⟨⟨[none, some [1, 0], some [1]]⟩, [⟨⟨⟨2, 0⟩⟩, 1, 2⟩, ⟨⟨⟨3, 0⟩⟩, 1, 2⟩]⟩ ∧
    GetSize ⟨⟨⟨3, 0⟩⟩, 1, 2⟩ < GetCapacity ⟨⟨⟨3, 0⟩⟩, 1, 2⟩ ∧
    PushBack (⟨[none, some [1, 0], some [1]]⟩ : Heap Int) ⟨⟨⟨3, 0⟩⟩, 1, 2⟩ 7 = none ∧
    PushBack_move (⟨[none, some [1, 0], some [1]]⟩ : Heap Int) ⟨⟨⟨3, 0⟩⟩, 1, 2⟩ 7 = none ∧
    Insert (⟨[none, some [1, 0], some [1]]⟩ : Heap Int) ⟨⟨⟨3, 0⟩⟩, 1, 2⟩
        (end_ ⟨⟨⟨3, 0⟩⟩, 1, 2⟩) (ConstRef.object 7) = none ∧
    Insert_move (⟨[none, some [1, 0], some [1]]⟩ : Heap Int) ⟨⟨⟨3, 0⟩⟩, 1, 2⟩
        (end_ ⟨⟨⟨3, 0⟩⟩, 1, 2⟩) 7 = none ∧
    (PushBack (⟨[none, some [1, 0], some [1]]⟩ : Heap Int) ⟨⟨⟨2, 0⟩⟩, 1, 2⟩ 7).map
        (fun r => r.2.GetCapacity) = some 2 ∧
    (PushBack_move (⟨[none, some [1, 0], some [1]]⟩ : Heap Int) ⟨⟨⟨2, 0⟩⟩, 1, 2⟩ 7).map
        (fun r => r.2.GetCapacity) = some 2 ∧
    (Insert (⟨[none, some [1, 0], some [1]]⟩ : Heap Int) ⟨⟨⟨2, 0⟩⟩, 1, 2⟩
        (end_ ⟨⟨⟨2, 0⟩⟩, 1, 2⟩) (ConstRef.object 7)).map
        (fun r => r.2.1.GetCapacity) = some 2 ∧
    (Insert_move (⟨[none, some [1, 0], some [1]]⟩ : Heap Int) ⟨⟨⟨2, 0⟩⟩, 1, 2⟩
        (end_ ⟨⟨⟨2, 0⟩⟩, 1, 2⟩) 7).map (fun r => r.2.1.GetCapacity) = some 2 := by
  decide

/-- Claim C15, evaluated on the code: `SimpleVector<int> r(Reserve(5));
SimpleVector<int> b(r); SimpleVector<int> a; a = b;`.  The copy `b` of the empty vector
`r` has a null buffer (no slot is allocated for size 0) and records capacity 5; the
default vector `a` has a null buffer as well.  The guard of the assignment compares
the two buffers, finds them equal and skips the copy, so `a` keeps capacity 0; the
claim says `a` has the capacity of `b` afterwards, which is 5. -/
theorem copy_assign_skipped_between_null_buffers :
    Program.run [Command.construct_reserve (SimpleVectorModel.Reserve 5), Command.construct_copy 0,
        Command.construct_default] (Program.init : Program Int) =
      some ⟨⟨[some [0, 0, 0, 0, 0], some []]⟩,
        [⟨⟨⟨1, 0⟩⟩, 0, 5⟩, ⟨⟨nullptr⟩, 0, 5⟩, ⟨⟨nullptr⟩, 0, 0⟩]⟩ ∧
    Program.run [Command.construct_reserve (SimpleVectorModel.Reserve 5), Command.construct_copy 0,
        Command.construct_default, Command.copy_assign 2 1] (Program.init : Program Int) =
      some ⟨⟨[some [0, 0, 0, 0, 0], some []]⟩,
        [⟨⟨⟨1, 0⟩⟩, 0, 5⟩, ⟨⟨nullptr⟩, 0, 5⟩, ⟨⟨nullptr⟩, 0, 0⟩]⟩ ∧
    ArrayPtr.Get (⟨⟨nullptr⟩, 0, 5⟩ : SimpleVector).items_ =
      ArrayPtr.Get (⟨⟨nullptr⟩, 0, 0⟩ : SimpleVector).items_ ∧
    copy_assign (⟨[some [0, 0, 0, 0, 0], some []]⟩ : Heap Int) ⟨⟨nullptr⟩, 0, 0⟩
        ⟨⟨nullptr⟩, 0, 5⟩ =
      some (⟨[some [0, 0, 0, 0, 0], some []]⟩, ⟨⟨nullptr⟩, 0, 0⟩) ∧
    GetCapacity ⟨⟨nullptr⟩, 0, 0⟩ = 0 ∧
    GetCapacity ⟨⟨nullptr⟩, 0, 5⟩ = 5 := by
  decide

end SimpleVector

end SimpleVectorModel
